import Mathlib

/-!
# Pathfinder: shortest paths and minimum spanning forests

A shallow embedding of `src/Pathfinder.cpp` and a verification of its two
graph algorithms, `findShortestPath` (Dijkstra over a priority queue of
partial paths) and `processInOrderOfCost` (Kruskal over a vector of buckets
of city names), together with the graph construction routine
`addArcToGraph`.

Conventions of the embedding.

* A `Node*` is a natural number: the position of the node object in the
  list `PathfinderGraph.nodes`, which holds the node objects that exist.
  Pointer equality is equality of positions.  A position outside the list is
  not a pointer to a node object (the program dereferences whatever it is
  given, so its behaviour on such a pointer is undefined); the field accesses
  are total functions and yield the empty name and no arcs there.  Node
  objects that exist without being nodes of the graph that is displayed are
  further entries of the list, see `withObjects`.
* An `Arc*` is the record of its three fields.  Two arc objects with equal
  fields are told apart by their positions in the lists that hold them.
* A `double` is an integer: every finite double is a whole multiple of the
  least positive double `2^-1074`, and a cost or priority is given by that
  multiple; `infinity` and its negative stand for the two infinite doubles
  (there is no NaN).  The comparison of doubles is the comparison of the
  integers.  The addition of doubles is `doubleAdd`: the exact sum rounded to
  53 significant bits, ties to even, with overflow to infinity.  Order and
  rounding do not depend on the unit (`round53_mul_two_pow`), so that small
  integers behave like the costs 1.0, 2.0, ... of a map.
* `Set<T>`, `Vector<T>` and `Map<K,V>` of the collection library are lists;
  the iteration order of a `Set` is the order of the list.
* The library headers (`graphtypes.h`, `graph.h`, `path.h`, `pqueue.h`) are
  not part of the source file; the small parts of them that the verified
  functions use are modelled below and marked as such.
-/

namespace Pathfinder

/-! ## Data model -/

/-- The arc record of `graphtypes.h`: `start`, `finish` are node pointers,
`cost` is the length of the connection. -/
structure Arc where
  start : Nat
  finish : Nat
  cost : Int
deriving DecidableEq, Repr

/-- The node record of `graphtypes.h`: the city name and the set of arcs that
leave the node.  (The screen location `loc` is used for drawing only.) -/
structure Node where
  name : String
  arcs : List Arc
deriving DecidableEq, Repr

/-- The graph store: the node objects that exist (a `Node*` is a position in
`nodes`) and the set of all arcs of the graph, `getArcSet()`.  Unless it is
built by `withObjects`, every node object is a node of the graph. -/
structure PathfinderGraph where
  nodes : List Node
  arcSet : List Arc
deriving DecidableEq, Repr

/-- The field access `node->name`. -/
def PathfinderGraph.name (g : PathfinderGraph) (v : Nat) : String :=
  (g.nodes.getD v ⟨"", []⟩).name

/-- The field access `node->arcs`, in the iteration order of the set. -/
def PathfinderGraph.arcs (g : PathfinderGraph) (v : Nat) : List Arc :=
  (g.nodes.getD v ⟨"", []⟩).arcs

/-- Modelled from the spec: the class `Path` of `path.h`, "an ordered
sequence of Edges ... plus a cached or derived total cost = sum of edge
costs".  `add` appends at the end, `removeAt (size - 1)` drops the last arc,
`clear` is the empty list. -/
abbrev Path := List Arc

/-- The total cost of a path in exact arithmetic: the sum of the costs of
its arcs.  This is the total cost that the specification speaks of; what the
program computes is `totalCostDouble`. -/
def totalCost (p : Path) : Int :=
  (p.map Arc.cost).sum

/-! ### The arithmetic of `double` -/

/-- The exponent of `infinity`. -/
def infinityExponent : Nat := 2098

/-- The number `2^2098`, that is `2^1024` in units of `2^-1074`: the least
power of two beyond the finite doubles.  It stands for the double
`+infinity`. -/
def infinity : Nat := (2 ^ 256) ^ 8 * 2 ^ 50

/-- The multiple of `2^k` nearest to `n`, the even multiple on a tie. -/
def roundAt (k n : Nat) : Nat :=
  if 2 * (n % 2 ^ k) < 2 ^ k then n / 2 ^ k * 2 ^ k
  else if 2 ^ k < 2 * (n % 2 ^ k) then (n / 2 ^ k + 1) * 2 ^ k
  else if n / 2 ^ k % 2 = 0 then n / 2 ^ k * 2 ^ k
  else (n / 2 ^ k + 1) * 2 ^ k

/-- The number of binary digits of `n` beyond the first 53: the number of
halvings that bring `n` below `2^53` (`fuel` bounds the halvings). -/
def ulpShift : Nat → Nat → Nat
  | 0, _ => 0
  | fuel + 1, n => if n < 2 ^ 53 then 0 else ulpShift fuel (n / 2) + 1

/-- The number `n` rounded to 53 significant bits, ties to even: the
rounding of the significand of a double. -/
def round53 (n : Nat) : Nat := roundAt (ulpShift n n) n

/-- The magnitude of the double nearest to a real number of magnitude `n`:
rounding to 53 bits, and infinity when the rounded magnitude is beyond the
finite doubles. -/
def roundMagnitude (n : Nat) : Nat :=
  if round53 n < infinity then round53 n else infinity

/-- The double nearest to the number `x` (round to nearest, ties to even,
the rounding mode of the arithmetic of C++). -/
def roundDouble (x : Int) : Int :=
  if 0 ≤ x then (roundMagnitude x.toNat : Int) else -(roundMagnitude (-x).toNat : Int)

/-- The sum `x + y` of two doubles: an infinite operand gives an infinite
sum, otherwise the exact sum is rounded.  (The sum of the two infinities of
opposite sign, which is a NaN, is not modelled: it is given as `infinity`.) -/
def doubleAdd (x y : Int) : Int :=
  if (infinity : Int) ≤ x ∨ (infinity : Int) ≤ y then (infinity : Int)
  else if x ≤ -(infinity : Int) ∨ y ≤ -(infinity : Int) then -(infinity : Int)
  else roundDouble (x + y)

/-- Modelled from the spec: `Path::totalCost()` of `path.h`, the "total cost
= sum of edge costs" of the path as a `double`: the costs of the arcs added
up in the order of the path, starting from `0.0`. -/
def totalCostDouble (p : Path) : Int :=
  p.foldl (fun total arc => doubleAdd total arc.cost) 0

/-! ### The priority queue of `pqueue.h`

`enqueue (value, priority)` stores the value; `dequeue` removes and returns
the value with the numerically lowest priority, the earliest enqueued one
among equals. -/

/-- A priority queue: the entries in the order in which they were enqueued. -/
abbrev PriorityQueue (α : Type) := List (α × Int)

/-- The call `queue.enqueue(value, priority)`. -/
def enqueue {α : Type} (q : PriorityQueue α) (value : α) (priority : Int) :
    PriorityQueue α :=
  q ++ [(value, priority)]

/-- The entry of lowest priority among `x :: q` (the earliest one on a tie)
and the other entries, in their order. -/
def extractMin {α : Type} : (α × Int) → List (α × Int) → (α × Int) × List (α × Int)
  | x, [] => (x, [])
  | x, y :: ys =>
    if x.2 ≤ (extractMin y ys).1.2 then (x, y :: ys)
    else ((extractMin y ys).1, x :: (extractMin y ys).2)

/-- The call `queue.dequeue()`; `none` when the queue is empty. -/
def dequeue {α : Type} : PriorityQueue α → Option (α × PriorityQueue α)
  | [] => none
  | x :: q => some ((extractMin x q).1.1, (extractMin x q).2)

/-! ### The map `fixed` of `findShortestPath` -/

/-- The call `map.containsKey(key)` on a `Map<string, double>`. -/
def containsKey (m : List (String × Int)) (key : String) : Bool :=
  m.any (fun e => e.1 == key)

/-- The call `map.put(key, value)`. -/
def put (m : List (String × Int)) (key : String) (value : Int) : List (String × Int) :=
  if containsKey m key then m.map (fun e => if e.1 == key then (key, value) else e)
  else m ++ [(key, value)]

/-! ## The graph store operations used by `addArcToGraph` -/

/-- Modelled from the spec: `getNode(identifier)` of `graph.h`, which "fails
with `UnknownNodeError` if absent" (`none`); otherwise the node registered
under the name. -/
def getNode (g : PathfinderGraph) (name : String) : Option Nat :=
  let i := g.nodes.findIdx (fun n => n.name == name)
  if i < g.nodes.length then some i else none

/-- Modelled from the spec: `addArc(arc)` of `graph.h`: the arc joins the
arc set of the graph and the outgoing arcs of its start node. -/
def addArc (g : PathfinderGraph) (arc : Arc) : PathfinderGraph :=
  { nodes := g.nodes.modify (fun n => { n with arcs := n.arcs ++ [arc] }) arc.start
    arcSet := g.arcSet ++ [arc] }

/-- The function `addArcToGraph` (lines 273-287): the loop body for `i = 0`
and then for `i = 1`; a failing `getNode` aborts the call. -/
def addArcToGraph (pairCityOne pairCityTwo : String) (distancePairCities : Int)
    (graph : PathfinderGraph) : Option PathfinderGraph := do
  -- i == 0
  let start0 ← getNode graph pairCityOne
  let finish0 ← getNode graph pairCityTwo
  let graph1 := addArc graph ⟨start0, finish0, distancePairCities⟩
  -- i == 1
  let start1 ← getNode graph1 pairCityTwo
  let finish1 ← getNode graph1 pairCityOne
  let graph2 := addArc graph1 ⟨start1, finish1, distancePairCities⟩
  pure graph2

/-! ## Dijkstra: `findShortestPath` (lines 493-516) -/

/-- The local variables of `findShortestPath`. -/
structure SearchState where
  start : Nat
  path : Path
  mainQueue : PriorityQueue Path
  fixed : List (String × Int)
deriving DecidableEq, Repr

/-- The `foreach (Arc *arc in start->arcs)` loop: every arc whose finish is
not fixed is appended to `path`, the extended path is enqueued under its
total cost, and the arc is removed from `path` again. -/
def enqueueArcs (g : PathfinderGraph) (fixed : List (String × Int)) (path : Path) :
    List Arc → PriorityQueue Path → PriorityQueue Path
  | [], q => q
  | arc :: rest, q =>
    if !containsKey fixed (g.name arc.finish) then
      enqueueArcs g fixed path rest
        (enqueue q (path ++ [arc]) (totalCostDouble (path ++ [arc])))
    else enqueueArcs g fixed path rest q

/-- The block `if (!fixed.containsKey(start->name)) { ... }`. -/
def expand (g : PathfinderGraph) (st : SearchState) : SearchState :=
  if !containsKey st.fixed (g.name st.start) then
    let fixed1 := put st.fixed (g.name st.start) (totalCostDouble st.path)
    { st with fixed := fixed1
              mainQueue := enqueueArcs g fixed1 st.path (g.arcs st.start) st.mainQueue }
  else st

/-- The `while (start != finish)` loop, run for at most `fuel` iterations.
`some p` is the returned path; `none` means that the loop did not return
within `fuel` iterations (or that `getArc` was called on an empty path,
which the library reports as an error). -/
def searchLoop (g : PathfinderGraph) (finish : Nat) : Nat → SearchState → Option Path
  | fuel, st =>
    if st.start = finish then some st.path
    else
      match fuel with
      | 0 => none
      | fuel + 1 =>
        match dequeue (expand g st).mainQueue with
        | none => some []
        | some (p, q) =>
          match p.getLast? with
          | none => none
          | some arc =>
            searchLoop g finish fuel
              { start := arc.finish, path := p, mainQueue := q, fixed := (expand g st).fixed }

/-- The function `findShortestPath (start, finish)` on the node objects of
`g`, the loop being given `fuel` iterations. -/
def findShortestPath (fuel : Nat) (g : PathfinderGraph) (start finish : Nat) : Option Path :=
  searchLoop g finish fuel { start := start, path := [], mainQueue := [], fixed := [] }

/-- A number of iterations that is enough for every search in `g`: one more
than the number of arcs that leave the nodes of `g`. -/
def searchFuel (g : PathfinderGraph) : Nat :=
  ((g.nodes.map (fun n => n.arcs.length)).sum) + 1

/-! ## Kruskal: the bucket functions (lines 537-705) -/

/-- The call `set.add(x)` on a `Set<string>`. -/
def setAdd (s : List String) (x : String) : List String :=
  if s.contains x then s else s ++ [x]

/-- The operator `+=` on two `Set<string>`: the union. -/
def setUnion (s t : List String) : List String :=
  t.foldl setAdd s

/-- The function `oneCityInBucketButNotOther` (lines 537-548). -/
def oneCityInBucketButNotOther (i : Nat) (visitedLocations : List (List String))
    (startName finishName : String) : Bool :=
  if ((visitedLocations.getD i []).contains startName &&
      !(visitedLocations.getD i []).contains finishName) ||
     (!(visitedLocations.getD i []).contains startName &&
      (visitedLocations.getD i []).contains finishName) then true
  else false

/-- The function `addNewCitySet` (lines 559-565). -/
def addNewCitySet (startName finishName : String) (visitedLocations : List (List String)) :
    List (List String) :=
  visitedLocations ++ [setAdd (setAdd [] startName) finishName]

/-- The variables that the bucket functions receive by reference. -/
structure BucketState where
  visitedLocations : List (List String)
  numBucketsEndpoints : List Nat
  path : Path
deriving DecidableEq, Repr

/-- The `for` loop of `checkEachBucketOfCities` from index `i` on, with
`remaining = visitedLocations.size() - i` iterations to go.  The result is
the returned flag and the variables after the call. -/
def checkEachBucketOfCitiesFrom (currentArc : Arc) (startName finishName : String) :
    Nat → Nat → BucketState → Bool × BucketState
  | 0, _, st => (false, st)
  | remaining + 1, i, st =>
    if (st.visitedLocations.getD i []).contains startName &&
        (st.visitedLocations.getD i []).contains finishName then (true, st)
    else if oneCityInBucketButNotOther i st.visitedLocations startName finishName then
      if (st.numBucketsEndpoints ++ [i]).length = 2 then
        (true,
          { visitedLocations :=
              (st.visitedLocations.set ((st.numBucketsEndpoints ++ [i]).getD 0 0)
                (setUnion
                  (st.visitedLocations.getD ((st.numBucketsEndpoints ++ [i]).getD 0 0) [])
                  (st.visitedLocations.getD ((st.numBucketsEndpoints ++ [i]).getD 1 0) []))).eraseIdx
                ((st.numBucketsEndpoints ++ [i]).getD 1 0)
            numBucketsEndpoints := st.numBucketsEndpoints ++ [i]
            path := st.path ++ [currentArc] })
      else
        checkEachBucketOfCitiesFrom currentArc startName finishName remaining (i + 1)
          { st with numBucketsEndpoints := st.numBucketsEndpoints ++ [i] }
    else checkEachBucketOfCitiesFrom currentArc startName finishName remaining (i + 1) st

/-- The function `checkEachBucketOfCities` (lines 586-605). -/
def checkEachBucketOfCities (currentArc : Arc) (st : BucketState)
    (startName finishName : String) : Bool × BucketState :=
  checkEachBucketOfCitiesFrom currentArc startName finishName st.visitedLocations.length 0 st

/-- The function `atLeastOneNewCity` (lines 616-630). -/
def atLeastOneNewCity (currentArc : Arc) (st : BucketState)
    (startName finishName : String) : Bool × BucketState :=
  if st.numBucketsEndpoints.length = 1 then
    (true,
      { st with
        visitedLocations :=
          st.visitedLocations.set (st.numBucketsEndpoints.getD 0 0)
            (setAdd (setAdd (st.visitedLocations.getD (st.numBucketsEndpoints.getD 0 0) [])
              startName) finishName)
        path := st.path ++ [currentArc] })
  else if st.numBucketsEndpoints.isEmpty then
    (true,
      { st with
        visitedLocations := addNewCitySet startName finishName st.visitedLocations
        path := st.path ++ [currentArc] })
  else (false, st)

/-- The function `findBucketWithCities` (lines 646-654): the buckets and the
path after the call. -/
def findBucketWithCities (currentArc : Arc) (visitedLocations : List (List String))
    (startName finishName : String) (path : Path) : List (List String) × Path :=
  let st0 : BucketState := ⟨visitedLocations, [], path⟩
  if (checkEachBucketOfCities currentArc st0 startName finishName).1 then
    ((checkEachBucketOfCities currentArc st0 startName finishName).2.visitedLocations,
     (checkEachBucketOfCities currentArc st0 startName finishName).2.path)
  else
    ((atLeastOneNewCity currentArc
        (checkEachBucketOfCities currentArc st0 startName finishName).2
        startName finishName).2.visitedLocations,
     (atLeastOneNewCity currentArc
        (checkEachBucketOfCities currentArc st0 startName finishName).2
        startName finishName).2.path)

/-- The `while (!mainQueue.isEmpty())` loop of `processInOrderOfCost`; the
first argument is the number of entries of the queue, one of which every
iteration removes. -/
def processLoop (g : PathfinderGraph) :
    Nat → PriorityQueue Arc → List (List String) → Path → List (List String) × Path
  | 0, _, visitedLocations, path => (visitedLocations, path)
  | n + 1, mainQueue, visitedLocations, path =>
    match dequeue mainQueue with
    | none => (visitedLocations, path)
    | some (currentArc, rest) =>
      processLoop g n rest
        (findBucketWithCities currentArc visitedLocations
          (g.name currentArc.start) (g.name currentArc.finish) path).1
        (findBucketWithCities currentArc visitedLocations
          (g.name currentArc.start) (g.name currentArc.finish) path).2

/-- The function `processInOrderOfCost` (lines 668-676): the path after the
call, that is the accepted arcs appended to `path`. -/
def processInOrderOfCost (g : PathfinderGraph) (mainQueue : PriorityQueue Arc)
    (path : Path) : Path :=
  (processLoop g mainQueue.length mainQueue [] path).2

/-- The buckets `visitedLocations` at the end of `processInOrderOfCost`. -/
def finalBuckets (g : PathfinderGraph) (mainQueue : PriorityQueue Arc)
    (path : Path) : List (List String) :=
  (processLoop g mainQueue.length mainQueue [] path).1

/-- The queue that `kruskal` fills: every arc under its cost. -/
def arcQueue (arcs : List Arc) : PriorityQueue Arc :=
  arcs.foldl (fun q arc => enqueue q arc arc.cost) []

/-- The function `kruskal` (lines 688-705) without the drawing: the arcs that
are highlighted. -/
def kruskal (g : PathfinderGraph) : Path :=
  if g.nodes.isEmpty then []
  else processInOrderOfCost g (arcQueue g.arcSet) []

/-! ## Vocabulary of the specification -/

/-! ### Graphs and walks -/

/-- Every arc in the arc set of a node of the graph originates at that node
and ends at a node of the graph. -/
def WellFormed (g : PathfinderGraph) : Prop :=
  ∀ v, v < g.nodes.length → ∀ a ∈ g.arcs v, a.start = v ∧ a.finish < g.nodes.length

/-- No two nodes of the graph carry the same name. -/
def UniqueNames (g : PathfinderGraph) : Prop :=
  ∀ u, u < g.nodes.length → ∀ v, v < g.nodes.length → g.name u = g.name v → u = v

/-- No arc of the graph has a negative cost. -/
def NonNegCosts (g : PathfinderGraph) : Prop :=
  ∀ v, v < g.nodes.length → ∀ a ∈ g.arcs v, 0 ≤ a.cost

/-- The arcs `w` form a walk from `s` to `t`: the first arc is taken from the
arc set of `s`, every later arc from the arc set of the finish of the arc
before it, and the last arc ends at `t` (the empty walk stays at `s`). -/
def IsWalk (g : PathfinderGraph) : Nat → Nat → List Arc → Prop
  | s, t, [] => s = t
  | s, t, a :: w => a ∈ g.arcs s ∧ IsWalk g a.finish t w

/-- The path `p` is a non-empty contiguous walk from `s` to `t`: its first
arc originates at `s`, each later arc originates at the destination of the
arc before it, and its last arc ends at `t`. -/
def ContiguousWalk (s t : Nat) (p : Path) : Prop :=
  p.head?.map Arc.start = some s ∧ List.Chain' (fun a b => b.start = a.finish) p ∧
    p.getLast?.map Arc.finish = some t

/-- Every arc of the graph has a reverse arc of equal cost in the graph. -/
def ArcsSymmetric (g : PathfinderGraph) : Prop :=
  ∀ a ∈ g.arcSet, (⟨a.finish, a.start, a.cost⟩ : Arc) ∈ g.arcSet

/-- A graph built through `addArcToGraph` only: the calls that `processArcs`
makes, one for each connection `(cityOne, cityTwo, distance)`. -/
def addArcsToGraph : List (String × String × Int) → PathfinderGraph → Option PathfinderGraph
  | [], graph => some graph
  | (cityOne, cityTwo, distance) :: rest, graph =>
    match addArcToGraph cityOne cityTwo distance graph with
    | none => none
    | some graph1 => addArcsToGraph rest graph1

/-! ### Connectivity and spanning forests

The buckets of the Kruskal functions hold city names, so the cities are
identified by their names: the vertices of the undirected graph that a list
of arcs describes are the names of the end points of the arcs.  In a graph
with unique names this is the graph on the nodes themselves, for which the
same notions are stated as well. -/

/-- The arc joins the cities `x` and `y`, in one direction or the other. -/
def Joins (g : PathfinderGraph) (a : Arc) (x y : String) : Prop :=
  (g.name a.start = x ∧ g.name a.finish = y) ∨ (g.name a.start = y ∧ g.name a.finish = x)

/-- The cities `x` and `y` are connected by a sequence of arcs of the list,
read as undirected connections (the empty sequence connects `x` to itself). -/
def Connected (g : PathfinderGraph) (arcs : List Arc) (x y : String) : Prop :=
  Relation.ReflTransGen (fun u v => ∃ a ∈ arcs, Joins g a u v) x y

/-- The arcs, read as undirected connections, contain no cycle: no arc has
its end points connected by the other arcs of the list.  (An arc from a city
to itself is a cycle, and so are two arcs between the same two cities.) -/
def Acyclic (g : PathfinderGraph) (arcs : List Arc) : Prop :=
  ∀ i a, arcs[i]? = some a →
    ¬ Connected g (arcs.eraseIdx i) (g.name a.start) (g.name a.finish)

/-- The arcs can be added one by one, from the last to the first, each
joining two cities that the arcs after it do not connect. -/
def IsForest (g : PathfinderGraph) : List Arc → Prop
  | [] => True
  | a :: arcs => ¬ Connected g arcs (g.name a.start) (g.name a.finish) ∧ IsForest g arcs

/-- The list `forest` is a spanning forest of the undirected graph that the
list `arcs` describes: it consists of arcs of the graph, contains no cycle,
and connects whatever the graph connects. -/
def IsSpanningForest (g : PathfinderGraph) (arcs forest : List Arc) : Prop :=
  (∀ a ∈ forest, a ∈ arcs) ∧ Acyclic g forest ∧
    ∀ x y, Connected g arcs x y → Connected g forest x y

/-- The arc joins the nodes `u` and `v`, in one direction or the other. -/
def NodeJoins (a : Arc) (u v : Nat) : Prop :=
  (a.start = u ∧ a.finish = v) ∨ (a.start = v ∧ a.finish = u)

/-- The nodes `u` and `v` are connected by a sequence of arcs of the list,
read as undirected connections. -/
def NodeConnected (arcs : List Arc) (u v : Nat) : Prop :=
  Relation.ReflTransGen (fun x y => ∃ a ∈ arcs, NodeJoins a x y) u v

/-- The end points of the arcs are nodes of the graph. -/
def EndsInGraph (g : PathfinderGraph) (arcs : List Arc) : Prop :=
  ∀ a ∈ arcs, a.start < g.nodes.length ∧ a.finish < g.nodes.length

/-- The arcs, read as undirected connections between nodes, contain no
cycle: no arc has its end points connected by the other arcs of the list. -/
def NodeAcyclic (arcs : List Arc) : Prop :=
  ∀ i a, arcs[i]? = some a → ¬ NodeConnected (arcs.eraseIdx i) a.start a.finish

/-- The list `forest` is a spanning forest of the undirected graph on the
nodes that the list `arcs` describes. -/
def IsNodeSpanningForest (arcs forest : List Arc) : Prop :=
  (∀ a ∈ forest, a ∈ arcs) ∧ NodeAcyclic forest ∧
    ∀ u v, NodeConnected arcs u v → NodeConnected forest u v

/-! ### Node objects outside the graph -/

/-- The memory in which, besides the nodes of the graph `g`, the node
objects `objects` exist: objects that were created but never added to the
graph, so that they are not present in it.  Their positions follow the
positions of the nodes of `g`; the nodes of `g` keep their positions (and
with them their names and arcs), and the arc set of the graph is unchanged.
A node `v` is present in the graph `g` when `v < g.nodes.length`. -/
def withObjects (g : PathfinderGraph) (objects : List Node) : PathfinderGraph :=
  { nodes := g.nodes ++ objects, arcSet := g.arcSet }

/-! ### Example maps -/

/-- The three-city map of scenario A: A-B = 1, B-C = 1, A-C = 5, every
connection stored as two arcs. -/
def scenarioA : PathfinderGraph :=
  { nodes := [⟨"A", [⟨0, 1, 1⟩, ⟨0, 2, 5⟩]⟩, ⟨"B", [⟨1, 0, 1⟩, ⟨1, 2, 1⟩]⟩,
              ⟨"C", [⟨2, 1, 1⟩, ⟨2, 0, 5⟩]⟩]
    arcSet := [⟨0, 1, 1⟩, ⟨1, 0, 1⟩, ⟨1, 2, 1⟩, ⟨2, 1, 1⟩, ⟨0, 2, 5⟩, ⟨2, 0, 5⟩] }

/-- The map of scenario C: two cities X and Y and no connection. -/
def scenarioC : PathfinderGraph :=
  { nodes := [⟨"X", []⟩, ⟨"Y", []⟩], arcSet := [] }

/-- A graph with the two nodes A and B and the arc A -> B. -/
def strayGraph : PathfinderGraph :=
  { nodes := [⟨"A", [⟨0, 1, 1⟩]⟩, ⟨"B", []⟩], arcSet := [⟨0, 1, 1⟩] }

/-- The graph `strayGraph` and a node object Z that is not added to it; Z
has an arc to A. -/
def strayMap : PathfinderGraph :=
  withObjects strayGraph [⟨"Z", [⟨2, 0, 1⟩]⟩]

/-- A map with one city and a connection from the city to itself, stored as
two arcs: what `addArcToGraph ("A", "A", 3, graph)` builds. -/
def loopGraph : PathfinderGraph :=
  { nodes := [⟨"A", [⟨0, 0, 3⟩, ⟨0, 0, 3⟩]⟩], arcSet := [⟨0, 0, 3⟩, ⟨0, 0, 3⟩] }

/-! ### Decidability of the hypotheses -/

instance decidableIsWalk (g : PathfinderGraph) :
    ∀ (s t : Nat) (w : List Arc), Decidable (IsWalk g s t w)
  | s, t, [] => inferInstanceAs (Decidable (s = t))
  | _, t, a :: w => @instDecidableAnd _ _ _ (decidableIsWalk g a.finish t w)

instance decidableWellFormed (g : PathfinderGraph) : Decidable (WellFormed g) := by
  unfold WellFormed; infer_instance

instance decidableUniqueNames (g : PathfinderGraph) : Decidable (UniqueNames g) := by
  unfold UniqueNames; infer_instance

instance decidableNonNegCosts (g : PathfinderGraph) : Decidable (NonNegCosts g) := by
  unfold NonNegCosts; infer_instance

instance decidableJoins (g : PathfinderGraph) (a : Arc) (x y : String) :
    Decidable (Joins g a x y) := by
  unfold Joins; infer_instance

instance decidableEndsInGraph (g : PathfinderGraph) (arcs : List Arc) :
    Decidable (EndsInGraph g arcs) := by
  unfold EndsInGraph; infer_instance

/-! ## Vocabulary of the proofs -/

/-! ### The search loop -/

/-- The node at which the path `p` from `s` ends. -/
def endNode (s : Nat) (p : Path) : Nat :=
  match p.getLast? with
  | some a => a.finish
  | none => s

/-- The arcs of the nodes whose name is not fixed: the arcs that the search
may still enqueue. -/
def pending (g : PathfinderGraph) (fixed : List (String × Int)) : Nat :=
  ((g.nodes.filter (fun n => !containsKey fixed n.name)).map (fun n => n.arcs.length)).sum

/-- The termination measure of the search loop. -/
def searchMeasure (g : PathfinderGraph) (st : SearchState) : Nat :=
  st.mainQueue.length + pending g st.fixed

/-- The candidates of the search: the queued paths and, as long as its end
is not fixed, the current path. -/
def InFrontier (g : PathfinderGraph) (st : SearchState) (p : Path) : Prop :=
  (∃ pr, (p, pr) ∈ st.mainQueue) ∨
    (p = st.path ∧ containsKey st.fixed (g.name st.start) = false)

/-- The part of the loop invariant of `findShortestPath` that holds in
every graph: the current path is a walk from `s` to the current node, and
every queue entry is a non-empty walk from `s`, stored under its computed
total cost. -/
def WalkInv (g : PathfinderGraph) (s : Nat) (st : SearchState) : Prop :=
  IsWalk g s st.start st.path ∧
    ∀ z ∈ st.mainQueue,
      z.1 ≠ [] ∧ IsWalk g s (endNode s z.1) z.1 ∧ z.2 = totalCostDouble z.1

/-- The loop invariant of `findShortestPath (s, t)` in a well-formed graph
with unique names.  Besides `WalkInv`: the finish node is not fixed; the
start node is fixed once the first iteration is over; every arc that leads
from a fixed node to a node that is not fixed is covered by a candidate that
ends where the arc ends and, when costs are non-negative, has a computed
total cost no higher than that of any walk to the fixed node followed by the
arc; and no queue entry is stored under less than the computed total cost of
the current path. -/
structure SearchInv (g : PathfinderGraph) (s t : Nat) (st : SearchState) : Prop where
  walks : WalkInv g s st
  finish_free : containsKey st.fixed (g.name t) = false
  source : containsKey st.fixed (g.name s) = true ∨ (st.start = s ∧ st.path = [])
  cross : ∀ x w a, IsWalk g s x w → containsKey st.fixed (g.name x) = true → a ∈ g.arcs x →
    containsKey st.fixed (g.name a.finish) = false →
    ∃ z, InFrontier g st z ∧ endNode s z = a.finish ∧
      (NonNegCosts g → totalCostDouble z ≤ totalCostDouble (w ++ [a]))
  mono : NonNegCosts g → ∀ z ∈ st.mainQueue, totalCostDouble st.path ≤ z.2

/-! ### The buckets -/

/-- Some bucket holds both `x` and `y`. -/
def SameBucket (visitedLocations : List (List String)) (x y : String) : Prop :=
  ∃ b ∈ visitedLocations, x ∈ b ∧ y ∈ b

/-- The buckets are pairwise disjoint. -/
def DisjointBuckets (visitedLocations : List (List String)) : Prop :=
  visitedLocations.Pairwise List.Disjoint

/-- The bucket at index `k` holds both names. -/
def HasBoth (vis : List (List String)) (s f : String) (k : Nat) : Prop :=
  s ∈ vis.getD k [] ∧ f ∈ vis.getD k []

/-- The bucket at index `k` holds neither name. -/
def HasNeither (vis : List (List String)) (s f : String) (k : Nat) : Prop :=
  s ∉ vis.getD k [] ∧ f ∉ vis.getD k []

/-- The bucket at index `k` holds exactly one of the two names. -/
def HasOne (vis : List (List String)) (s f : String) (k : Nat) : Prop :=
  (s ∈ vis.getD k [] ∧ f ∉ vis.getD k []) ∨ (s ∉ vis.getD k [] ∧ f ∈ vis.getD k [])

/-- The four ways in which `findBucketWithCities` ends: the arc is discarded
because some bucket holds both names; two buckets that hold one name each
are merged; the only bucket that holds one of the names is extended; a new
bucket is added.  In the last three cases the arc is accepted. -/
def BucketOutcome (arc : Arc) (vis : List (List String)) (s f : String) (path : Path)
    (res : List (List String) × Path) : Prop :=
  ((∃ k, k < vis.length ∧ HasBoth vis s f k) ∧ res = (vis, path)) ∨
  (∃ k0 k1, k0 < k1 ∧ k1 < vis.length ∧ HasOne vis s f k0 ∧ HasOne vis s f k1 ∧
    res = ((vis.set k0 (setUnion (vis.getD k0 []) (vis.getD k1 []))).eraseIdx k1,
      path ++ [arc])) ∨
  (∃ k0, k0 < vis.length ∧ HasOne vis s f k0 ∧
    (∀ k, k < vis.length → k ≠ k0 → HasNeither vis s f k) ∧
    res = (vis.set k0 (setAdd (setAdd (vis.getD k0 []) s) f), path ++ [arc])) ∨
  ((∀ k, k < vis.length → HasNeither vis s f k) ∧
    res = (vis ++ [setAdd (setAdd [] s) f], path ++ [arc]))

/-- The city `z` is one of `s`, `f` or shares a bucket with one of them. -/
def Near (vis : List (List String)) (s f z : String) : Prop :=
  z = s ∨ z = f ∨ SameBucket vis z s ∨ SameBucket vis z f

/-- What one call of `findBucketWithCities` on disjoint buckets achieves:
the buckets stay disjoint, cities that share a bucket keep sharing one, the
end points of the arc share a bucket afterwards, and the arc is discarded
exactly when its end points shared a bucket before; when it is accepted the
new bucket joins the buckets of the two end points and nothing else. -/
structure StepSpec (arc : Arc) (vis : List (List String)) (s f : String) (path : Path)
    (res : List (List String) × Path) : Prop where
  disjoint : DisjointBuckets res.1
  mono : ∀ x y, SameBucket vis x y → SameBucket res.1 x y
  joined : SameBucket res.1 s f
  cases : (SameBucket vis s f ∧ res = (vis, path)) ∨
    (¬ SameBucket vis s f ∧ res.2 = path ++ [arc] ∧
      ∀ x y, SameBucket res.1 x y → SameBucket vis x y ∨ (Near vis s f x ∧ Near vis s f y))

/-- The loop invariant of `processInOrderOfCost`, for the arcs `processed`
so far: the buckets are pairwise disjoint; cities in one bucket are
connected by accepted arcs; the end points of every processed arc share a
bucket; accepted arcs are processed arcs; no two accepted arcs join the same
two cities; and, as long as no processed arc joins a city to itself, the
accepted arcs contain no cycle. -/
structure KruskalInv (g : PathfinderGraph) (processed : List Arc)
    (vis : List (List String)) (path : Path) : Prop where
  disjoint : DisjointBuckets vis
  sound : ∀ x y, SameBucket vis x y → Connected g path x y
  complete : ∀ a ∈ processed, SameBucket vis (g.name a.start) (g.name a.finish)
  sub : ∀ a ∈ path, a ∈ processed
  once : ∀ x y, path.countP (fun a => decide (Joins g a x y)) ≤ 1
  forest : (∀ a ∈ processed, g.name a.start ≠ g.name a.finish) → Acyclic g path

/-- The part of the loop invariant of `processInOrderOfCost` that concerns
costs, for a queue that holds every arc under its cost: processed arcs cost
no more than queued ones, and the end points of every processed arc are
connected by accepted arcs that cost no more than the arc. -/
structure CostInv (g : PathfinderGraph) (processed : List Arc) (q : PriorityQueue Arc)
    (path : Path) : Prop where
  prio : ∀ z ∈ q, z.2 = z.1.cost
  sorted : ∀ a ∈ processed, ∀ z ∈ q, a.cost ≤ z.2
  light : ∀ e ∈ processed,
    Connected g (path.filter (fun b => decide (b.cost ≤ e.cost)))
      (g.name e.start) (g.name e.finish)

/-- The cities `R` represent the components that the arcs form on the
cities `V`: every city of `V` is connected to a city of `R`, and no two
cities of `R` are connected. -/
def IsTransversal (g : PathfinderGraph) (arcs : List Arc) (V R : Finset String) : Prop :=
  R ⊆ V ∧ (∀ x ∈ V, ∃ r ∈ R, Connected g arcs x r) ∧
    ∀ r ∈ R, ∀ r1 ∈ R, Connected g arcs r r1 → r = r1

/-! ## The search loop with a record of what it did

The function below is `searchLoop` with three ghost variables that do not
influence the search: the nodes for which the block
`if (!fixed.containsKey(start->name))` was entered, the paths passed to
`mainQueue.enqueue`, and the number of iterations of the `while` loop. -/

/-- The ghost variables of the search loop. -/
structure SearchLog where
  expanded : List Nat
  enqueued : List Path
  iterations : Nat
deriving DecidableEq, Repr

/-- The outcome of a run of the search loop: the returned path, whether the
loop ended because `start == finish` (`true`) or because the queue was
empty (`false`), and the ghost variables at the end. -/
structure SearchRun where
  path : Path
  reachedFinish : Bool
  log : SearchLog
deriving DecidableEq, Repr

/-- The paths that one iteration passes to `mainQueue.enqueue`, in order. -/
def newPaths (g : PathfinderGraph) (st : SearchState) : List Path :=
  if !containsKey st.fixed (g.name st.start) then
    (enqueueArcs g (put st.fixed (g.name st.start) (totalCostDouble st.path)) st.path
      (g.arcs st.start) []).map Prod.fst
  else []

/-- The ghost variables after one more iteration, begun in state `st`. -/
def logIteration (g : PathfinderGraph) (st : SearchState) (log : SearchLog) : SearchLog :=
  { expanded :=
      if !containsKey st.fixed (g.name st.start) then log.expanded ++ [st.start]
      else log.expanded
    enqueued := log.enqueued ++ newPaths g st
    iterations := log.iterations + 1 }

/-- The loop of `findShortestPath` as in `searchLoop`, with the ghost
variables. -/
def searchRun (g : PathfinderGraph) (finish : Nat) :
    Nat → SearchState → SearchLog → Option SearchRun
  | fuel, st, log =>
    if st.start = finish then some ⟨st.path, true, log⟩
    else
      match fuel with
      | 0 => none
      | fuel + 1 =>
        match dequeue (expand g st).mainQueue with
        | none => some ⟨[], false, logIteration g st log⟩
        | some (p, q) =>
          match p.getLast? with
          | none => none
          | some arc =>
            searchRun g finish fuel
              { start := arc.finish, path := p, mainQueue := q, fixed := (expand g st).fixed }
              (logIteration g st log)

/-- The run of `findShortestPath (start, finish)` with its record. -/
def findShortestPathRun (fuel : Nat) (g : PathfinderGraph) (start finish : Nat) :
    Option SearchRun :=
  searchRun g finish fuel { start := start, path := [], mainQueue := [], fixed := [] }
    ⟨[], [], 0⟩

/-- The invariant of the ghost variables that gives termination: no node
was expanded twice, the names of the expanded nodes are fixed, the expanded
nodes are nodes of the graph when the graph is well-formed and the search
starts at one of its nodes, and the iterations made so far and the
termination measure together stay below `searchFuel`. -/
def ExpandInv (g : PathfinderGraph) (s : Nat) (st : SearchState) (log : SearchLog) : Prop :=
  log.expanded.Nodup ∧ (∀ v ∈ log.expanded, containsKey st.fixed (g.name v) = true) ∧
    (WellFormed g → s < g.nodes.length → ∀ v ∈ log.expanded, v < g.nodes.length) ∧
    log.iterations + searchMeasure g st + 1 ≤ searchFuel g

/-! ### Simple paths -/

/-- The nodes that the path `p` from `s` visits, in order: `s` and the
finish of every arc. -/
def pathNodes (s : Nat) (p : Path) : List Nat :=
  s :: p.map Arc.finish

/-- The path `p` from `s` is simple: it visits no node twice. -/
def IsSimple (s : Nat) (p : Path) : Prop :=
  (pathNodes s p).Nodup

instance decidableIsSimple (s : Nat) (p : Path) : Decidable (IsSimple s p) := by
  unfold IsSimple; infer_instance

/-- The part of the loop invariant of `findShortestPath` that concerns
simple paths: the current path and every queued path is simple, and the
nodes that such a path visits before its end have fixed names. -/
def SimpleInv (g : PathfinderGraph) (s : Nat) (st : SearchState) : Prop :=
  (IsSimple s st.path ∧
    ∀ v ∈ pathNodes s st.path, v = st.start ∨ containsKey st.fixed (g.name v) = true) ∧
  ∀ z ∈ st.mainQueue, IsSimple s z.1 ∧
    ∀ v ∈ pathNodes s z.1, v = endNode s z.1 ∨ containsKey st.fixed (g.name v) = true

/-- The invariant of the record of the enqueued paths: each is a simple
walk from `s`. -/
def EnqueuedInv (g : PathfinderGraph) (s : Nat) (log : SearchLog) : Prop :=
  ∀ p ∈ log.enqueued, IsSimple s p ∧ IsWalk g s (endNode s p) p

/-! ### The partition into buckets -/

/-- The cities `x` and `y` are linked by a sequence of one or more arcs of
the list, read as undirected connections.  (A city is linked to itself
exactly when some arc of the list ends at it.) -/
def Linked (g : PathfinderGraph) (arcs : List Arc) (x y : String) : Prop :=
  Relation.TransGen (fun u v => ∃ a ∈ arcs, Joins g a u v) x y

/-- The buckets are a partition of the cities met so far into the
components that the accepted arcs form: no bucket is empty, the buckets are
pairwise disjoint, and two names lie in one bucket exactly when they are
linked by accepted arcs. -/
structure IsPartition (g : PathfinderGraph) (vis : List (List String)) (path : Path) :
    Prop where
  nonempty : ∀ b ∈ vis, b ≠ []
  disjoint : DisjointBuckets vis
  classes : ∀ x y, SameBucket vis x y ↔ Linked g path x y

/-- The first `k` values that the queue hands out, in the order of
dequeuing (all of them when `k` is at least the length of the queue). -/
def dequeueFirst {α : Type} : Nat → PriorityQueue α → List α
  | 0, _ => []
  | k + 1, q =>
    match dequeue q with
    | none => []
    | some (a, rest) => a :: dequeueFirst k rest

/-- The buckets and the path after `findBucketWithCities` has been called
for each arc of the list, in order. -/
def handleArcs (g : PathfinderGraph) :
    List Arc → List (List String) → Path → List (List String) × Path
  | [], visitedLocations, path => (visitedLocations, path)
  | currentArc :: rest, visitedLocations, path =>
    handleArcs g rest
      (findBucketWithCities currentArc visitedLocations
        (g.name currentArc.start) (g.name currentArc.finish) path).1
      (findBucketWithCities currentArc visitedLocations
        (g.name currentArc.start) (g.name currentArc.finish) path).2

/-! ## Vocabulary of the optimality of the search -/

/-- A map on which the sums of the costs are rounded: A-B = 2^53, B-C = 1,
C-D = 1, D-E = 1 and A-E = 2^53 + 2, every connection stored as two arcs.
In doubles `2^53 + 1` is `2^53`. -/
def roundingMap : PathfinderGraph :=
  { nodes := [⟨"A", [⟨0, 1, 9007199254740992⟩, ⟨0, 4, 9007199254740994⟩]⟩,
              ⟨"B", [⟨1, 0, 9007199254740992⟩, ⟨1, 2, 1⟩]⟩,
              ⟨"C", [⟨2, 1, 1⟩, ⟨2, 3, 1⟩]⟩,
              ⟨"D", [⟨3, 2, 1⟩, ⟨3, 4, 1⟩]⟩,
              ⟨"E", [⟨4, 3, 1⟩, ⟨4, 0, 9007199254740994⟩]⟩]
    arcSet := [⟨0, 1, 9007199254740992⟩, ⟨1, 0, 9007199254740992⟩, ⟨1, 2, 1⟩, ⟨2, 1, 1⟩,
      ⟨2, 3, 1⟩, ⟨3, 2, 1⟩, ⟨3, 4, 1⟩, ⟨4, 3, 1⟩,
      ⟨0, 4, 9007199254740994⟩, ⟨4, 0, 9007199254740994⟩] }

/-- No sum of costs along a simple path of the graph is rounded or
overflows: every arc cost is a whole multiple of `2^j` and at most `C`, the
product of the number of nodes and `C` is below `2^(53+j)`, and `2^(53+j)`
is not beyond `infinity`.  (For a map whose distances are whole numbers up to
`d`, `j` is 1074 and `C` is `d * 2^1074`.) -/
def SumsExact (g : PathfinderGraph) (j C : Nat) : Prop :=
  53 + j ≤ 2098 ∧ g.nodes.length * C < 2 ^ (53 + j) ∧
    ∀ v, v < g.nodes.length → ∀ a ∈ g.arcs v, ((2 ^ j : Nat) : Int) ∣ a.cost ∧ a.cost ≤ (C : Int)

instance decidableSumsExact (g : PathfinderGraph) (j C : Nat) : Decidable (SumsExact g j C) := by
  unfold SumsExact; infer_instance

/-! # Theorems -/

/-! ## The priority queue -/

theorem extractMin_perm {α : Type} (x : α × Int) (q : List (α × Int)) :
    List.Perm ((extractMin x q).1 :: (extractMin x q).2) (x :: q) := by
  induction q generalizing x with
  | nil => simp [extractMin]
  | cons y ys ih =>
    unfold extractMin
    split
    · exact List.Perm.refl _
    · exact (List.Perm.swap _ _ _).trans ((ih y).cons x)

theorem extractMin_le {α : Type} (x : α × Int) (q : List (α × Int)) :
    ∀ z ∈ x :: q, (extractMin x q).1.2 ≤ z.2 := by
  induction q generalizing x with
  | nil => simp [extractMin]
  | cons y ys ih =>
    intro z hz
    unfold extractMin
    split
    · rename_i h
      rcases List.mem_cons.1 hz with rfl | hz
      · exact le_refl _
      · exact le_trans h (ih y z hz)
    · rename_i h
      rcases List.mem_cons.1 hz with rfl | hz
      · exact le_of_lt (not_le.1 h)
      · exact ih y z hz

theorem dequeue_eq_none {α : Type} (q : PriorityQueue α) : dequeue q = none ↔ q = [] := by
  cases q <;> simp [dequeue]

theorem dequeue_some {α : Type} {q : PriorityQueue α} {v : α} {q1 : PriorityQueue α}
    (h : dequeue q = some (v, q1)) :
    ∃ pr, List.Perm ((v, pr) :: q1) q ∧ ∀ z ∈ q, pr ≤ z.2 := by
  cases q with
  | nil => simp [dequeue] at h
  | cons x q =>
    simp only [dequeue, Option.some.injEq, Prod.mk.injEq] at h
    obtain ⟨rfl, rfl⟩ := h
    exact ⟨(extractMin x q).1.2, extractMin_perm x q, extractMin_le x q⟩

/-! ## The map `fixed` -/

theorem containsKey_put (m : List (String × Int)) (k : String) (v : Int) (k1 : String) :
    containsKey (put m k v) k1 = true ↔ k1 = k ∨ containsKey m k1 = true := by
  unfold put
  split
  · rename_i h
    simp only [containsKey, List.any_map, List.any_eq_true, Function.comp, beq_iff_eq] at h ⊢
    constructor
    · rintro ⟨e, he, h1⟩
      by_cases hk : e.1 = k
      · left; simpa [hk] using h1.symm
      · right; exact ⟨e, he, by simpa [hk] using h1⟩
    · rintro (rfl | ⟨e, he, h1⟩)
      · obtain ⟨e, he, h1⟩ := h
        exact ⟨e, he, by simp [h1]⟩
      · refine ⟨e, he, ?_⟩
        by_cases hk : e.1 = k
        · simp [hk]; rw [← h1, hk]
        · simpa [hk] using h1
  · simp only [containsKey, List.any_append, List.any_cons, List.any_nil, Bool.or_false,
      Bool.or_eq_true, beq_iff_eq, List.any_eq_true]
    constructor
    · rintro (h | h)
      · exact Or.inr h
      · exact Or.inl h.symm
    · rintro (h | h)
      · exact Or.inr h.symm
      · exact Or.inl h

theorem containsKey_put_self (m : List (String × Int)) (k : String) (v : Int) :
    containsKey (put m k v) k = true :=
  (containsKey_put m k v k).2 (Or.inl rfl)

theorem containsKey_put_false {m : List (String × Int)} {k : String} {v : Int} {k1 : String}
    (h : containsKey (put m k v) k1 = false) : k1 ≠ k ∧ containsKey m k1 = false := by
  constructor
  · rintro rfl
    rw [containsKey_put_self] at h
    exact Bool.noConfusion h
  · cases h1 : containsKey m k1
    · rfl
    · rw [(containsKey_put m k v k1).2 (Or.inr h1)] at h
      exact Bool.noConfusion h

/-! ## Walks -/

theorem isWalk_append {g : PathfinderGraph} {s x t : Nat} {w1 w2 : List Arc}
    (h1 : IsWalk g s x w1) (h2 : IsWalk g x t w2) : IsWalk g s t (w1 ++ w2) := by
  induction w1 generalizing s with
  | nil =>
    simp only [IsWalk] at h1
    subst h1
    simpa using h2
  | cons a w ih => exact ⟨h1.1, ih h1.2⟩

theorem isWalk_snoc_iff {g : PathfinderGraph} {s t : Nat} {w : List Arc} {a : Arc} :
    IsWalk g s t (w ++ [a]) ↔ ∃ x, IsWalk g s x w ∧ a ∈ g.arcs x ∧ a.finish = t := by
  induction w generalizing s with
  | nil =>
    simp only [List.nil_append, IsWalk]
    constructor
    · rintro ⟨h1, h2⟩
      exact ⟨s, rfl, h1, h2⟩
    · rintro ⟨x, rfl, h1, h2⟩
      exact ⟨h1, h2⟩
  | cons b w ih =>
    simp only [List.cons_append, IsWalk]
    constructor
    · rintro ⟨h1, h2⟩
      obtain ⟨x, h3, h4, h5⟩ := ih.1 h2
      exact ⟨x, ⟨h1, h3⟩, h4, h5⟩
    · rintro ⟨x, ⟨h1, h3⟩, h4, h5⟩
      exact ⟨h1, ih.2 ⟨x, h3, h4, h5⟩⟩

theorem endNode_snoc (s : Nat) (p : Path) (a : Arc) : endNode s (p ++ [a]) = a.finish := by
  simp [endNode]

theorem endNode_nil (s : Nat) : endNode s [] = s := rfl

theorem isWalk_endNode {g : PathfinderGraph} {s t : Nat} {w : List Arc}
    (h : IsWalk g s t w) : endNode s w = t := by
  induction w using List.reverseRecOn with
  | nil => exact h
  | append_singleton w a _ =>
    obtain ⟨x, _, _, h3⟩ := isWalk_snoc_iff.1 h
    rw [endNode_snoc, h3]

theorem isWalk_lt {g : PathfinderGraph} (hwf : WellFormed g) {s t : Nat} {w : List Arc}
    (hs : s < g.nodes.length) (h : IsWalk g s t w) : t < g.nodes.length := by
  induction w generalizing s with
  | nil =>
    simp only [IsWalk] at h
    exact h ▸ hs
  | cons a w ih => exact ih (hwf s hs a h.1).2 h.2

/-! ## The arithmetic of `double` -/

/-! ### Properties of the rounding -/

theorem infinity_eq : infinity = 2 ^ infinityExponent := by
  unfold infinity infinityExponent
  rw [← pow_mul, ← pow_add]

theorem infinity_pos : 0 < infinity := by
  rw [infinity_eq]
  exact Nat.two_pow_pos _

theorem roundAt_le_succ (k n : Nat) : roundAt k n ≤ (n / 2 ^ k + 1) * 2 ^ k := by
  unfold roundAt
  have h : n / 2 ^ k * 2 ^ k ≤ (n / 2 ^ k + 1) * 2 ^ k :=
    Nat.mul_le_mul_right _ (Nat.le_succ _)
  split_ifs <;> first | exact h | exact le_refl _

theorem le_roundAt (k n : Nat) : n / 2 ^ k * 2 ^ k ≤ roundAt k n := by
  unfold roundAt
  have h : n / 2 ^ k * 2 ^ k ≤ (n / 2 ^ k + 1) * 2 ^ k :=
    Nat.mul_le_mul_right _ (Nat.le_succ _)
  split_ifs <;> first | exact h | exact le_refl _

theorem roundAt_mono (k : Nat) {n m : Nat} (h : n ≤ m) : roundAt k n ≤ roundAt k m := by
  have hq : n / 2 ^ k ≤ m / 2 ^ k := Nat.div_le_div_right h
  rcases Nat.lt_or_ge (n / 2 ^ k) (m / 2 ^ k) with hlt | hge
  · calc roundAt k n ≤ (n / 2 ^ k + 1) * 2 ^ k := roundAt_le_succ k n
      _ ≤ m / 2 ^ k * 2 ^ k := Nat.mul_le_mul_right _ hlt
      _ ≤ roundAt k m := le_roundAt k m
  · have heq : n / 2 ^ k = m / 2 ^ k := le_antisymm hq hge
    have hr : n % 2 ^ k ≤ m % 2 ^ k := by
      have h1 := Nat.div_add_mod n (2 ^ k)
      have h2 := Nat.div_add_mod m (2 ^ k)
      rw [heq] at h1
      omega
    have hs : m / 2 ^ k * 2 ^ k ≤ (m / 2 ^ k + 1) * 2 ^ k :=
      Nat.mul_le_mul_right _ (Nat.le_succ _)
    unfold roundAt
    rw [heq]
    split_ifs <;> first | exact le_refl _ | exact hs | omega

theorem roundAt_of_dvd (k n : Nat) (h : 2 ^ k ∣ n) : roundAt k n = n := by
  have hpos : 0 < 2 ^ k := Nat.two_pow_pos k
  have hr : n % 2 ^ k = 0 := Nat.mod_eq_zero_of_dvd h
  unfold roundAt
  rw [hr, if_pos (by omega)]
  exact Nat.div_mul_cancel h

theorem dvd_roundAt (k n : Nat) : 2 ^ k ∣ roundAt k n := by
  unfold roundAt
  split_ifs <;> exact Dvd.intro_left _ rfl

/-- The shift of a number below `2^53` is zero; the shift `k` of any other
number `n` is the one with `2^(52+k) ≤ n < 2^(53+k)`. -/
theorem ulpShift_spec : ∀ (fuel n : Nat), n ≤ fuel →
    (n < 2 ^ 53 ∧ ulpShift fuel n = 0) ∨
      (2 ^ 53 ≤ n ∧ 2 ^ (52 + ulpShift fuel n) ≤ n ∧ n < 2 ^ (53 + ulpShift fuel n))
  | 0, n, h => by
    left
    have h0 : n = 0 := by omega
    subst h0
    exact ⟨Nat.two_pow_pos 53, rfl⟩
  | fuel + 1, n, h => by
    by_cases hn : n < 2 ^ 53
    · left
      exact ⟨hn, by rw [ulpShift, if_pos hn]⟩
    · right
      have hs : ulpShift (fuel + 1) n = ulpShift fuel (n / 2) + 1 := by
        rw [ulpShift, if_neg hn]
      rw [hs]
      refine ⟨by omega, ?_⟩
      rcases ulpShift_spec fuel (n / 2) (by omega) with ⟨h1, h2⟩ | ⟨_, h2, h3⟩
      · rw [h2]
        have e1 : (2 : Nat) ^ (52 + (0 + 1)) = 2 ^ 53 := rfl
        have e2 : (2 : Nat) ^ (53 + (0 + 1)) = 2 * 2 ^ 53 := rfl
        rw [e1, e2]
        omega
      · have e1 : (2 : Nat) ^ (52 + (ulpShift fuel (n / 2) + 1)) =
            2 * 2 ^ (52 + ulpShift fuel (n / 2)) := by
          rw [← Nat.add_assoc, Nat.pow_succ, Nat.mul_comm]
        have e2 : (2 : Nat) ^ (53 + (ulpShift fuel (n / 2) + 1)) =
            2 * 2 ^ (53 + ulpShift fuel (n / 2)) := by
          rw [← Nat.add_assoc, Nat.pow_succ, Nat.mul_comm]
        rw [e1, e2]
        omega

theorem round53_small {n : Nat} (h : n < 2 ^ 53) : round53 n = n := by
  rcases ulpShift_spec n n (le_refl _) with ⟨_, h2⟩ | ⟨h1, _⟩
  · unfold round53
    rw [h2]
    exact roundAt_of_dvd 0 n (by simp)
  · omega

theorem two_pow_lt_iff {a b : Nat} : (2 : Nat) ^ a < 2 ^ b ↔ a < b :=
  Nat.pow_lt_pow_iff_right (by decide)

theorem two_pow_le_iff {a b : Nat} : (2 : Nat) ^ a ≤ 2 ^ b ↔ a ≤ b :=
  Nat.pow_le_pow_iff_right (by decide)

theorem round53_bounds {n : Nat} (h : 2 ^ 53 ≤ n) :
    2 ^ (52 + ulpShift n n) ≤ round53 n ∧ round53 n ≤ 2 ^ (53 + ulpShift n n) ∧
      2 ^ ulpShift n n ∣ round53 n := by
  rcases ulpShift_spec n n (le_refl _) with ⟨h1, _⟩ | ⟨_, h2, h3⟩
  · omega
  · refine ⟨?_, ?_, dvd_roundAt _ _⟩
    · have := roundAt_mono (ulpShift n n) h2
      rwa [roundAt_of_dvd _ _ (Nat.pow_dvd_pow 2 (by omega))] at this
    · have := roundAt_mono (ulpShift n n) (Nat.le_of_lt h3)
      rwa [roundAt_of_dvd _ _ (Nat.pow_dvd_pow 2 (by omega))] at this

theorem ulpShift_unique {n k : Nat} (h1 : 2 ^ (52 + k) ≤ n) (h2 : n < 2 ^ (53 + k))
    (hk : 2 ^ 53 ≤ n) : ulpShift n n = k := by
  rcases ulpShift_spec n n (le_refl _) with ⟨h3, _⟩ | ⟨_, h4, h5⟩
  · omega
  · have a1 : 52 + k < 53 + ulpShift n n := two_pow_lt_iff.1 (lt_of_le_of_lt h1 h5)
    have a2 : 52 + ulpShift n n < 53 + k := two_pow_lt_iff.1 (lt_of_le_of_lt h4 h2)
    omega

theorem ulpShift_pos {n : Nat} (h : 2 ^ 53 ≤ n) : 1 ≤ ulpShift n n := by
  rcases ulpShift_spec n n (le_refl _) with ⟨h3, _⟩ | ⟨_, _, h5⟩
  · omega
  · have : 53 < 53 + ulpShift n n := two_pow_lt_iff.1 (lt_of_le_of_lt h h5)
    omega

theorem round53_zero : round53 0 = 0 := round53_small (Nat.two_pow_pos 53)

theorem round53_mono {n m : Nat} (h : n ≤ m) : round53 n ≤ round53 m := by
  by_cases hm : m < 2 ^ 53
  · rw [round53_small hm, round53_small (lt_of_le_of_lt h hm)]; exact h
  have hm : 2 ^ 53 ≤ m := Nat.le_of_not_lt hm
  obtain ⟨m1, m2, _⟩ := round53_bounds hm
  have hsm : 2 ^ 53 ≤ round53 m :=
    le_trans (two_pow_le_iff.2 (by have := ulpShift_pos hm; omega)) m1
  by_cases hn : n < 2 ^ 53
  · rw [round53_small hn]; omega
  have hn : 2 ^ 53 ≤ n := Nat.le_of_not_lt hn
  obtain ⟨n1, n2, _⟩ := round53_bounds hn
  rcases ulpShift_spec n n (le_refl _) with ⟨h3, _⟩ | ⟨_, h4, h5⟩
  · omega
  rcases ulpShift_spec m m (le_refl _) with ⟨h6, _⟩ | ⟨_, h7, h8⟩
  · omega
  have hle : 52 + ulpShift n n < 53 + ulpShift m m :=
    two_pow_lt_iff.1 (lt_of_le_of_lt h4 (lt_of_le_of_lt h h8))
  rcases Nat.lt_or_ge (ulpShift n n) (ulpShift m m) with hlt | hge
  · calc round53 n ≤ 2 ^ (53 + ulpShift n n) := n2
      _ ≤ 2 ^ (52 + ulpShift m m) := two_pow_le_iff.2 (by omega)
      _ ≤ round53 m := m1
  · have heq : ulpShift n n = ulpShift m m := by omega
    unfold round53
    rw [heq]
    exact roundAt_mono _ h

/-- A multiple of `2^j` below `2^(53+j)` has at most 53 significant bits. -/
theorem round53_of_dvd {n j : Nat} (hdvd : 2 ^ j ∣ n) (hlt : n < 2 ^ (53 + j)) :
    round53 n = n := by
  rcases ulpShift_spec n n (le_refl _) with ⟨h3, _⟩ | ⟨_, h4, _⟩
  · exact round53_small h3
  · have hle : 52 + ulpShift n n < 53 + j := two_pow_lt_iff.1 (lt_of_le_of_lt h4 hlt)
    exact roundAt_of_dvd _ _ (dvd_trans (Nat.pow_dvd_pow 2 (by omega)) hdvd)

theorem round53_two_pow (e : Nat) : round53 (2 ^ e) = 2 ^ e :=
  round53_of_dvd (dvd_refl _) (two_pow_lt_iff.2 (by omega))

theorem round53_idem (n : Nat) : round53 (round53 n) = round53 n := by
  by_cases hn : n < 2 ^ 53
  · rw [round53_small hn, round53_small hn]
  have hn : 2 ^ 53 ≤ n := Nat.le_of_not_lt hn
  obtain ⟨h1, h2, h3⟩ := round53_bounds hn
  rcases Nat.lt_or_ge (round53 n) (2 ^ (53 + ulpShift n n)) with hlt | hge
  · exact round53_of_dvd h3 hlt
  · rw [le_antisymm h2 hge]
    exact round53_two_pow _

theorem roundAt_mul_two_pow (s k n : Nat) :
    roundAt (s + k) (n * 2 ^ k) = roundAt s n * 2 ^ k := by
  have hK : 0 < 2 ^ k := Nat.two_pow_pos k
  have hdiv : n * 2 ^ k / 2 ^ (s + k) = n / 2 ^ s := by
    rw [Nat.pow_add]
    exact Nat.mul_div_mul_right _ _ hK
  have hmod : n * 2 ^ k % 2 ^ (s + k) = n % 2 ^ s * 2 ^ k := by
    rw [Nat.pow_add]
    exact Nat.mul_mod_mul_right _ _ _
  have hlt : 2 * (n % 2 ^ s * 2 ^ k) < 2 ^ (s + k) ↔ 2 * (n % 2 ^ s) < 2 ^ s := by
    rw [Nat.pow_add, ← Nat.mul_assoc]
    exact Nat.mul_lt_mul_right hK
  have hgt : 2 ^ (s + k) < 2 * (n % 2 ^ s * 2 ^ k) ↔ 2 ^ s < 2 * (n % 2 ^ s) := by
    rw [Nat.pow_add, ← Nat.mul_assoc]
    exact Nat.mul_lt_mul_right hK
  have e1 : n / 2 ^ s * 2 ^ (s + k) = n / 2 ^ s * 2 ^ s * 2 ^ k := by
    rw [Nat.pow_add, Nat.mul_assoc]
  have e2 : (n / 2 ^ s + 1) * 2 ^ (s + k) = (n / 2 ^ s + 1) * 2 ^ s * 2 ^ k := by
    rw [Nat.pow_add, Nat.mul_assoc]
  unfold roundAt
  rw [hdiv, hmod, e1, e2]
  simp only [hlt, hgt]
  split_ifs <;> rfl

/-- Rounding does not depend on the unit in which the numbers are given. -/
theorem round53_mul_two_pow (n k : Nat) : round53 (n * 2 ^ k) = round53 n * 2 ^ k := by
  have hK : 0 < 2 ^ k := Nat.two_pow_pos k
  by_cases hn : n < 2 ^ 53
  · rw [round53_small hn]
    refine round53_of_dvd (Dvd.intro_left _ rfl) ?_
    rw [Nat.pow_add]
    exact (Nat.mul_lt_mul_right hK).2 hn
  have hn : 2 ^ 53 ≤ n := Nat.le_of_not_lt hn
  rcases ulpShift_spec n n (le_refl _) with ⟨h3, _⟩ | ⟨_, h4, h5⟩
  · omega
  have hs : ulpShift (n * 2 ^ k) (n * 2 ^ k) = ulpShift n n + k := by
    apply ulpShift_unique
    · rw [← Nat.add_assoc, Nat.pow_add]
      exact Nat.mul_le_mul_right _ h4
    · rw [← Nat.add_assoc, Nat.pow_add]
      exact (Nat.mul_lt_mul_right hK).2 h5
    · calc 2 ^ 53 ≤ n := hn
        _ ≤ n * 2 ^ k := Nat.le_mul_of_pos_right _ hK
  unfold round53
  rw [hs]
  exact roundAt_mul_two_pow _ _ _

theorem round53_infinity : round53 infinity = infinity := by
  rw [infinity_eq]
  exact round53_two_pow _

theorem roundMagnitude_le (n : Nat) : roundMagnitude n ≤ infinity := by
  unfold roundMagnitude
  split_ifs with h
  · exact Nat.le_of_lt h
  · exact le_refl _

theorem roundMagnitude_mono {n m : Nat} (h : n ≤ m) : roundMagnitude n ≤ roundMagnitude m := by
  have := round53_mono h
  unfold roundMagnitude
  split_ifs <;> omega

theorem roundMagnitude_idem (n : Nat) : roundMagnitude (roundMagnitude n) = roundMagnitude n := by
  unfold roundMagnitude
  by_cases h : round53 n < infinity
  · rw [if_pos h, round53_idem, if_pos h]
  · rw [if_neg h, round53_infinity, if_neg (lt_irrefl _)]

theorem roundMagnitude_zero : roundMagnitude 0 = 0 := by
  unfold roundMagnitude
  rw [round53_zero, if_pos infinity_pos]

theorem roundMagnitude_of_dvd {n j : Nat} (hdvd : 2 ^ j ∣ n) (hlt : n < 2 ^ (53 + j))
    (hfin : 53 + j ≤ infinityExponent) : roundMagnitude n = n := by
  unfold roundMagnitude
  rw [round53_of_dvd hdvd hlt, if_pos]
  have h := two_pow_le_iff.2 hfin
  rw [infinity_eq]
  exact lt_of_lt_of_le hlt h

/-! ### Properties of the addition of doubles -/

theorem roundDouble_of_nonneg {x : Int} (h : 0 ≤ x) :
    roundDouble x = (roundMagnitude x.toNat : Int) := by
  unfold roundDouble
  rw [if_pos h]

theorem roundDouble_natCast (n : Nat) : roundDouble (n : Int) = (roundMagnitude n : Int) := by
  rw [roundDouble_of_nonneg (Int.ofNat_nonneg n), Int.toNat_ofNat]

theorem roundDouble_nonneg {x : Int} (h : 0 ≤ x) : 0 ≤ roundDouble x := by
  rw [roundDouble_of_nonneg h]
  exact Int.ofNat_nonneg _

theorem roundDouble_mono {x y : Int} (hx : 0 ≤ x) (h : x ≤ y) :
    roundDouble x ≤ roundDouble y := by
  rw [roundDouble_of_nonneg hx, roundDouble_of_nonneg (le_trans hx h)]
  exact Int.ofNat_le.2 (roundMagnitude_mono (Int.toNat_le_toNat h))

theorem roundDouble_le_infinity {x : Int} (h : 0 ≤ x) : roundDouble x ≤ (infinity : Int) := by
  rw [roundDouble_of_nonneg h]
  exact Int.ofNat_le.2 (roundMagnitude_le _)

theorem roundDouble_idem (x : Int) : roundDouble (roundDouble x) = roundDouble x := by
  by_cases h : 0 ≤ x
  · rw [roundDouble_of_nonneg h, roundDouble_natCast, roundMagnitude_idem]
  · have e : roundDouble x = -(roundMagnitude (-x).toNat : Int) := by
      unfold roundDouble
      rw [if_neg h]
    rw [e]
    rcases Nat.eq_zero_or_pos (roundMagnitude (-x).toNat) with h0 | hpos
    · rw [h0]
      simp only [Nat.cast_zero, neg_zero]
      have := roundDouble_natCast 0
      rw [roundMagnitude_zero] at this
      simpa using this
    · have hneg : ¬ (0 : Int) ≤ -(roundMagnitude (-x).toNat : Int) := by omega
      unfold roundDouble
      rw [if_neg hneg, neg_neg, Int.toNat_ofNat, roundMagnitude_idem]

theorem roundDouble_infinity : roundDouble (infinity : Int) = (infinity : Int) := by
  rw [roundDouble_natCast]
  unfold roundMagnitude
  rw [round53_infinity, if_neg (lt_irrefl _)]

theorem roundDouble_neg_infinity : roundDouble (-(infinity : Int)) = -(infinity : Int) := by
  have hpos : 0 < infinity := infinity_pos
  have hneg : ¬ (0 : Int) ≤ -(infinity : Int) := by omega
  unfold roundDouble
  rw [if_neg hneg, neg_neg, Int.toNat_ofNat]
  unfold roundMagnitude
  rw [round53_infinity, if_neg (lt_irrefl _)]

theorem roundDouble_of_dvd {x : Int} {j : Nat} (h0 : 0 ≤ x) (hdvd : (2 : Int) ^ j ∣ x)
    (hlt : x < 2 ^ (53 + j)) (hfin : 53 + j ≤ infinityExponent) : roundDouble x = x := by
  obtain ⟨n, rfl⟩ := Int.eq_ofNat_of_zero_le h0
  rw [roundDouble_natCast]
  have h1 : 2 ^ j ∣ n := by exact_mod_cast hdvd
  have h2 : n < 2 ^ (53 + j) := by exact_mod_cast hlt
  rw [roundMagnitude_of_dvd h1 h2 hfin]

/-- The result of an addition of doubles is a double. -/
theorem roundDouble_doubleAdd (x y : Int) : roundDouble (doubleAdd x y) = doubleAdd x y := by
  unfold doubleAdd
  split_ifs
  · exact roundDouble_infinity
  · exact roundDouble_neg_infinity
  · exact roundDouble_idem _

theorem doubleAdd_nonneg {x c : Int} (hx : 0 ≤ x) (hc : 0 ≤ c) : 0 ≤ doubleAdd x c := by
  have hpos : 0 < infinity := infinity_pos
  unfold doubleAdd
  split_ifs with h1 h2
  · exact Int.ofNat_nonneg _
  · omega
  · exact roundDouble_nonneg (by omega)

theorem doubleAdd_mono {x y c : Int} (hx : 0 ≤ x) (hc : 0 ≤ c) (h : x ≤ y) :
    doubleAdd x c ≤ doubleAdd y c := by
  have hpos : 0 < infinity := infinity_pos
  unfold doubleAdd
  split_ifs with h1 h2 h3 h4 h5 h6
  · exact le_refl _
  · omega
  · omega
  · omega
  · omega
  · omega
  · exact roundDouble_le_infinity (by omega)
  · omega
  · exact roundDouble_mono (by omega) (by omega)

theorem le_doubleAdd {x c : Int} (hx : 0 ≤ x) (hc : 0 ≤ c) (hd : roundDouble x = x) :
    x ≤ doubleAdd x c := by
  have hpos : 0 < infinity := infinity_pos
  have hle : x ≤ (infinity : Int) := hd ▸ roundDouble_le_infinity hx
  unfold doubleAdd
  split_ifs with h1 h2
  · exact hle
  · omega
  · calc x = roundDouble x := hd.symm
      _ ≤ roundDouble (x + c) := roundDouble_mono hx (by omega)

theorem doubleAdd_of_dvd {x c : Int} {j : Nat} (hx : 0 ≤ x) (hc : 0 ≤ c)
    (hdvd : (2 : Int) ^ j ∣ x + c) (hlt : x + c < 2 ^ (53 + j)) (hfin : 53 + j ≤ infinityExponent) :
    doubleAdd x c = x + c := by
  have hinf : (2 : Int) ^ (53 + j) ≤ (infinity : Int) := by
    have h := two_pow_le_iff.2 hfin
    rw [← infinity_eq] at h
    exact_mod_cast h
  unfold doubleAdd
  rw [if_neg (by omega), if_neg (by omega)]
  exact roundDouble_of_dvd (by omega) hdvd hlt hfin

/-! ### The total cost that the program computes -/

theorem totalCostDouble_nil : totalCostDouble [] = 0 := rfl

theorem totalCostDouble_snoc (p : Path) (a : Arc) :
    totalCostDouble (p ++ [a]) = doubleAdd (totalCostDouble p) a.cost := by
  simp [totalCostDouble, List.foldl_append]

/-- The computed total cost of a path is a double. -/
theorem roundDouble_totalCostDouble (p : Path) :
    roundDouble (totalCostDouble p) = totalCostDouble p := by
  induction p using List.reverseRecOn with
  | nil =>
    have := roundDouble_natCast 0
    rw [roundMagnitude_zero] at this
    simpa [totalCostDouble] using this
  | append_singleton p a _ =>
    rw [totalCostDouble_snoc]
    exact roundDouble_doubleAdd _ _

theorem totalCostDouble_nonneg {p : Path} (h : ∀ a ∈ p, 0 ≤ a.cost) :
    0 ≤ totalCostDouble p := by
  induction p using List.reverseRecOn with
  | nil => exact le_refl _
  | append_singleton p a ih =>
    rw [totalCostDouble_snoc]
    exact doubleAdd_nonneg (ih (fun b hb => h b (List.mem_append_left _ hb)))
      (h a (by simp))

/-- Appending an arc of non-negative cost to a path of non-negative costs
does not lower the computed total cost. -/
theorem totalCostDouble_le_snoc {p : Path} (h : ∀ a ∈ p, 0 ≤ a.cost) {a : Arc}
    (ha : 0 ≤ a.cost) : totalCostDouble p ≤ totalCostDouble (p ++ [a]) := by
  rw [totalCostDouble_snoc]
  exact le_doubleAdd (totalCostDouble_nonneg h) ha (roundDouble_totalCostDouble p)

/-- Appending the same arc of non-negative cost preserves the order of the
computed total costs. -/
theorem totalCostDouble_snoc_mono {p w : Path} (hp : ∀ a ∈ p, 0 ≤ a.cost) {a : Arc}
    (ha : 0 ≤ a.cost) (h : totalCostDouble p ≤ totalCostDouble w) :
    totalCostDouble (p ++ [a]) ≤ totalCostDouble (w ++ [a]) := by
  rw [totalCostDouble_snoc, totalCostDouble_snoc]
  exact doubleAdd_mono (totalCostDouble_nonneg hp) ha h

theorem totalCost_snoc (p : Path) (a : Arc) : totalCost (p ++ [a]) = totalCost p + a.cost := by
  simp [totalCost]

theorem totalCost_nil : totalCost [] = 0 := rfl

theorem arcs_eq_nil_of_le (g : PathfinderGraph) {v : Nat} (h : g.nodes.length ≤ v) :
    g.arcs v = [] := by
  simp [PathfinderGraph.arcs, List.getD_eq_getElem?_getD, List.getElem?_eq_none h]

theorem isWalk_cost_nonneg {g : PathfinderGraph} (hnn : NonNegCosts g) {s t : Nat}
    {w : List Arc} (h : IsWalk g s t w) : 0 ≤ totalCost w := by
  induction w generalizing s with
  | nil => simp [totalCost]
  | cons a w ih =>
    have h1 : 0 ≤ a.cost := by
      by_cases hs : s < g.nodes.length
      · exact hnn s hs a h.1
      · have := h.1
        rw [arcs_eq_nil_of_le g (not_lt.1 hs)] at this
        simp at this
    have h2 := ih h.2
    simp only [totalCost, List.map_cons, List.sum_cons] at h2 ⊢
    omega

/-! ## One iteration of the search loop -/

theorem mem_enqueueArcs {g : PathfinderGraph} {fixed : List (String × Int)} {path : Path}
    {arcs : List Arc} {q : PriorityQueue Path} {z : Path × Int} :
    z ∈ enqueueArcs g fixed path arcs q ↔
      z ∈ q ∨ ∃ a ∈ arcs, containsKey fixed (g.name a.finish) = false ∧
        z = (path ++ [a], totalCostDouble (path ++ [a])) := by
  induction arcs generalizing q with
  | nil => simp [enqueueArcs]
  | cons b rest ih =>
    unfold enqueueArcs
    split
    · rename_i h
      simp only [Bool.not_eq_true'] at h
      rw [ih]
      simp only [enqueue, List.mem_append, List.mem_cons, List.not_mem_nil, or_false]
      constructor
      · rintro ((h1 | h1) | ⟨a, h1, h2, h3⟩)
        · exact Or.inl h1
        · exact Or.inr ⟨b, Or.inl rfl, h, h1⟩
        · exact Or.inr ⟨a, Or.inr h1, h2, h3⟩
      · rintro (h1 | ⟨a, rfl | h1, h2, h3⟩)
        · exact Or.inl (Or.inl h1)
        · exact Or.inl (Or.inr h3)
        · exact Or.inr ⟨a, h1, h2, h3⟩
    · rename_i h
      simp only [Bool.not_eq_true', Bool.not_eq_false] at h
      rw [ih]
      simp only [List.mem_cons]
      constructor
      · rintro (h1 | ⟨a, h1, h2, h3⟩)
        · exact Or.inl h1
        · exact Or.inr ⟨a, Or.inr h1, h2, h3⟩
      · rintro (h1 | ⟨a, rfl | h1, h2, h3⟩)
        · exact Or.inl h1
        · rw [h] at h2
          exact Bool.noConfusion h2
        · exact Or.inr ⟨a, h1, h2, h3⟩

theorem length_enqueueArcs_le (g : PathfinderGraph) (fixed : List (String × Int)) (path : Path)
    (arcs : List Arc) (q : PriorityQueue Path) :
    (enqueueArcs g fixed path arcs q).length ≤ q.length + arcs.length := by
  induction arcs generalizing q with
  | nil => simp [enqueueArcs]
  | cons b rest ih =>
    unfold enqueueArcs
    split
    · have := ih (enqueue q (path ++ [b]) (totalCostDouble (path ++ [b])))
      simp only [enqueue, List.length_append, List.length_singleton, List.length_cons,
        List.length_nil] at this ⊢
      omega
    · have := ih q
      simp only [List.length_cons]
      omega

theorem sum_filter_mono (l : List Node) (f1 f2 : List (String × Int))
    (h : ∀ k, containsKey f1 k = true → containsKey f2 k = true) :
    ((l.filter (fun n => !containsKey f2 n.name)).map (fun n => n.arcs.length)).sum ≤
      ((l.filter (fun n => !containsKey f1 n.name)).map (fun n => n.arcs.length)).sum := by
  induction l with
  | nil => simp
  | cons n l ih =>
    simp only [List.filter_cons]
    cases h1 : containsKey f1 n.name
    · cases h2 : containsKey f2 n.name
      · simp only [Bool.not_false, if_true, List.map_cons, List.sum_cons]
        omega
      · simp only [Bool.not_false, Bool.not_true, if_true, List.map_cons, List.sum_cons]
        simp only [Bool.false_eq_true, if_false]
        omega
    · rw [h _ h1]
      simpa using ih

theorem sum_filter_drop (l : List Node) (f1 f2 : List (String × Int))
    (h : ∀ k, containsKey f1 k = true → containsKey f2 k = true)
    (n : Node) (hn : n ∈ l) (h1 : containsKey f1 n.name = false)
    (h2 : containsKey f2 n.name = true) :
    ((l.filter (fun n => !containsKey f2 n.name)).map (fun n => n.arcs.length)).sum +
        n.arcs.length ≤
      ((l.filter (fun n => !containsKey f1 n.name)).map (fun n => n.arcs.length)).sum := by
  induction l with
  | nil => simp at hn
  | cons m l ih =>
    rcases List.mem_cons.1 hn with rfl | hn
    · have := sum_filter_mono l f1 f2 h
      simp only [List.filter_cons, h1, h2, Bool.not_false, Bool.not_true, if_true,
        Bool.false_eq_true, if_false, List.map_cons, List.sum_cons]
      omega
    · have := ih hn
      simp only [List.filter_cons]
      cases h3 : containsKey f1 m.name
      · cases h4 : containsKey f2 m.name
        · simp only [Bool.not_false, if_true, List.map_cons, List.sum_cons]
          omega
        · simp only [Bool.not_false, Bool.not_true, if_true, List.map_cons, List.sum_cons,
            Bool.false_eq_true, if_false]
          omega
      · rw [h _ h3]
        simpa using this

theorem searchMeasure_expand_le (g : PathfinderGraph) (st : SearchState) :
    searchMeasure g (expand g st) ≤ searchMeasure g st := by
  unfold expand
  split
  · rename_i h
    simp only [Bool.not_eq_true'] at h
    simp only [searchMeasure, pending]
    have hlen := length_enqueueArcs_le g (put st.fixed (g.name st.start) (totalCostDouble st.path))
      st.path (g.arcs st.start) st.mainQueue
    have hmono : ∀ k, containsKey st.fixed k = true →
        containsKey (put st.fixed (g.name st.start) (totalCostDouble st.path)) k = true :=
      fun k hk => (containsKey_put _ _ _ _).2 (Or.inr hk)
    by_cases hs : st.start < g.nodes.length
    · have hmem : g.nodes[st.start] ∈ g.nodes := List.getElem_mem hs
      have hname : g.name st.start = (g.nodes[st.start]).name := by
        simp [PathfinderGraph.name, List.getD_eq_getElem?_getD, List.getElem?_eq_getElem hs]
      have harcs : g.arcs st.start = (g.nodes[st.start]).arcs := by
        simp [PathfinderGraph.arcs, List.getD_eq_getElem?_getD, List.getElem?_eq_getElem hs]
      have := sum_filter_drop g.nodes st.fixed _ hmono _ hmem (hname ▸ h)
        (hname ▸ containsKey_put_self st.fixed (g.name st.start) (totalCostDouble st.path))
      have hlen1 : (g.arcs st.start).length = (g.nodes[st.start]).arcs.length := by rw [harcs]
      omega
    · have := sum_filter_mono g.nodes st.fixed _ hmono
      have hlen1 : (g.arcs st.start).length = 0 := by
        rw [arcs_eq_nil_of_le g (not_lt.1 hs)]; rfl
      omega
  · exact le_refl _

theorem searchLoop_done (g : PathfinderGraph) (finish fuel : Nat) (st : SearchState)
    (h : st.start = finish) : searchLoop g finish fuel st = some st.path := by
  cases fuel <;> simp [searchLoop, h]

/-- The proof rule of the search loop: an invariant `I` of the iterations
and the termination measure give a returned path that satisfies `Post`. -/
theorem searchLoop_rule (g : PathfinderGraph) (finish : Nat) (I : SearchState → Prop)
    (Post : Path → Prop)
    (hq : ∀ st, I st → ∀ z ∈ (expand g st).mainQueue, z.1 ≠ [])
    (hstep : ∀ st p q arc, I st → st.start ≠ finish →
      dequeue (expand g st).mainQueue = some (p, q) → p.getLast? = some arc →
      I ⟨arc.finish, p, q, (expand g st).fixed⟩)
    (hexit : ∀ st, I st → st.start = finish → Post st.path)
    (hempty : ∀ st, I st → st.start ≠ finish → (expand g st).mainQueue = [] → Post []) :
    ∀ fuel st, I st → searchMeasure g st < fuel →
      ∃ p, searchLoop g finish fuel st = some p ∧ Post p := by
  intro fuel
  induction fuel with
  | zero => intro st _ h; omega
  | succ n ih =>
    intro st hI hm
    by_cases hs : st.start = finish
    · exact ⟨st.path, searchLoop_done g finish _ st hs, hexit st hI hs⟩
    · rw [searchLoop]
      simp only [hs, if_false]
      cases hd : dequeue (expand g st).mainQueue with
      | none => exact ⟨[], rfl, hempty st hI hs ((dequeue_eq_none _).1 hd)⟩
      | some pq =>
        obtain ⟨p, q⟩ := pq
        obtain ⟨pr, hperm, _⟩ := dequeue_some hd
        have hp : p ≠ [] := hq st hI (p, pr) (hperm.subset (List.mem_cons_self _ _))
        obtain ⟨arc, harc⟩ : ∃ arc, p.getLast? = some arc := by
          cases h : p.getLast? with
          | none => exact absurd (List.getLast?_eq_none_iff.1 h) hp
          | some a => exact ⟨a, rfl⟩
        simp only [harc]
        apply ih _ (hstep st p q arc hI hs hd harc)
        have h1 := searchMeasure_expand_le g st
        have h2 := hperm.length_eq
        simp only [searchMeasure, List.length_cons] at h1 h2 hm ⊢
        omega

/-! ## The walk invariant -/

theorem walkInv_init (g : PathfinderGraph) (s : Nat) : WalkInv g s ⟨s, [], [], []⟩ :=
  ⟨rfl, fun z hz => by simp at hz⟩

theorem walkInv_expand {g : PathfinderGraph} {s : Nat} {st : SearchState}
    (h : WalkInv g s st) : WalkInv g s (expand g st) := by
  unfold expand
  split
  · refine ⟨h.1, fun z hz => ?_⟩
    rcases mem_enqueueArcs.1 hz with hz | ⟨a, ha, _, rfl⟩
    · exact h.2 z hz
    · refine ⟨by simp, ?_, rfl⟩
      rw [endNode_snoc]
      exact isWalk_snoc_iff.2 ⟨st.start, h.1, ha, rfl⟩
  · exact h

theorem endNode_of_getLast? {s : Nat} {p : Path} {arc : Arc} (h : p.getLast? = some arc) :
    endNode s p = arc.finish := by
  simp [endNode, h]

theorem walkInv_dequeue {g : PathfinderGraph} {s : Nat} {st : SearchState} {p : Path}
    {q : PriorityQueue Path} {arc : Arc} (h : WalkInv g s st)
    (hd : dequeue st.mainQueue = some (p, q)) (harc : p.getLast? = some arc)
    (fixed : List (String × Int)) : WalkInv g s ⟨arc.finish, p, q, fixed⟩ := by
  obtain ⟨pr, hperm, _⟩ := dequeue_some hd
  refine ⟨?_, fun z hz => h.2 z (hperm.subset (List.mem_cons_of_mem _ hz))⟩
  have h2 := (h.2 (p, pr) (hperm.subset (List.mem_cons_self _ _))).2.1
  rw [endNode_of_getLast? harc] at h2
  exact h2

theorem walkInv_step {g : PathfinderGraph} {s : Nat} {st : SearchState} {p : Path}
    {q : PriorityQueue Path} {arc : Arc} (h : WalkInv g s st)
    (hd : dequeue (expand g st).mainQueue = some (p, q)) (harc : p.getLast? = some arc) :
    WalkInv g s ⟨arc.finish, p, q, (expand g st).fixed⟩ :=
  walkInv_dequeue (walkInv_expand h) hd harc _

theorem pending_nil (g : PathfinderGraph) : pending g [] + 1 = searchFuel g := by
  simp [pending, searchFuel, containsKey]

theorem searchMeasure_init (g : PathfinderGraph) (s : Nat) {fuel : Nat}
    (h : searchFuel g ≤ fuel) : searchMeasure g ⟨s, [], [], []⟩ < fuel := by
  have := pending_nil g
  simp only [searchMeasure, List.length_nil]
  omega

/-- The search returns, and what it returns is the empty path or a walk from
the start node to the finish node. -/
theorem findShortestPath_returns_walk (g : PathfinderGraph) (s t : Nat) (fuel : Nat)
    (hfuel : searchFuel g ≤ fuel) :
    ∃ p, findShortestPath fuel g s t = some p ∧ (p = [] ∨ IsWalk g s t p) := by
  apply searchLoop_rule g t (WalkInv g s) (fun p => p = [] ∨ IsWalk g s t p)
  · exact fun st hI z hz => ((walkInv_expand hI).2 z hz).1
  · exact fun st p q arc hI _ hd harc => walkInv_step hI hd harc
  · exact fun st hI hs => Or.inr (hs ▸ hI.1)
  · exact fun _ _ _ _ => Or.inl rfl
  · exact walkInv_init g s
  · exact searchMeasure_init g s hfuel

theorem findShortestPath_of_no_walk (g : PathfinderGraph) (s t : Nat)
    (hno : ¬ ∃ w, IsWalk g s t w) (fuel : Nat) (hfuel : searchFuel g ≤ fuel) :
    findShortestPath fuel g s t = some [] := by
  obtain ⟨p, hp, h | h⟩ := findShortestPath_returns_walk g s t fuel hfuel
  · rw [hp, h]
  · exact absurd ⟨p, h⟩ hno

/-! ## Claims about `findShortestPath` -/

/-- C6: in every graph, for distinct nodes `s` and `t` such that no walk
leads from `s` to `t`, `findShortestPath (s, t)` returns the empty path (it
returns, and raises no error), whenever the loop is given at least
`searchFuel g` iterations. -/
theorem findShortestPath_unreachable (g : PathfinderGraph) (s t : Nat) (hne : s ≠ t)
    (hno : ¬ ∃ w, IsWalk g s t w) (fuel : Nat) (hfuel : searchFuel g ≤ fuel) :
    findShortestPath fuel g s t = some [] := by
  have _ := hne
  exact findShortestPath_of_no_walk g s t hno fuel hfuel

theorem findShortestPath_unreachable_witness :
    findShortestPath 1 scenarioC 0 1 = some [] :=
  findShortestPath_unreachable scenarioC 0 1 (by decide)
    (by
      rintro ⟨w, hw⟩
      cases w with
      | nil => exact absurd hw (by decide)
      | cons a w => exact absurd hw.1 (by simp [scenarioC, PathfinderGraph.arcs]))
    1 (by decide)

/-- C7: in every graph and for every node `s`, `findShortestPath (s, s)`
returns the empty path, whatever arcs leave `s` and however few iterations
the loop is given. -/
theorem findShortestPath_same (fuel : Nat) (g : PathfinderGraph) (s : Nat) :
    findShortestPath fuel g s s = some [] :=
  searchLoop_done g s fuel _ rfl

/-- C9, as the claim states it, fails: in the memory of `strayMap` the node
object Z (position 2) is not a node of the graph, which holds A and B only,
and `findShortestPath (Z, B)` returns normally: it follows the arcs of Z and
returns the path Z -> A -> B. -/
theorem findShortestPath_unknown_node_counterexample :
    ¬ (2 < strayGraph.nodes.length) ∧
      findShortestPath (searchFuel strayMap) strayMap 2 1 =
        some [⟨2, 0, 1⟩, ⟨0, 1, 1⟩] := by
  decide

/-- C9, amended: `findShortestPath` takes node references, performs no
lookup and does not fail with `UnknownNodeError`.  When `start` or `finish`
is a node object that is not present in the graph `g` being searched (one of
the further node objects of the memory), the call returns a path all the
same: the empty path or a walk from `start` to `finish` along the arcs of
the node objects. -/
theorem findShortestPath_ignores_graph (g : PathfinderGraph) (objects : List Node)
    (s t : Nat) (_hs : s < (withObjects g objects).nodes.length)
    (_ht : t < (withObjects g objects).nodes.length)
    (_habsent : ¬ s < g.nodes.length ∨ ¬ t < g.nodes.length)
    (fuel : Nat) (hfuel : searchFuel (withObjects g objects) ≤ fuel) :
    ∃ p, findShortestPath fuel (withObjects g objects) s t = some p ∧
      (p = [] ∨ IsWalk (withObjects g objects) s t p) :=
  findShortestPath_returns_walk (withObjects g objects) s t fuel hfuel

theorem findShortestPath_ignores_graph_witness :
    ∃ p, findShortestPath 3 (withObjects strayGraph [⟨"Z", [⟨2, 0, 1⟩]⟩]) 2 1 = some p ∧
      (p = [] ∨ IsWalk (withObjects strayGraph [⟨"Z", [⟨2, 0, 1⟩]⟩]) 2 1 p) :=
  findShortestPath_ignores_graph strayGraph [⟨"Z", [⟨2, 0, 1⟩]⟩] 2 1 (by decide) (by decide)
    (Or.inl (by decide)) 3 (by decide)

/-! ## The invariant of the search in a well-formed graph -/

theorem cost_nonneg_of_mem {g : PathfinderGraph} (hnn : NonNegCosts g) {x : Nat} {a : Arc}
    (ha : a ∈ g.arcs x) : 0 ≤ a.cost := by
  by_cases hx : x < g.nodes.length
  · exact hnn x hx a ha
  · rw [arcs_eq_nil_of_le g (not_lt.1 hx)] at ha
    simp at ha

theorem isWalk_costs_nonneg {g : PathfinderGraph} (hnn : NonNegCosts g) {s t : Nat}
    {w : List Arc} (h : IsWalk g s t w) : ∀ a ∈ w, 0 ≤ a.cost := by
  induction w generalizing s with
  | nil => simp
  | cons b w ih =>
    intro a ha
    rcases List.mem_cons.1 ha with rfl | ha
    · exact cost_nonneg_of_mem hnn h.1
    · exact ih h.2 a ha

/-- Every walk from `s` to a node that is not fixed is matched by a
candidate whose computed cost is no higher. -/
theorem SearchInv.frontier_of_walk {g : PathfinderGraph} {s t : Nat} {st : SearchState}
    (h : SearchInv g s t st) {v : Nat} {w : List Arc} (hw : IsWalk g s v w)
    (hv : containsKey st.fixed (g.name v) = false) :
    ∃ z, InFrontier g st z ∧ (NonNegCosts g → totalCostDouble z ≤ totalCostDouble w) := by
  induction w using List.reverseRecOn generalizing v with
  | nil =>
    simp only [IsWalk] at hw
    subst hw
    rcases h.source with h1 | ⟨h1, h2⟩
    · rw [h1] at hv
      exact Bool.noConfusion hv
    · refine ⟨st.path, Or.inr ⟨rfl, ?_⟩, fun _ => ?_⟩
      · rw [h1]; exact hv
      · rw [h2]
  | append_singleton w a ih =>
    obtain ⟨x, hx, ha, rfl⟩ := isWalk_snoc_iff.1 hw
    cases hfx : containsKey st.fixed (g.name x) with
    | true =>
      obtain ⟨z, hz, _, hc⟩ := h.cross x w a hx hfx ha hv
      exact ⟨z, hz, hc⟩
    | false =>
      obtain ⟨z, hz, hc⟩ := ih hx hfx
      refine ⟨z, hz, fun hnn => ?_⟩
      exact le_trans (hc hnn)
        (totalCostDouble_le_snoc (isWalk_costs_nonneg hnn hx) (cost_nonneg_of_mem hnn ha))

/-- With non-negative costs the computed total cost of the current path is
no higher than that of any walk from `s` to a node that is not fixed. -/
theorem SearchInv.path_le {g : PathfinderGraph} {s t : Nat} {st : SearchState}
    (h : SearchInv g s t st) (hnn : NonNegCosts g) {v : Nat} {w : List Arc}
    (hw : IsWalk g s v w) (hv : containsKey st.fixed (g.name v) = false) :
    totalCostDouble st.path ≤ totalCostDouble w := by
  obtain ⟨z, hz, hc⟩ := h.frontier_of_walk hw hv
  rcases hz with ⟨pr, hz⟩ | ⟨rfl, _⟩
  · have h1 := h.mono hnn _ hz
    have h2 := (h.walks.2 _ hz).2.2
    simp only at h1 h2
    have h3 := hc hnn
    omega
  · exact hc hnn

theorem searchInv_init (g : PathfinderGraph) (s t : Nat) : SearchInv g s t ⟨s, [], [], []⟩ where
  walks := walkInv_init g s
  finish_free := rfl
  source := Or.inr ⟨rfl, rfl⟩
  cross := fun _ _ _ _ h => by simp [containsKey] at h
  mono := fun _ z hz => by simp at hz

theorem expand_of_free {g : PathfinderGraph} {st : SearchState}
    (h : containsKey st.fixed (g.name st.start) = false) :
    expand g st =
      ⟨st.start, st.path,
        enqueueArcs g (put st.fixed (g.name st.start) (totalCostDouble st.path)) st.path
          (g.arcs st.start) st.mainQueue,
        put st.fixed (g.name st.start) (totalCostDouble st.path)⟩ := by
  simp [expand, h]

theorem expand_of_fixed {g : PathfinderGraph} {st : SearchState}
    (h : containsKey st.fixed (g.name st.start) = true) : expand g st = st := by
  simp [expand, h]

theorem searchInv_expand {g : PathfinderGraph} (hwf : WellFormed g) (huniq : UniqueNames g)
    {s t : Nat} (hs : s < g.nodes.length) (ht : t < g.nodes.length) {st : SearchState}
    (h : SearchInv g s t st) (hcur : st.start ≠ t) :
    SearchInv g s t (expand g st) ∧
      containsKey (expand g st).fixed (g.name (expand g st).start) = true := by
  have hlt : st.start < g.nodes.length := isWalk_lt hwf hs h.walks.1
  have hwalks := walkInv_expand h.walks
  cases hfree : containsKey st.fixed (g.name st.start) with
  | false =>
    rw [expand_of_free hfree] at hwalks ⊢
    refine ⟨⟨hwalks, ?_, ?_, ?_, ?_⟩, containsKey_put_self _ _ _⟩
    · -- the finish node stays free
      cases hc : containsKey (put st.fixed (g.name st.start) (totalCostDouble st.path)) (g.name t)
      · rfl
      · rcases (containsKey_put _ _ _ _).1 hc with h1 | h1
        · exact absurd (huniq t ht st.start hlt h1).symm hcur
        · rw [h.finish_free] at h1
          exact Bool.noConfusion h1
    · -- the start node is fixed
      rcases h.source with h1 | ⟨h1, _⟩
      · exact Or.inl ((containsKey_put _ _ _ _).2 (Or.inr h1))
      · exact Or.inl (h1 ▸ containsKey_put_self _ _ _)
    · -- crossing arcs are covered
      intro x w a hw hx ha hfin
      obtain ⟨hne, hfin0⟩ := containsKey_put_false hfin
      have hxlt : x < g.nodes.length := isWalk_lt hwf hs hw
      by_cases hxc : g.name x = g.name st.start
      · have hxeq : x = st.start := huniq x hxlt st.start hlt hxc
        subst hxeq
        refine ⟨st.path ++ [a], Or.inl ⟨totalCostDouble (st.path ++ [a]), ?_⟩, endNode_snoc _ _ _,
          fun hnn => ?_⟩
        · exact mem_enqueueArcs.2 (Or.inr ⟨a, ha, hfin, rfl⟩)
        · exact totalCostDouble_snoc_mono (isWalk_costs_nonneg hnn h.walks.1)
            (cost_nonneg_of_mem hnn ha) (h.path_le hnn hw hfree)
      · have hx0 : containsKey st.fixed (g.name x) = true := by
          rcases (containsKey_put _ _ _ _).1 hx with h1 | h1
          · exact absurd h1 hxc
          · exact h1
        obtain ⟨z, hz, hend, hc⟩ := h.cross x w a hw hx0 ha hfin0
        refine ⟨z, ?_, hend, hc⟩
        rcases hz with ⟨pr, hz⟩ | ⟨rfl, _⟩
        · exact Or.inl ⟨pr, mem_enqueueArcs.2 (Or.inl hz)⟩
        · rw [isWalk_endNode h.walks.1] at hend
          exact absurd (congrArg g.name hend).symm hne
    · -- queue entries are no cheaper than the current path
      intro hnn z hz
      rcases mem_enqueueArcs.1 hz with hz | ⟨a, ha, _, rfl⟩
      · exact h.mono hnn z hz
      · exact totalCostDouble_le_snoc (isWalk_costs_nonneg hnn h.walks.1)
          (cost_nonneg_of_mem hnn ha)
  | true =>
    rw [expand_of_fixed hfree]
    exact ⟨h, hfree⟩

theorem searchInv_dequeue {g : PathfinderGraph} {s t : Nat} {st : SearchState}
    (h : SearchInv g s t st) (hfixed : containsKey st.fixed (g.name st.start) = true)
    {p : Path} {q : PriorityQueue Path} {arc : Arc}
    (hd : dequeue st.mainQueue = some (p, q)) (harc : p.getLast? = some arc) :
    SearchInv g s t ⟨arc.finish, p, q, st.fixed⟩ := by
  obtain ⟨pr, hperm, hmin⟩ := dequeue_some hd
  have hp : (p, pr) ∈ st.mainQueue := hperm.subset (List.mem_cons_self _ _)
  refine ⟨walkInv_dequeue h.walks hd harc _, h.finish_free, ?_, ?_, ?_⟩
  · rcases h.source with h1 | ⟨h1, _⟩
    · exact Or.inl h1
    · exact Or.inl (h1 ▸ hfixed)
  · intro x w a hw hx ha hfin
    obtain ⟨z, hz, hend, hc⟩ := h.cross x w a hw hx ha hfin
    refine ⟨z, ?_, hend, hc⟩
    rcases hz with ⟨pr1, hz⟩ | ⟨_, h2⟩
    · rcases List.mem_cons.1 (hperm.symm.subset hz) with h1 | h1
      · have hzp : z = p := congrArg Prod.fst h1
        subst hzp
        refine Or.inr ⟨rfl, ?_⟩
        rw [endNode_of_getLast? harc] at hend
        simp only
        rw [hend]
        exact hfin
      · exact Or.inl ⟨pr1, h1⟩
    · rw [hfixed] at h2
      exact Bool.noConfusion h2
  · intro _ z hz
    have h1 := hmin z (hperm.subset (List.mem_cons_of_mem _ hz))
    have h2 := (h.walks.2 _ hp).2.2
    simp only at h2 ⊢
    omega

/-- The search in a well-formed graph with unique names: when some walk leads
from `s` to `t`, the loop returns a non-empty walk from `s` to `t`, and with
non-negative costs no walk from `s` to `t` has a lower computed total cost. -/
theorem findShortestPath_correct {g : PathfinderGraph} (hwf : WellFormed g)
    (huniq : UniqueNames g) {s t : Nat} (hs : s < g.nodes.length) (ht : t < g.nodes.length)
    (hne : s ≠ t) (hreach : ∃ w, IsWalk g s t w) (fuel : Nat) (hfuel : searchFuel g ≤ fuel) :
    ∃ p, findShortestPath fuel g s t = some p ∧ p ≠ [] ∧ IsWalk g s t p ∧
      (NonNegCosts g → ∀ w, IsWalk g s t w → totalCostDouble p ≤ totalCostDouble w) := by
  apply searchLoop_rule g t (SearchInv g s t)
    (fun p => p ≠ [] ∧ IsWalk g s t p ∧
      (NonNegCosts g → ∀ w, IsWalk g s t w → totalCostDouble p ≤ totalCostDouble w))
  · exact fun st hI z hz => ((walkInv_expand hI.walks).2 z hz).1
  · intro st p q arc hI hcur hd harc
    obtain ⟨h1, h2⟩ := searchInv_expand hwf huniq hs ht hI hcur
    exact searchInv_dequeue h1 h2 hd harc
  · intro st hI hcur
    have hw : IsWalk g s t st.path := hcur ▸ hI.walks.1
    refine ⟨?_, hw, fun hnn w hw1 => hI.path_le hnn hw1 hI.finish_free⟩
    intro hnil
    rw [hnil] at hw
    exact hne hw
  · intro st hI hcur hq
    obtain ⟨h1, h2⟩ := searchInv_expand hwf huniq hs ht hI hcur
    obtain ⟨w, hw⟩ := hreach
    obtain ⟨z, hz, _⟩ := h1.frontier_of_walk hw h1.finish_free
    rcases hz with ⟨pr, hz⟩ | ⟨_, hz⟩
    · rw [hq] at hz
      simp at hz
    · rw [h2] at hz
      exact Bool.noConfusion hz
  · exact searchInv_init g s t
  · exact searchMeasure_init g s hfuel

theorem isWalk_contiguous {g : PathfinderGraph} (hwf : WellFormed g) {s t : Nat} {p : Path}
    (hs : s < g.nodes.length) (hw : IsWalk g s t p) (hp : p ≠ []) : ContiguousWalk s t p := by
  induction p generalizing s with
  | nil => exact absurd rfl hp
  | cons a w ih =>
    obtain ⟨ha, hrest⟩ := hw
    obtain ⟨hstart, hfin⟩ := hwf s hs a ha
    cases w with
    | nil =>
      simp only [IsWalk] at hrest
      simp [ContiguousWalk, hstart, hrest]
    | cons b w =>
      obtain ⟨h1, h2, h3⟩ := ih hfin hrest (by simp)
      refine ⟨by simp [hstart], ?_, ?_⟩
      · refine List.Chain'.cons ?_ h2
        simpa using h1
      · simpa using h3

/-- C2: in a finite well-formed graph with unique node names, for distinct
nodes `s` and `t` joined by some walk, `findShortestPath (s, t)` returns a
non-empty path that is a contiguous walk: its first arc originates at `s`,
each later arc originates at the destination of the arc before it, its last
arc ends at `t`, and every arc is taken from the arc set of its origin. -/
theorem findShortestPath_contiguous (g : PathfinderGraph) (s t : Nat) (hwf : WellFormed g)
    (huniq : UniqueNames g) (hs : s < g.nodes.length) (ht : t < g.nodes.length)
    (hne : s ≠ t) (hreach : ∃ w, IsWalk g s t w) (fuel : Nat) (hfuel : searchFuel g ≤ fuel) :
    ∃ p, findShortestPath fuel g s t = some p ∧ p ≠ [] ∧ ContiguousWalk s t p ∧
      IsWalk g s t p := by
  obtain ⟨p, h1, h2, h3, _⟩ := findShortestPath_correct hwf huniq hs ht hne hreach fuel hfuel
  exact ⟨p, h1, h2, isWalk_contiguous hwf hs h3 h2, h3⟩

theorem findShortestPath_contiguous_witness :
    ∃ p, findShortestPath 7 scenarioA 0 2 = some p ∧ p ≠ [] ∧ ContiguousWalk 0 2 p ∧
      IsWalk scenarioA 0 2 p :=
  findShortestPath_contiguous scenarioA 0 2 (by decide) (by decide) (by decide) (by decide)
    (by decide) ⟨[⟨0, 2, 5⟩], by decide⟩ 7 (by decide)

/-! ## The construction of the graph -/

theorem findIdx_modify_of_eq {α : Type} (p : α → Bool) (f : α → α) (hf : ∀ x, p (f x) = p x)
    (l : List α) (n : Nat) : (l.modify f n).findIdx p = l.findIdx p := by
  induction l generalizing n with
  | nil => simp
  | cons x l ih =>
    cases n with
    | zero => simp [List.findIdx_cons, hf]
    | succ n => simp [List.findIdx_cons, ih]

theorem getNode_addArc (g : PathfinderGraph) (arc : Arc) (name : String) :
    getNode (addArc g arc) name = getNode g name := by
  simp only [getNode, addArc, List.length_modify]
  rw [findIdx_modify_of_eq]
  intro x
  rfl

theorem getNode_some {g : PathfinderGraph} {name : String} {u : Nat}
    (h : getNode g name = some u) : u < g.nodes.length ∧ g.name u = name := by
  simp only [getNode] at h
  split at h
  · rename_i hlt
    simp only [Option.some.injEq] at h
    subst h
    refine ⟨hlt, ?_⟩
    have := List.findIdx_getElem (w := hlt)
    simp only [beq_iff_eq] at this
    simpa [PathfinderGraph.name, List.getD_eq_getElem?_getD, List.getElem?_eq_getElem hlt]
      using this
  · exact Option.noConfusion h

theorem name_addArc (g : PathfinderGraph) (arc : Arc) (w : Nat) :
    (addArc g arc).name w = g.name w := by
  simp only [PathfinderGraph.name, addArc, List.getD_eq_getElem?_getD, List.getElem?_modify]
  cases g.nodes[w]? with
  | none => rfl
  | some n =>
    by_cases h : arc.start = w <;> simp [h]

theorem arcs_addArc (g : PathfinderGraph) (arc : Arc) (h : arc.start < g.nodes.length)
    (w : Nat) :
    (addArc g arc).arcs w = g.arcs w ++ (if w = arc.start then [arc] else []) := by
  simp only [PathfinderGraph.arcs, addArc, List.getD_eq_getElem?_getD, List.getElem?_modify]
  by_cases hw : arc.start = w
  · subst hw
    simp [List.getElem?_eq_getElem h]
  · have hw1 : ¬ w = arc.start := fun e => hw e.symm
    cases g.nodes[w]? with
    | none => simp [hw1]
    | some n => simp [hw, hw1]

theorem addArcToGraph_eq {g : PathfinderGraph} {cityOne cityTwo : String} {u v : Nat}
    (hu : getNode g cityOne = some u) (hv : getNode g cityTwo = some v) (cost : Int) :
    addArcToGraph cityOne cityTwo cost g =
      some (addArc (addArc g ⟨u, v, cost⟩) ⟨v, u, cost⟩) := by
  simp [addArcToGraph, hu, hv, getNode_addArc]

theorem addArcToGraph_symmetric {g g1 : PathfinderGraph} {cityOne cityTwo : String}
    {cost : Int} (h : addArcToGraph cityOne cityTwo cost g = some g1)
    (hsym : ArcsSymmetric g) : ArcsSymmetric g1 := by
  cases hu : getNode g cityOne with
  | none => simp [addArcToGraph, hu] at h
  | some u =>
    cases hv : getNode g cityTwo with
    | none => simp [addArcToGraph, hu, hv] at h
    | some v =>
      rw [addArcToGraph_eq hu hv] at h
      simp only [Option.some.injEq] at h
      subst h
      intro a ha
      simp only [addArc, List.append_assoc, List.mem_append, List.mem_cons, List.mem_singleton,
        List.not_mem_nil, or_false] at ha ⊢
      rcases ha with ha | rfl | rfl
      · exact Or.inl (hsym a ha)
      · exact Or.inr (Or.inr rfl)
      · exact Or.inr (Or.inl rfl)

theorem addArcsToGraph_symmetric (conns : List (String × String × Int)) :
    ∀ g gn : PathfinderGraph, ArcsSymmetric g → addArcsToGraph conns g = some gn →
      ArcsSymmetric gn := by
  induction conns with
  | nil =>
    intro g gn hsym h
    simp only [addArcsToGraph, Option.some.injEq] at h
    exact h ▸ hsym
  | cons c rest ih =>
    obtain ⟨cityOne, cityTwo, distance⟩ := c
    intro g gn hsym h
    simp only [addArcsToGraph] at h
    cases h1 : addArcToGraph cityOne cityTwo distance g with
    | none => simp [h1] at h
    | some g1 =>
      simp only [h1] at h
      exact ih g1 gn (addArcToGraph_symmetric h1 hsym) h

/-- C10: when both named cities are registered in the graph, `addArcToGraph`
succeeds and adds exactly two arcs, one from `cityOne` to `cityTwo` and one
from `cityTwo` to `cityOne`, both with the given cost: they are appended to
the arc set of the graph and to the outgoing arcs of their start nodes, and
nothing else changes.  Hence every graph built from an arc-free graph
through calls of `addArcToGraph` only holds, for each arc, a reverse arc of
equal cost. -/
theorem addArcToGraph_adds_both_arcs :
    (∀ (g : PathfinderGraph) (cityOne cityTwo : String) (cost : Int) (u v : Nat),
      getNode g cityOne = some u → getNode g cityTwo = some v →
      ∃ g1, addArcToGraph cityOne cityTwo cost g = some g1 ∧
        g1.arcSet = g.arcSet ++ [⟨u, v, cost⟩, ⟨v, u, cost⟩] ∧
        g.name u = cityOne ∧ g.name v = cityTwo ∧
        g1.nodes.length = g.nodes.length ∧ (∀ w, g1.name w = g.name w) ∧
        (∀ w, g1.arcs w = g.arcs w ++ (if w = u then [⟨u, v, cost⟩] else []) ++
          (if w = v then [⟨v, u, cost⟩] else []))) ∧
    (∀ (conns : List (String × String × Int)) (g gn : PathfinderGraph),
      g.arcSet = [] → addArcsToGraph conns g = some gn → ArcsSymmetric gn) := by
  constructor
  · intro g cityOne cityTwo cost u v hu hv
    obtain ⟨hul, hun⟩ := getNode_some hu
    obtain ⟨hvl, hvn⟩ := getNode_some hv
    refine ⟨_, addArcToGraph_eq hu hv cost, by simp [addArc], hun, hvn, by simp [addArc],
      fun w => by rw [name_addArc, name_addArc], fun w => ?_⟩
    rw [arcs_addArc _ _ (by simpa [addArc] using hvl), arcs_addArc _ _ hul]
  · intro conns g gn hg h
    refine addArcsToGraph_symmetric conns g gn ?_ h
    intro a ha
    rw [hg] at ha
    simp at ha

theorem addArcToGraph_adds_both_arcs_witness :
    (∃ g1, addArcToGraph "X" "Y" 7 scenarioC = some g1 ∧
        g1.arcSet = scenarioC.arcSet ++ [⟨0, 1, 7⟩, ⟨1, 0, 7⟩] ∧
        scenarioC.name 0 = "X" ∧ scenarioC.name 1 = "Y" ∧
        g1.nodes.length = scenarioC.nodes.length ∧ (∀ w, g1.name w = scenarioC.name w) ∧
        (∀ w, g1.arcs w = scenarioC.arcs w ++ (if w = 0 then [⟨0, 1, 7⟩] else []) ++
          (if w = 1 then [⟨1, 0, 7⟩] else []))) ∧
      ArcsSymmetric ⟨[⟨"X", [⟨0, 1, 7⟩]⟩, ⟨"Y", [⟨1, 0, 7⟩]⟩], [⟨0, 1, 7⟩, ⟨1, 0, 7⟩]⟩ :=
  ⟨addArcToGraph_adds_both_arcs.1 scenarioC "X" "Y" 7 0 1 (by decide) (by decide),
    addArcToGraph_adds_both_arcs.2 [("X", "Y", 7)] scenarioC _ (by decide) (by decide)⟩

/-! ## Kruskal: what one call of `findBucketWithCities` does -/

theorem oneCity_iff (i : Nat) (vis : List (List String)) (s f : String) :
    oneCityInBucketButNotOther i vis s f = true ↔ HasOne vis s f i := by
  simp [oneCityInBucketButNotOther, HasOne]

theorem hasNeither_of_not {vis : List (List String)} {s f : String} {k : Nat}
    (h1 : ¬ HasBoth vis s f k) (h2 : ¬ HasOne vis s f k) : HasNeither vis s f k := by
  unfold HasBoth at h1
  unfold HasOne at h2
  unfold HasNeither
  tauto

theorem checkFrom_both {arc : Arc} {s f : String} {r i : Nat} {st : BucketState}
    (h : ((st.visitedLocations.getD i []).contains s &&
      (st.visitedLocations.getD i []).contains f) = true) :
    checkEachBucketOfCitiesFrom arc s f (r + 1) i st = (true, st) := by
  rw [checkEachBucketOfCitiesFrom, if_pos h]

theorem checkFrom_second {arc : Arc} {s f : String} {r i : Nat} {st : BucketState}
    (hb : ((st.visitedLocations.getD i []).contains s &&
      (st.visitedLocations.getD i []).contains f) = false)
    (ho : oneCityInBucketButNotOther i st.visitedLocations s f = true)
    (hl : (st.numBucketsEndpoints ++ [i]).length = 2) :
    checkEachBucketOfCitiesFrom arc s f (r + 1) i st =
      (true,
        { visitedLocations :=
            (st.visitedLocations.set ((st.numBucketsEndpoints ++ [i]).getD 0 0)
              (setUnion
                (st.visitedLocations.getD ((st.numBucketsEndpoints ++ [i]).getD 0 0) [])
                (st.visitedLocations.getD ((st.numBucketsEndpoints ++ [i]).getD 1 0) []))).eraseIdx
              ((st.numBucketsEndpoints ++ [i]).getD 1 0)
          numBucketsEndpoints := st.numBucketsEndpoints ++ [i]
          path := st.path ++ [arc] }) := by
  rw [checkEachBucketOfCitiesFrom, if_neg (by rw [hb]; exact Bool.false_ne_true), if_pos ho,
    if_pos hl]

theorem checkFrom_first {arc : Arc} {s f : String} {r i : Nat} {st : BucketState}
    (hb : ((st.visitedLocations.getD i []).contains s &&
      (st.visitedLocations.getD i []).contains f) = false)
    (ho : oneCityInBucketButNotOther i st.visitedLocations s f = true)
    (hl : (st.numBucketsEndpoints ++ [i]).length ≠ 2) :
    checkEachBucketOfCitiesFrom arc s f (r + 1) i st =
      checkEachBucketOfCitiesFrom arc s f r (i + 1)
        { st with numBucketsEndpoints := st.numBucketsEndpoints ++ [i] } := by
  rw [checkEachBucketOfCitiesFrom, if_neg (by rw [hb]; exact Bool.false_ne_true), if_pos ho,
    if_neg hl]

theorem checkFrom_skip {arc : Arc} {s f : String} {r i : Nat} {st : BucketState}
    (hb : ((st.visitedLocations.getD i []).contains s &&
      (st.visitedLocations.getD i []).contains f) = false)
    (ho : oneCityInBucketButNotOther i st.visitedLocations s f = false) :
    checkEachBucketOfCitiesFrom arc s f (r + 1) i st =
      checkEachBucketOfCitiesFrom arc s f r (i + 1) st := by
  rw [checkEachBucketOfCitiesFrom, if_neg (by rw [hb]; exact Bool.false_ne_true),
    if_neg (by rw [ho]; exact Bool.false_ne_true)]

theorem hasBoth_iff (vis : List (List String)) (s f : String) (i : Nat) :
    ((vis.getD i []).contains s && (vis.getD i []).contains f) = true ↔ HasBoth vis s f i := by
  simp [HasBoth]

/-- The scan of the buckets from index `i` on, when at most one bucket that
holds exactly one of the names has been met before. -/
theorem checkEachBucketOfCitiesFrom_spec (arc : Arc) (s f : String) (vis : List (List String))
    (path : Path) :
    ∀ (r i : Nat) (nbe : List Nat), i + r = vis.length →
      (nbe = [] ∨ ∃ k0, nbe = [k0] ∧ k0 < i ∧ HasOne vis s f k0) →
      (∀ k, k < i → k ∉ nbe → HasNeither vis s f k) →
      ((∃ k, k < vis.length ∧ HasBoth vis s f k) ∧
          ∃ nbe1, checkEachBucketOfCitiesFrom arc s f r i ⟨vis, nbe, path⟩ =
            (true, ⟨vis, nbe1, path⟩)) ∨
        (∃ k0 k1, k0 < k1 ∧ k1 < vis.length ∧ HasOne vis s f k0 ∧ HasOne vis s f k1 ∧
          checkEachBucketOfCitiesFrom arc s f r i ⟨vis, nbe, path⟩ =
            (true, ⟨(vis.set k0 (setUnion (vis.getD k0 []) (vis.getD k1 []))).eraseIdx k1,
              [k0, k1], path ++ [arc]⟩)) ∨
        (∃ k0, k0 < vis.length ∧ HasOne vis s f k0 ∧
          (∀ k, k < vis.length → k ≠ k0 → HasNeither vis s f k) ∧
          checkEachBucketOfCitiesFrom arc s f r i ⟨vis, nbe, path⟩ =
            (false, ⟨vis, [k0], path⟩)) ∨
        ((∀ k, k < vis.length → HasNeither vis s f k) ∧
          checkEachBucketOfCitiesFrom arc s f r i ⟨vis, nbe, path⟩ =
            (false, ⟨vis, [], path⟩)) := by
  intro r
  induction r with
  | zero =>
    intro i nbe hlen hnbe hpre
    have hi : i = vis.length := by omega
    subst hi
    rcases hnbe with rfl | ⟨k0, rfl, hk0, hone⟩
    · exact Or.inr (Or.inr (Or.inr ⟨fun k hk => hpre k hk (by simp), rfl⟩))
    · exact Or.inr (Or.inr (Or.inl ⟨k0, hk0, hone,
        fun k hk hne => hpre k hk (by simpa using hne), rfl⟩))
  | succ r ih =>
    intro i nbe hlen hnbe hpre
    have hi : i < vis.length := by omega
    by_cases hboth : HasBoth vis s f i
    · exact Or.inl ⟨⟨i, hi, hboth⟩, nbe, checkFrom_both ((hasBoth_iff vis s f i).2 hboth)⟩
    · have hb : ((vis.getD i []).contains s && (vis.getD i []).contains f) = false := by
        cases h : ((vis.getD i []).contains s && (vis.getD i []).contains f)
        · rfl
        · exact absurd ((hasBoth_iff vis s f i).1 h) hboth
      by_cases hone : HasOne vis s f i
      · have ho := (oneCity_iff i vis s f).2 hone
        rcases hnbe with rfl | ⟨k0, rfl, hk0, hone0⟩
        · rw [checkFrom_first hb ho (by simp)]
          exact ih (i + 1) [i] (by omega) (Or.inr ⟨i, rfl, by omega, hone⟩)
            (fun k hk hne => hpre k (by
              have : k ≠ i := by simpa using hne
              omega) (by simp))
        · exact Or.inr (Or.inl ⟨k0, i, hk0, hi, hone0, hone, checkFrom_second hb ho rfl⟩)
      · have ho : oneCityInBucketButNotOther i vis s f = false := by
          cases h : oneCityInBucketButNotOther i vis s f
          · rfl
          · exact absurd ((oneCity_iff i vis s f).1 h) hone
        have hnei := hasNeither_of_not hboth hone
        rw [checkFrom_skip hb ho]
        exact ih (i + 1) nbe (by omega)
          (by
            rcases hnbe with rfl | ⟨k0, rfl, hk0, hone0⟩
            · exact Or.inl rfl
            · exact Or.inr ⟨k0, rfl, by omega, hone0⟩)
          (fun k hk hne => by
            by_cases hki : k = i
            · exact hki ▸ hnei
            · exact hpre k (by omega) hne)

theorem findBucketWithCities_outcome (arc : Arc) (vis : List (List String)) (s f : String)
    (path : Path) : BucketOutcome arc vis s f path (findBucketWithCities arc vis s f path) := by
  have h := checkEachBucketOfCitiesFrom_spec arc s f vis path vis.length 0 []
    (by simp) (Or.inl rfl) (fun k hk => absurd hk (Nat.not_lt_zero k))
  unfold BucketOutcome findBucketWithCities checkEachBucketOfCities
  rcases h with ⟨h1, nbe1, h2⟩ | ⟨k0, k1, h1, h2, h3, h4, h5⟩ | ⟨k0, h1, h2, h3, h4⟩ | ⟨h1, h2⟩
  · exact Or.inl ⟨h1, by simp [h2]⟩
  · exact Or.inr (Or.inl ⟨k0, k1, h1, h2, h3, h4, by simp [h5]⟩)
  · exact Or.inr (Or.inr (Or.inl ⟨k0, h1, h2, h3, by simp [h4, atLeastOneNewCity]⟩))
  · exact Or.inr (Or.inr (Or.inr ⟨h1, by simp [h2, atLeastOneNewCity, addNewCitySet]⟩))

theorem mem_setAdd {b : List String} {x y : String} : y ∈ setAdd b x ↔ y ∈ b ∨ y = x := by
  unfold setAdd
  split
  · rename_i h
    have hx : x ∈ b := by simpa using h
    constructor
    · exact Or.inl
    · rintro (h1 | rfl)
      · exact h1
      · exact hx
  · simp

theorem mem_setUnion {a b : List String} {y : String} : y ∈ setUnion a b ↔ y ∈ a ∨ y ∈ b := by
  unfold setUnion
  induction b generalizing a with
  | nil => simp
  | cons x b ih =>
    simp only [List.foldl_cons, ih, mem_setAdd, List.mem_cons]
    tauto

theorem perm_getD_eraseIdx (vis : List (List String)) {k : Nat} (hk : k < vis.length) :
    List.Perm vis (vis.getD k [] :: vis.eraseIdx k) := by
  induction vis generalizing k with
  | nil => simp at hk
  | cons b vis ih =>
    cases k with
    | zero => simp
    | succ k =>
      have := ih (k := k) (by simpa using hk)
      simp only [List.getD_cons_succ, List.eraseIdx_cons_succ]
      exact (this.cons b).trans (List.Perm.swap _ _ _)

theorem perm_set_eraseIdx (vis : List (List String)) {k : Nat} (hk : k < vis.length)
    (u : List String) : List.Perm (vis.set k u) (u :: vis.eraseIdx k) := by
  induction vis generalizing k with
  | nil => simp at hk
  | cons b vis ih =>
    cases k with
    | zero => simp
    | succ k =>
      have := ih (k := k) (by simpa using hk)
      simp only [List.set_cons_succ, List.eraseIdx_cons_succ]
      exact (this.cons b).trans (List.Perm.swap _ _ _)

theorem perm_merge (vis : List (List String)) {k0 k1 : Nat} (h01 : k0 < k1)
    (hk : k1 < vis.length) (u : List String) :
    List.Perm vis (vis.getD k0 [] :: vis.getD k1 [] :: (vis.eraseIdx k1).eraseIdx k0) ∧
      List.Perm ((vis.set k0 u).eraseIdx k1) (u :: (vis.eraseIdx k1).eraseIdx k0) := by
  induction vis generalizing k0 k1 with
  | nil => simp at hk
  | cons b vis ih =>
    cases k1 with
    | zero => omega
    | succ k1 =>
      have hk1 : k1 < vis.length := by simpa using hk
      cases k0 with
      | zero =>
        simp only [List.getD_cons_zero, List.getD_cons_succ, List.eraseIdx_cons_succ,
          List.eraseIdx_cons_zero, List.set_cons_zero]
        exact ⟨(perm_getD_eraseIdx vis hk1).cons b, List.Perm.refl _⟩
      | succ k0 =>
        obtain ⟨h1, h2⟩ := @ih k0 k1 (by omega) hk1
        simp only [List.getD_cons_succ, List.eraseIdx_cons_succ, List.set_cons_succ]
        constructor
        · refine (h1.cons b).trans ?_
          exact (List.Perm.swap _ _ _).trans ((List.Perm.swap _ _ _).cons _)
        · exact (h2.cons b).trans (List.Perm.swap _ _ _)

theorem disjointBuckets_perm {l1 l2 : List (List String)} (h : List.Perm l1 l2) :
    DisjointBuckets l1 ↔ DisjointBuckets l2 :=
  h.pairwise_iff (fun h => List.Disjoint.symm h)

theorem getD_of_mem {vis : List (List String)} {b : List String} (h : b ∈ vis) :
    ∃ k, k < vis.length ∧ vis.getD k [] = b := by
  obtain ⟨k, hk, rfl⟩ := List.getElem_of_mem h
  exact ⟨k, hk, by simp [List.getD_eq_getElem?_getD, List.getElem?_eq_getElem hk]⟩

/-- The three ways of accepting an arc have the same shape: the buckets `B`
that hold an end point are replaced by one bucket `u` that holds their
cities and both end points. -/
theorem accept_spec {arc : Arc} {vis vis1 B rest : List (List String)} {u : List String}
    {s f : String} {path : Path} (hd : DisjointBuckets vis)
    (hperm : List.Perm vis (B ++ rest)) (hperm1 : List.Perm vis1 (u :: rest))
    (hu : ∀ z, z ∈ u ↔ z = s ∨ z = f ∨ ∃ b ∈ B, z ∈ b)
    (hB : ∀ b ∈ B, s ∈ b ∨ f ∈ b) (hB1 : ∀ b ∈ B, ¬ (s ∈ b ∧ f ∈ b))
    (hrest : ∀ b ∈ rest, s ∉ b ∧ f ∉ b) :
    StepSpec arc vis s f path (vis1, path ++ [arc]) := by
  have hd1 : DisjointBuckets (B ++ rest) := (disjointBuckets_perm hperm).1 hd
  obtain ⟨_, hdr, hdBr⟩ := List.pairwise_append.1 hd1
  have hnot : ¬ SameBucket vis s f := by
    rintro ⟨b, hb, hs, hf⟩
    rcases List.mem_append.1 (hperm.subset hb) with h | h
    · exact hB1 b h ⟨hs, hf⟩
    · exact (hrest b h).1 hs
  refine ⟨?_, ?_, ?_, Or.inr ⟨hnot, rfl, ?_⟩⟩
  · refine (disjointBuckets_perm hperm1).2 (List.pairwise_cons.2 ⟨?_, hdr⟩)
    intro c hc z hzu hzc
    rcases (hu z).1 hzu with rfl | rfl | ⟨b, hb, hzb⟩
    · exact (hrest c hc).1 hzc
    · exact (hrest c hc).2 hzc
    · exact hdBr b hb c hc hzb hzc
  · rintro x y ⟨b, hb, hx, hy⟩
    rcases List.mem_append.1 (hperm.subset hb) with h | h
    · exact ⟨u, hperm1.symm.subset (List.mem_cons_self _ _),
        (hu x).2 (Or.inr (Or.inr ⟨b, h, hx⟩)), (hu y).2 (Or.inr (Or.inr ⟨b, h, hy⟩))⟩
    · exact ⟨b, hperm1.symm.subset (List.mem_cons_of_mem _ h), hx, hy⟩
  · exact ⟨u, hperm1.symm.subset (List.mem_cons_self _ _), (hu s).2 (Or.inl rfl),
      (hu f).2 (Or.inr (Or.inl rfl))⟩
  · rintro x y ⟨b, hb, hx, hy⟩
    have hnear : ∀ z, z ∈ u → Near vis s f z := by
      intro z hz
      rcases (hu z).1 hz with h | h | ⟨c, hc, hzc⟩
      · exact Or.inl h
      · exact Or.inr (Or.inl h)
      · have hcv : c ∈ vis := hperm.symm.subset (List.mem_append_left _ hc)
        rcases hB c hc with h | h
        · exact Or.inr (Or.inr (Or.inl ⟨c, hcv, hzc, h⟩))
        · exact Or.inr (Or.inr (Or.inr ⟨c, hcv, hzc, h⟩))
    rcases List.mem_cons.1 (hperm1.subset hb) with rfl | h
    · exact Or.inr ⟨hnear x hx, hnear y hy⟩
    · exact Or.inl ⟨b, hperm.symm.subset (List.mem_append_right _ h), hx, hy⟩

theorem mem_eraseIdx_getD {vis : List (List String)} {k : Nat} {b : List String}
    (h : b ∈ vis.eraseIdx k) : ∃ i, i < vis.length ∧ i ≠ k ∧ vis.getD i [] = b := by
  obtain ⟨i, hne, hi⟩ := List.mem_eraseIdx_iff_getElem?.1 h
  obtain ⟨hlt, _⟩ := List.getElem?_eq_some.1 hi
  exact ⟨i, hlt, hne, by simp [List.getD_eq_getElem?_getD, hi]⟩

/-- One call of `findBucketWithCities` on pairwise disjoint buckets. -/
theorem findBucketWithCities_step (arc : Arc) (vis : List (List String)) (s f : String)
    (path : Path) (hd : DisjointBuckets vis) :
    StepSpec arc vis s f path (findBucketWithCities arc vis s f path) := by
  have hout := findBucketWithCities_outcome arc vis s f path
  unfold BucketOutcome at hout
  rcases hout with ⟨⟨k, hk, hboth⟩, hres⟩ | ⟨k0, k1, h01, hk1, hone0, hone1, hres⟩ |
    ⟨k0, hk0, hone, hnei, hres⟩ | ⟨hnei, hres⟩
  · -- some bucket holds both names: the arc is discarded
    have hmem : vis.getD k [] ∈ vis := by
      simp [List.getD_eq_getElem?_getD, List.getElem?_eq_getElem hk]
    have hsb : SameBucket vis s f := ⟨_, hmem, hboth.1, hboth.2⟩
    rw [hres]
    exact ⟨hd, fun _ _ h => h, hsb, Or.inl ⟨hsb, rfl⟩⟩
  · -- two buckets hold one name each: they are merged
    rw [hres]
    obtain ⟨hp, hp1⟩ := perm_merge vis h01 hk1 (setUnion (vis.getD k0 []) (vis.getD k1 []))
    have hd1 := (disjointBuckets_perm hp).1 hd
    obtain ⟨h0, h1⟩ := List.pairwise_cons.1 hd1
    obtain ⟨h1r, _⟩ := List.pairwise_cons.1 h1
    have h01d : List.Disjoint (vis.getD k0 []) (vis.getD k1 []) :=
      h0 _ (List.mem_cons_self _ _)
    have hsf : (s ∈ vis.getD k0 [] ∧ f ∈ vis.getD k1 []) ∨
        (f ∈ vis.getD k0 [] ∧ s ∈ vis.getD k1 []) := by
      rcases hone0 with ⟨a1, a2⟩ | ⟨a1, a2⟩ <;> rcases hone1 with ⟨b1, b2⟩ | ⟨b1, b2⟩
      · exact absurd b1 (fun h => h01d a1 h)
      · exact Or.inl ⟨a1, b2⟩
      · exact Or.inr ⟨a2, b1⟩
      · exact absurd b2 (fun h => h01d a2 h)
    refine accept_spec (B := [vis.getD k0 [], vis.getD k1 []]) hd hp hp1 ?_ ?_ ?_ ?_
    · intro z
      simp only [mem_setUnion, List.mem_cons, List.mem_singleton, List.not_mem_nil, or_false,
        exists_eq_or_imp, exists_eq_left]
      constructor
      · exact fun h => Or.inr (Or.inr h)
      · rintro (rfl | rfl | h)
        · rcases hsf with h | h
          · exact Or.inl h.1
          · exact Or.inr h.2
        · rcases hsf with h | h
          · exact Or.inr h.2
          · exact Or.inl h.1
        · exact h
    · intro b hb
      simp only [List.mem_cons, List.mem_singleton, List.not_mem_nil, or_false] at hb
      rcases hb with rfl | rfl
      · rcases hone0 with h | h
        · exact Or.inl h.1
        · exact Or.inr h.2
      · rcases hone1 with h | h
        · exact Or.inl h.1
        · exact Or.inr h.2
    · intro b hb
      simp only [List.mem_cons, List.mem_singleton, List.not_mem_nil, or_false] at hb
      rcases hb with rfl | rfl
      · rcases hone0 with h | h
        · exact fun h1 => h.2 h1.2
        · exact fun h1 => h.1 h1.1
      · rcases hone1 with h | h
        · exact fun h1 => h.2 h1.2
        · exact fun h1 => h.1 h1.1
    · intro b hb
      have hb0 : List.Disjoint (vis.getD k0 []) b := h0 _ (List.mem_cons_of_mem _ hb)
      have hb1 : List.Disjoint (vis.getD k1 []) b := h1r _ hb
      rcases hsf with h | h
      · exact ⟨fun hs => hb0 h.1 hs, fun hf => hb1 h.2 hf⟩
      · exact ⟨fun hs => hb1 h.2 hs, fun hf => hb0 h.1 hf⟩
  · -- one bucket holds one of the names: it is extended
    rw [hres]
    refine accept_spec (B := [vis.getD k0 []]) hd (perm_getD_eraseIdx vis hk0)
      (perm_set_eraseIdx vis hk0 _) ?_ ?_ ?_ ?_
    · intro z
      simp only [mem_setAdd, List.mem_singleton, exists_eq_left]
      tauto
    · intro b hb
      simp only [List.mem_singleton] at hb
      subst hb
      rcases hone with h | h
      · exact Or.inl h.1
      · exact Or.inr h.2
    · intro b hb
      simp only [List.mem_singleton] at hb
      subst hb
      rcases hone with h | h
      · exact fun h1 => h.2 h1.2
      · exact fun h1 => h.1 h1.1
    · intro b hb
      obtain ⟨i, hi, hne, rfl⟩ := mem_eraseIdx_getD hb
      exact hnei i hi hne
  · -- no bucket holds a name: a new bucket is added
    rw [hres]
    refine accept_spec (B := []) hd (List.Perm.refl _)
      (@List.perm_append_comm _ vis [setAdd (setAdd [] s) f]) ?_ ?_ ?_ ?_
    · intro z
      simp only [mem_setAdd, List.not_mem_nil, false_or, false_and, exists_false, or_false]
    · exact fun b hb => absurd hb (List.not_mem_nil b)
    · exact fun b hb => absurd hb (List.not_mem_nil b)
    · intro b hb
      obtain ⟨i, hi, rfl⟩ := getD_of_mem hb
      exact hnei i hi

/-! ## Connectivity -/

theorem connected_refl (g : PathfinderGraph) (arcs : List Arc) (x : String) :
    Connected g arcs x x :=
  Relation.ReflTransGen.refl

theorem connected_trans {g : PathfinderGraph} {arcs : List Arc} {x y z : String}
    (h1 : Connected g arcs x y) (h2 : Connected g arcs y z) : Connected g arcs x z :=
  Relation.ReflTransGen.trans h1 h2

theorem joins_symm {g : PathfinderGraph} {a : Arc} {x y : String} (h : Joins g a x y) :
    Joins g a y x :=
  h.symm

theorem connected_symm {g : PathfinderGraph} {arcs : List Arc} {x y : String}
    (h : Connected g arcs x y) : Connected g arcs y x := by
  induction h with
  | refl => exact connected_refl g arcs x
  | tail _ hab ih =>
    obtain ⟨a, ha, hj⟩ := hab
    exact Relation.ReflTransGen.head ⟨a, ha, joins_symm hj⟩ ih

theorem connected_of_joins {g : PathfinderGraph} {arcs : List Arc} {a : Arc} {x y : String}
    (ha : a ∈ arcs) (hj : Joins g a x y) : Connected g arcs x y :=
  Relation.ReflTransGen.single ⟨a, ha, hj⟩

theorem connected_of_mem {g : PathfinderGraph} {arcs : List Arc} {a : Arc} (ha : a ∈ arcs) :
    Connected g arcs (g.name a.start) (g.name a.finish) :=
  connected_of_joins ha (Or.inl ⟨rfl, rfl⟩)

theorem connected_mono {g : PathfinderGraph} {arcs1 arcs2 : List Arc}
    (h : ∀ a ∈ arcs1, a ∈ arcs2) {x y : String} (hc : Connected g arcs1 x y) :
    Connected g arcs2 x y :=
  Relation.ReflTransGen.mono (fun _ _ ⟨a, ha, hj⟩ => ⟨a, h a ha, hj⟩) hc

/-- Connectivity is generated by the arcs: a relation that is reflexive and
transitive and relates the end points of every arc contains it. -/
theorem connected_induction {g : PathfinderGraph} {arcs : List Arc} (R : String → String → Prop)
    (hrefl : ∀ x, R x x) (htrans : ∀ x y z, R x y → R y z → R x z)
    (harc : ∀ a ∈ arcs, ∀ x y, Joins g a x y → R x y) {x y : String}
    (h : Connected g arcs x y) : R x y := by
  induction h with
  | refl => exact hrefl x
  | tail _ hab ih =>
    obtain ⟨a, ha, hj⟩ := hab
    exact htrans _ _ _ ih (harc a ha _ _ hj)

/-- A path that uses one more arc either avoids the arc or crosses it. -/
theorem connected_insert {g : PathfinderGraph} {arcs arcs1 : List Arc} {a : Arc}
    (hsub : ∀ b ∈ arcs1, b ∈ arcs ∨ b = a) {x y : String} (h : Connected g arcs1 x y) :
    Connected g arcs x y ∨
      (Connected g arcs x (g.name a.start) ∧ Connected g arcs (g.name a.finish) y) ∨
      (Connected g arcs x (g.name a.finish) ∧ Connected g arcs (g.name a.start) y) := by
  induction h with
  | refl => exact Or.inl (connected_refl g arcs x)
  | @tail z y _ hab ih =>
    obtain ⟨b, hb, hj⟩ := hab
    rcases hsub b hb with hb | rfl
    · have hzy : Connected g arcs z y := connected_of_joins hb hj
      rcases ih with h | ⟨h1, h2⟩ | ⟨h1, h2⟩
      · exact Or.inl (connected_trans h hzy)
      · exact Or.inr (Or.inl ⟨h1, connected_trans h2 hzy⟩)
      · exact Or.inr (Or.inr ⟨h1, connected_trans h2 hzy⟩)
    · rcases hj with ⟨rfl, rfl⟩ | ⟨rfl, rfl⟩
      · rcases ih with h | ⟨h1, _⟩ | ⟨h1, _⟩
        · exact Or.inr (Or.inl ⟨h, connected_refl _ _ _⟩)
        · exact Or.inr (Or.inl ⟨h1, connected_refl _ _ _⟩)
        · exact Or.inl h1
      · rcases ih with h | ⟨h1, _⟩ | ⟨h1, _⟩
        · exact Or.inr (Or.inr ⟨h, connected_refl _ _ _⟩)
        · exact Or.inl h1
        · exact Or.inr (Or.inr ⟨h1, connected_refl _ _ _⟩)

theorem sameBucket_symm {vis : List (List String)} {x y : String} (h : SameBucket vis x y) :
    SameBucket vis y x := by
  obtain ⟨b, hb, hx, hy⟩ := h
  exact ⟨b, hb, hy, hx⟩

theorem sameBucket_trans {vis : List (List String)} (hd : DisjointBuckets vis) {x y z : String}
    (h1 : SameBucket vis x y) (h2 : SameBucket vis y z) : SameBucket vis x z := by
  obtain ⟨b, hb, hx, hy⟩ := h1
  obtain ⟨c, hc, hy1, hz⟩ := h2
  by_cases hbc : b = c
  · subst hbc
    exact ⟨b, hb, hx, hz⟩
  · exact absurd hy1 (fun h => hd.forall (fun _ _ h => List.Disjoint.symm h) hb hc hbc hy h)

/-- Cities connected by arcs whose end points share a bucket are equal or
share a bucket. -/
theorem sameBucket_of_connected {g : PathfinderGraph} {arcs : List Arc}
    {vis : List (List String)} (hd : DisjointBuckets vis)
    (h : ∀ a ∈ arcs, SameBucket vis (g.name a.start) (g.name a.finish)) {x y : String}
    (hc : Connected g arcs x y) : x = y ∨ SameBucket vis x y := by
  refine connected_induction (fun x y => x = y ∨ SameBucket vis x y) (fun _ => Or.inl rfl)
    ?_ ?_ hc
  · rintro x y z (rfl | h1) (rfl | h2)
    · exact Or.inl rfl
    · exact Or.inr h2
    · exact Or.inr h1
    · exact Or.inr (sameBucket_trans hd h1 h2)
  · rintro a ha x y (⟨rfl, rfl⟩ | ⟨rfl, rfl⟩)
    · exact Or.inr (h a ha)
    · exact Or.inr (sameBucket_symm (h a ha))

/-! ## The loop of `processInOrderOfCost` -/

/-- The proof rule of the loop: an invariant `I` of the processed arcs, the
queue, the buckets and the path holds at the end, when the queue is empty
and every arc of the queue has been processed. -/
theorem processLoop_rule (g : PathfinderGraph)
    (I : List Arc → PriorityQueue Arc → List (List String) → Path → Prop)
    (hstep : ∀ P q vis path a q1, I P q vis path → dequeue q = some (a, q1) →
      I (P ++ [a]) q1
        (findBucketWithCities a vis (g.name a.start) (g.name a.finish) path).1
        (findBucketWithCities a vis (g.name a.start) (g.name a.finish) path).2) :
    ∀ n q vis path P, q.length = n → I P q vis path →
      ∃ P1, List.Perm P1 (P ++ q.map Prod.fst) ∧
        I P1 [] (processLoop g n q vis path).1 (processLoop g n q vis path).2 := by
  intro n
  induction n with
  | zero =>
    intro q vis path P hn hI
    have hq : q = [] := List.length_eq_zero.1 hn
    subst hq
    exact ⟨P, by simp, hI⟩
  | succ n ih =>
    intro q vis path P hn hI
    cases hd : dequeue q with
    | none =>
      have := (dequeue_eq_none q).1 hd
      subst this
      simp at hn
    | some aq =>
      obtain ⟨a, q1⟩ := aq
      obtain ⟨pr, hperm, _⟩ := dequeue_some hd
      have hlen : q1.length = n := by
        have := hperm.length_eq
        simp only [List.length_cons] at this
        omega
      obtain ⟨P1, hP1, hI1⟩ := ih q1 _ _ (P ++ [a]) hlen (hstep P q vis path a q1 hI hd)
      refine ⟨P1, ?_, ?_⟩
      · refine hP1.trans ?_
        rw [List.append_assoc]
        refine List.Perm.append_left P ?_
        have := hperm.map Prod.fst
        simpa using this
      · simp only [processLoop, hd]
        exact hI1

theorem acyclic_nil (g : PathfinderGraph) : Acyclic g [] := by
  intro i a h
  simp at h

/-- An arc whose end points are not connected closes no cycle. -/
theorem acyclic_snoc {g : PathfinderGraph} {arcs : List Arc} {a : Arc} (h : Acyclic g arcs)
    (ha : ¬ Connected g arcs (g.name a.start) (g.name a.finish)) : Acyclic g (arcs ++ [a]) := by
  intro i b hb hc
  by_cases hi : i < arcs.length
  · rw [List.getElem?_append_left hi] at hb
    rw [List.eraseIdx_append_of_lt_length hi] at hc
    have hmem : b ∈ arcs := List.getElem?_mem hb
    have hsub : ∀ c ∈ arcs.eraseIdx i, c ∈ arcs := fun c hc => List.mem_of_mem_eraseIdx hc
    have hbc : Connected g arcs (g.name b.start) (g.name b.finish) := connected_of_mem hmem
    have hins : ∀ c ∈ arcs.eraseIdx i ++ [a], c ∈ arcs.eraseIdx i ∨ c = a :=
      fun c hc => by simpa using hc
    rcases connected_insert hins hc with h1 | ⟨h1, h2⟩ | ⟨h1, h2⟩
    · exact h i b hb h1
    · exact ha (connected_trans (connected_symm (connected_mono hsub h1))
        (connected_trans hbc (connected_symm (connected_mono hsub h2))))
    · exact ha (connected_symm (connected_trans (connected_symm (connected_mono hsub h1))
        (connected_trans hbc (connected_symm (connected_mono hsub h2)))))
  · have hi1 : arcs.length ≤ i := not_lt.1 hi
    rw [List.getElem?_append_right hi1] at hb
    rw [List.eraseIdx_append_of_length_le hi1] at hc
    have h0 : i - arcs.length = 0 := by
      by_contra hne
      have : [a][i - arcs.length]? = none := by
        apply List.getElem?_eq_none
        simp only [List.length_singleton]
        omega
      rw [this] at hb
      exact Option.noConfusion hb
    rw [h0] at hb hc
    simp only [List.getElem?_cons_zero, Option.some.injEq] at hb
    subst hb
    simp only [List.eraseIdx_cons_zero, List.append_nil] at hc
    exact ha hc

theorem kruskalInv_init (g : PathfinderGraph) : KruskalInv g [] [] [] where
  disjoint := List.Pairwise.nil
  sound := fun x y ⟨b, hb, _⟩ => absurd hb (List.not_mem_nil b)
  complete := fun a ha => absurd ha (List.not_mem_nil a)
  sub := fun a ha => absurd ha (List.not_mem_nil a)
  once := fun _ _ => by simp
  forest := fun _ => acyclic_nil g

theorem near_connected {g : PathfinderGraph} {vis : List (List String)} {path : Path}
    {a : Arc} (hs : ∀ x y, SameBucket vis x y → Connected g path x y) {z : String}
    (h : Near vis (g.name a.start) (g.name a.finish) z) :
    Connected g (path ++ [a]) z (g.name a.start) := by
  have hsub : ∀ b ∈ path, b ∈ path ++ [a] := fun b hb => List.mem_append_left _ hb
  have ha : Connected g (path ++ [a]) (g.name a.finish) (g.name a.start) :=
    connected_symm (connected_of_mem (by simp))
  rcases h with rfl | rfl | h | h
  · exact connected_refl _ _ _
  · exact ha
  · exact connected_mono hsub (hs _ _ h)
  · exact connected_trans (connected_mono hsub (hs _ _ h)) ha

theorem kruskalInv_step {g : PathfinderGraph} {P : List Arc} {vis : List (List String)}
    {path : Path} (a : Arc) (h : KruskalInv g P vis path) :
    KruskalInv g (P ++ [a])
      (findBucketWithCities a vis (g.name a.start) (g.name a.finish) path).1
      (findBucketWithCities a vis (g.name a.start) (g.name a.finish) path).2 := by
  have hst := findBucketWithCities_step a vis (g.name a.start) (g.name a.finish) path h.disjoint
  have hcomplete : ∀ b ∈ P ++ [a],
      SameBucket (findBucketWithCities a vis (g.name a.start) (g.name a.finish) path).1
        (g.name b.start) (g.name b.finish) := by
    intro b hb
    rcases List.mem_append.1 hb with hb | hb
    · exact hst.mono _ _ (h.complete b hb)
    · rw [List.mem_singleton.1 hb]
      exact hst.joined
  rcases hst.cases with ⟨_, hres⟩ | ⟨hnot, hpath, hnear⟩
  · rw [hres]
    rw [hres] at hcomplete
    exact ⟨h.disjoint, h.sound, hcomplete, fun b hb => List.mem_append_left _ (h.sub b hb),
      h.once, fun hl => h.forest (fun b hb => hl b (List.mem_append_left _ hb))⟩
  · refine ⟨hst.disjoint, ?_, hcomplete, ?_, ?_, ?_⟩
    · intro x y hxy
      rw [hpath]
      rcases hnear x y hxy with h1 | ⟨h1, h2⟩
      · exact connected_mono (fun b hb => List.mem_append_left _ hb) (h.sound x y h1)
      · exact connected_trans (near_connected h.sound h1)
          (connected_symm (near_connected h.sound h2))
    · intro b hb
      rw [hpath] at hb
      rcases List.mem_append.1 hb with hb | hb
      · exact List.mem_append_left _ (h.sub b hb)
      · exact List.mem_append_right _ hb
    · intro x y
      rw [hpath, List.countP_append]
      by_cases hj : Joins g a x y
      · have h0 : path.countP (fun b => decide (Joins g b x y)) = 0 := by
          rw [List.countP_eq_zero]
          intro b hb hjb
          have hjb : Joins g b x y := by simpa using hjb
          have hsb := h.complete b (h.sub b hb)
          have hxy : SameBucket vis x y := by
            rcases hjb with ⟨h1, h2⟩ | ⟨h1, h2⟩
            · rw [h1, h2] at hsb; exact hsb
            · rw [h1, h2] at hsb; exact sameBucket_symm hsb
          apply hnot
          rcases hj with ⟨h1, h2⟩ | ⟨h1, h2⟩
          · rw [h1, h2]; exact hxy
          · rw [h1, h2]; exact sameBucket_symm hxy
        rw [h0]
        simp [hj]
      · have := h.once x y
        simp [hj, this]
    · intro hl
      rw [hpath]
      refine acyclic_snoc (h.forest (fun b hb => hl b (List.mem_append_left _ hb))) ?_
      intro hc
      rcases sameBucket_of_connected h.disjoint (fun b hb => h.complete b (h.sub b hb)) hc
        with h1 | h1
      · exact hl a (by simp) h1
      · exact hnot h1

/-- At the end of `processInOrderOfCost` the invariant holds for the arcs of
the queue. -/
theorem kruskalInv_final (g : PathfinderGraph) (q : PriorityQueue Arc) :
    ∃ P, List.Perm P (q.map Prod.fst) ∧
      KruskalInv g P (finalBuckets g q []) (processInOrderOfCost g q []) := by
  obtain ⟨P, hP, hI⟩ := processLoop_rule g (fun P _ vis path => KruskalInv g P vis path)
    (fun P q vis path a q1 hI _ => kruskalInv_step a hI) q.length q [] [] [] rfl
    (kruskalInv_init g)
  exact ⟨P, by simpa using hP, hI⟩

theorem two_le_countP {α : Type} (p : α → Bool) :
    ∀ (l : List α) (i j : Nat) (a b : α), i < j → l[i]? = some a → l[j]? = some b →
      p a = true → p b = true → 2 ≤ l.countP p := by
  intro l
  induction l with
  | nil => intro i j a b _ h; simp at h
  | cons c l ih =>
    intro i j a b hij ha hb hpa hpb
    cases j with
    | zero => omega
    | succ j =>
      simp only [List.getElem?_cons_succ] at hb
      cases i with
      | zero =>
        simp only [List.getElem?_cons_zero, Option.some.injEq] at ha
        subst ha
        have : 0 < l.countP p := List.countP_pos_iff.2 ⟨b, List.getElem?_mem hb, hpb⟩
        rw [List.countP_cons_of_pos _ _ hpa]
        omega
      | succ i =>
        simp only [List.getElem?_cons_succ] at ha
        have := ih i j a b (by omega) ha hb hpa hpb
        rw [List.countP_cons]
        omega

/-! ## Claims about `processInOrderOfCost` -/

/-- C3, the failing input: on the map with the single connection A-A (two
arcs from A to A) the loop accepts an arc from A to A, so the accepted arcs
contain a cycle, for the cities as well as for the nodes. -/
theorem processInOrderOfCost_accepts_loop :
    processInOrderOfCost loopGraph (arcQueue loopGraph.arcSet) [] = [⟨0, 0, 3⟩] ∧
      kruskal loopGraph = [⟨0, 0, 3⟩] ∧ ¬ Acyclic loopGraph [⟨0, 0, 3⟩] ∧
      ¬ NodeAcyclic [⟨0, 0, 3⟩] :=
  ⟨by decide, by decide, fun h => h 0 ⟨0, 0, 3⟩ rfl (connected_refl _ _ _),
    fun h => h 0 ⟨0, 0, 3⟩ rfl Relation.ReflTransGen.refl⟩

theorem connected_of_nodeConnected {g : PathfinderGraph} {arcs : List Arc} {u v : Nat}
    (h : NodeConnected arcs u v) : Connected g arcs (g.name u) (g.name v) := by
  induction h with
  | refl => exact connected_refl _ _ _
  | tail _ hab ih =>
    obtain ⟨a, ha, hj⟩ := hab
    refine connected_trans ih (connected_of_joins ha ?_)
    rcases hj with ⟨rfl, rfl⟩ | ⟨rfl, rfl⟩
    · exact Or.inl ⟨rfl, rfl⟩
    · exact Or.inr ⟨rfl, rfl⟩

/-- With unique names a connection between names is a connection between
the nodes that carry them. -/
theorem nodeConnected_of_connected {g : PathfinderGraph} (huniq : UniqueNames g)
    {arcs : List Arc} (hends : EndsInGraph g arcs) {u : Nat} (hu : u < g.nodes.length)
    {y : String} (h : Connected g arcs (g.name u) y) :
    ∃ v, v < g.nodes.length ∧ g.name v = y ∧ NodeConnected arcs u v := by
  induction h with
  | refl => exact ⟨u, hu, rfl, Relation.ReflTransGen.refl⟩
  | tail _ hab ih =>
    obtain ⟨v, hv, hname, hc⟩ := ih
    obtain ⟨a, ha, hj⟩ := hab
    obtain ⟨hs, hf⟩ := hends a ha
    rcases hj with ⟨h1, h2⟩ | ⟨h1, h2⟩
    · have : a.start = v := huniq _ hs _ hv (h1.trans hname.symm)
      exact ⟨a.finish, hf, h2, Relation.ReflTransGen.tail hc ⟨a, ha, Or.inl ⟨this, rfl⟩⟩⟩
    · have : a.finish = v := huniq _ hf _ hv (h2.trans hname.symm)
      exact ⟨a.start, hs, h1, Relation.ReflTransGen.tail hc ⟨a, ha, Or.inr ⟨rfl, this⟩⟩⟩

theorem nodeConnected_ends {g : PathfinderGraph} {arcs : List Arc} (hends : EndsInGraph g arcs)
    {u v : Nat} (h : NodeConnected arcs u v) :
    u = v ∨ (u < g.nodes.length ∧ v < g.nodes.length) := by
  induction h with
  | refl => exact Or.inl rfl
  | @tail w v _ hab ih =>
    obtain ⟨a, ha, hj⟩ := hab
    obtain ⟨hs, hf⟩ := hends a ha
    have hwv : w < g.nodes.length ∧ v < g.nodes.length := by
      rcases hj with ⟨rfl, rfl⟩ | ⟨rfl, rfl⟩
      · exact ⟨hs, hf⟩
      · exact ⟨hf, hs⟩
    rcases ih with rfl | ⟨h1, _⟩
    · exact Or.inr hwv
    · exact Or.inr ⟨h1, hwv.2⟩

/-- C5: for every queue of arcs the accepted arcs span the input: two cities
are connected by arcs of the queue if and only if they are connected by
accepted arcs.  (Left to right: the accepted arcs connect every component of
the input; right to left: they never connect two different components.)
The cities are identified by their names, as in the buckets; the second
part states the same for the nodes of a graph with unique names. -/
theorem processInOrderOfCost_spans (g : PathfinderGraph) (q : PriorityQueue Arc) :
    (∀ x y : String,
      Connected g (q.map Prod.fst) x y ↔ Connected g (processInOrderOfCost g q []) x y) ∧
    (UniqueNames g → EndsInGraph g (q.map Prod.fst) → ∀ u v : Nat,
      (NodeConnected (q.map Prod.fst) u v ↔ NodeConnected (processInOrderOfCost g q []) u v)) := by
  obtain ⟨P, hP, hI⟩ := kruskalInv_final g q
  have hsub : ∀ a ∈ processInOrderOfCost g q [], a ∈ q.map Prod.fst :=
    fun a ha => hP.subset (hI.sub a ha)
  have hnames : ∀ x y : String,
      Connected g (q.map Prod.fst) x y → Connected g (processInOrderOfCost g q []) x y := by
    intro x y h
    rcases sameBucket_of_connected hI.disjoint
      (fun a ha => hI.complete a (hP.symm.subset ha)) h with rfl | h1
    · exact connected_refl _ _ _
    · exact hI.sound x y h1
  refine ⟨fun x y => ⟨hnames x y, connected_mono hsub⟩, fun huniq hends u v => ⟨fun h => ?_,
    Relation.ReflTransGen.mono (fun _ _ ⟨a, ha, hj⟩ => ⟨a, hsub a ha, hj⟩)⟩⟩
  rcases nodeConnected_ends hends h with rfl | ⟨hu, hv⟩
  · exact Relation.ReflTransGen.refl
  · obtain ⟨w, hw, hname, hc⟩ := nodeConnected_of_connected huniq
      (fun a ha => hends a (hsub a ha)) hu (hnames _ _ (connected_of_nodeConnected h))
    rw [huniq w hw v hv hname] at hc
    exact hc

theorem processInOrderOfCost_spans_witness :
    NodeConnected (processInOrderOfCost scenarioA (arcQueue scenarioA.arcSet) []) 0 2 :=
  ((processInOrderOfCost_spans scenarioA (arcQueue scenarioA.arcSet)).2 (by decide)
    (by decide) 0 2).1 (Relation.ReflTransGen.single ⟨⟨0, 2, 5⟩, by decide, Or.inl ⟨rfl, rfl⟩⟩)

theorem joins_of_nodeJoins {g : PathfinderGraph} {b : Arc} {u v : Nat}
    (h : NodeJoins b u v) : Joins g b (g.name u) (g.name v) := by
  rcases h with ⟨rfl, rfl⟩ | ⟨rfl, rfl⟩
  · exact Or.inl ⟨rfl, rfl⟩
  · exact Or.inr ⟨rfl, rfl⟩

/-- C8: for every queue of arcs, no two accepted arcs join the same two
cities: an arc accepted at one position of the result and an arc accepted at
another position never have the same end points, in the same or in the
opposite direction, be it as cities (names) or as nodes.  In particular the
result never holds both directions of one connection. -/
theorem processInOrderOfCost_one_direction (g : PathfinderGraph) (q : PriorityQueue Arc)
    (i j : Nat) (a b : Arc) (hij : i ≠ j)
    (ha : (processInOrderOfCost g q [])[i]? = some a)
    (hb : (processInOrderOfCost g q [])[j]? = some b) :
    ¬ Joins g b (g.name a.start) (g.name a.finish) ∧ ¬ NodeJoins b a.start a.finish := by
  obtain ⟨P, _, hI⟩ := kruskalInv_final g q
  have key : ¬ Joins g b (g.name a.start) (g.name a.finish) := by
    intro hj
    have h1 := hI.once (g.name a.start) (g.name a.finish)
    have hpa : decide (Joins g a (g.name a.start) (g.name a.finish)) = true :=
      decide_eq_true (Or.inl ⟨rfl, rfl⟩)
    have hpb : decide (Joins g b (g.name a.start) (g.name a.finish)) = true :=
      decide_eq_true hj
    rcases Nat.lt_or_gt_of_ne hij with h | h
    · have := two_le_countP (fun c => decide (Joins g c (g.name a.start) (g.name a.finish)))
        _ i j a b h ha hb hpa hpb
      omega
    · have := two_le_countP (fun c => decide (Joins g c (g.name a.start) (g.name a.finish)))
        _ j i b a h hb ha hpb hpa
      omega
  exact ⟨key, fun h => key (joins_of_nodeJoins h)⟩

theorem processInOrderOfCost_one_direction_witness :
    ¬ Joins scenarioA ⟨1, 2, 1⟩ (scenarioA.name 0) (scenarioA.name 1) ∧
      ¬ NodeJoins ⟨1, 2, 1⟩ 0 1 :=
  processInOrderOfCost_one_direction scenarioA (arcQueue scenarioA.arcSet) 0 1
    ⟨0, 1, 1⟩ ⟨1, 2, 1⟩ (by decide) (by decide) (by decide)

/-! ## Forests and the number of their arcs -/

theorem connected_nil {g : PathfinderGraph} {x y : String} (h : Connected g [] x y) : x = y :=
  connected_induction (fun x y => x = y) (fun _ => rfl) (fun _ _ _ h1 h2 => h1.trans h2)
    (fun a ha => absurd ha (List.not_mem_nil a)) h

theorem isForest_of_acyclic {g : PathfinderGraph} {arcs : List Arc} (h : Acyclic g arcs) :
    IsForest g arcs := by
  induction arcs with
  | nil => trivial
  | cons a arcs ih =>
    refine ⟨h 0 a (by simp), ih ?_⟩
    intro i b hb hc
    refine h (i + 1) b (by simpa using hb) ?_
    simp only [List.eraseIdx_cons_succ]
    exact connected_mono (fun c hc => List.mem_cons_of_mem _ hc) hc

theorem isForest_filter {g : PathfinderGraph} {arcs : List Arc} (p : Arc → Bool)
    (h : IsForest g arcs) : IsForest g (arcs.filter p) := by
  induction arcs with
  | nil => trivial
  | cons a arcs ih =>
    simp only [List.filter_cons]
    split
    · exact ⟨fun hc => h.1 (connected_mono (fun c hc => List.mem_of_mem_filter hc) hc), ih h.2⟩
    · exact ih h.2

/-- Representatives of the components exist, and counting them bounds the
number of arcs: a forest on `V` with `c` components has `|V| - c` arcs, and
any list of arcs with `c` components has at least that many. -/
theorem exists_transversal (g : PathfinderGraph) (V : Finset String) :
    ∀ arcs : List Arc, (∀ a ∈ arcs, g.name a.start ∈ V ∧ g.name a.finish ∈ V) →
      ∃ R, IsTransversal g arcs V R ∧ V.card ≤ R.card + arcs.length ∧
        (IsForest g arcs → R.card + arcs.length = V.card) := by
  intro arcs
  induction arcs with
  | nil =>
    intro _
    refine ⟨V, ⟨Finset.Subset.refl V, fun x hx => ⟨x, hx, connected_refl _ _ _⟩,
      fun r _ r1 _ h => connected_nil h⟩, by simp, fun _ => by simp⟩
  | cons a arcs ih =>
    intro hV
    obtain ⟨R, ⟨hsub, hcover, huniq⟩, hcard, hforest⟩ :=
      ih (fun b hb => hV b (List.mem_cons_of_mem _ hb))
    obtain ⟨hu, hv⟩ := hV a (List.mem_cons_self _ _)
    obtain ⟨ru, hru, hcu⟩ := hcover _ hu
    obtain ⟨rv, hrv, hcv⟩ := hcover _ hv
    have hmono : ∀ x y, Connected g arcs x y → Connected g (a :: arcs) x y :=
      fun x y h => connected_mono (fun c hc => List.mem_cons_of_mem _ hc) h
    have hins : ∀ x y, Connected g (a :: arcs) x y →
        Connected g arcs x y ∨
          (Connected g arcs x (g.name a.start) ∧ Connected g arcs (g.name a.finish) y) ∨
          (Connected g arcs x (g.name a.finish) ∧ Connected g arcs (g.name a.start) y) :=
      fun x y h => connected_insert (fun b hb => by
        rcases List.mem_cons.1 hb with h | h
        · exact Or.inr h
        · exact Or.inl h) h
    by_cases huv : Connected g arcs (g.name a.start) (g.name a.finish)
    · refine ⟨R, ⟨hsub, fun x hx => ?_, fun r hr r1 hr1 h => ?_⟩, ?_, fun hf => absurd huv hf.1⟩
      · obtain ⟨r, hr, hc⟩ := hcover x hx
        exact ⟨r, hr, hmono _ _ hc⟩
      · rcases hins r r1 h with h1 | ⟨h1, h2⟩ | ⟨h1, h2⟩
        · exact huniq r hr r1 hr1 h1
        · exact huniq r hr r1 hr1 (connected_trans h1 (connected_trans huv h2))
        · exact huniq r hr r1 hr1 (connected_trans h1 (connected_trans (connected_symm huv) h2))
      · simp only [List.length_cons]
        omega
    · have hne : ru ≠ rv := by
        rintro rfl
        exact huv (connected_trans hcu (connected_symm hcv))
      have hpos : 0 < R.card := Finset.card_pos.2 ⟨rv, hrv⟩
      refine ⟨R.erase rv, ⟨(Finset.erase_subset _ _).trans hsub, fun x hx => ?_,
        fun r hr r1 hr1 h => ?_⟩, ?_, fun hf => ?_⟩
      · obtain ⟨r, hr, hc⟩ := hcover x hx
        by_cases hrrv : r = rv
        · subst hrrv
          refine ⟨ru, Finset.mem_erase.2 ⟨hne, hru⟩, ?_⟩
          exact connected_trans (hmono _ _ hc) (connected_trans (hmono _ _ (connected_symm hcv))
            (connected_trans (connected_symm (connected_of_mem (List.mem_cons_self _ _)))
              (hmono _ _ hcu)))
        · exact ⟨r, Finset.mem_erase.2 ⟨hrrv, hr⟩, hmono _ _ hc⟩
      · obtain ⟨hr0, hr⟩ := Finset.mem_erase.1 hr
        obtain ⟨hr10, hr1⟩ := Finset.mem_erase.1 hr1
        rcases hins r r1 h with h1 | ⟨_, h2⟩ | ⟨h1, _⟩
        · exact huniq r hr r1 hr1 h1
        · exact absurd (huniq r1 hr1 rv hrv (connected_trans (connected_symm h2) hcv)) hr10
        · exact absurd (huniq r hr rv hrv (connected_trans h1 hcv)) hr0
      · rw [Finset.card_erase_of_mem hrv]
        simp only [List.length_cons]
        omega
      · have := hforest hf.2
        rw [Finset.card_erase_of_mem hrv]
        simp only [List.length_cons]
        omega

theorem transversal_card_le {g : PathfinderGraph} {F K : List Arc} {V RF RK : Finset String}
    (hF : IsTransversal g F V RF) (hK : IsTransversal g K V RK)
    (h : ∀ x y, Connected g F x y → Connected g K x y) : RK.card ≤ RF.card := by
  have hrep : ∀ x, ∃ r, x ∈ V → r ∈ RF ∧ Connected g F x r := by
    intro x
    by_cases hx : x ∈ V
    · obtain ⟨r, hr, hc⟩ := hF.2.1 x hx
      exact ⟨r, fun _ => ⟨hr, hc⟩⟩
    · exact ⟨x, fun h => absurd h hx⟩
  choose rep hrep using hrep
  refine Finset.card_le_card_of_injOn rep (fun r hr => (hrep r (hK.1 hr)).1) ?_
  intro r hr r1 hr1 heq
  have h1 := (hrep r (hK.1 hr)).2
  have h2 := (hrep r1 (hK.1 hr1)).2
  rw [heq] at h1
  exact hK.2.2 r hr r1 hr1 (h _ _ (connected_trans h1 (connected_symm h2)))

/-- A forest has no more arcs than any list of arcs that connects the end
points of each of its arcs. -/
theorem forest_length_le {g : PathfinderGraph} {F K : List Arc} (hF : IsForest g F)
    (h : ∀ a ∈ F, Connected g K (g.name a.start) (g.name a.finish)) : F.length ≤ K.length := by
  let V : Finset String :=
    ((F ++ K).map (fun a => g.name a.start) ++ (F ++ K).map (fun a => g.name a.finish)).toFinset
  have hV : ∀ a ∈ F ++ K, g.name a.start ∈ V ∧ g.name a.finish ∈ V := by
    intro a ha
    simp only [V, List.mem_toFinset, List.mem_append, List.mem_map]
    exact ⟨Or.inl ⟨a, List.mem_append.1 ha, rfl⟩, Or.inr ⟨a, List.mem_append.1 ha, rfl⟩⟩
  obtain ⟨RF, hRF, _, hcF⟩ := exists_transversal g V F
    (fun a ha => hV a (List.mem_append_left _ ha))
  obtain ⟨RK, hRK, hcK, _⟩ := exists_transversal g V K
    (fun a ha => hV a (List.mem_append_right _ ha))
  have hle := transversal_card_le hRF hRK (fun x y hc =>
    connected_induction (Connected g K) (connected_refl g K)
      (fun _ _ _ h1 h2 => connected_trans h1 h2)
      (fun a ha x y hj => by
        rcases hj with ⟨rfl, rfl⟩ | ⟨rfl, rfl⟩
        · exact h a ha
        · exact connected_symm (h a ha)) hc)
  have := hcF hF
  omega

/-! ## Comparing the total costs of two lists of arcs -/

theorem sum_boole_Ico (lo hi x : Int) (h1 : lo ≤ x) (h2 : x ≤ hi) :
    (∑ c in Finset.Ico lo hi, if x ≤ c then (1 : Int) else 0) = hi - x := by
  rw [Finset.sum_boole, Finset.Ico_filter_le, max_eq_right h1, Int.card_Ico]
  exact Int.toNat_of_nonneg (by omega)

theorem sum_countP_Ico (lo hi : Int) (l : List Int) (h : ∀ x ∈ l, lo ≤ x ∧ x ≤ hi) :
    (∑ c in Finset.Ico lo hi, (l.countP (fun x => decide (x ≤ c)) : Int)) =
      hi * l.length - l.sum := by
  induction l with
  | nil => simp
  | cons x l ih =>
    have h1 := ih (fun y hy => h y (List.mem_cons_of_mem _ hy))
    have h2 := sum_boole_Ico lo hi x (h x (List.mem_cons_self _ _)).1 (h x (List.mem_cons_self _ _)).2
    have h3 : ∀ c : Int, ((x :: l).countP (fun x => decide (x ≤ c)) : Int) =
        (l.countP (fun x => decide (x ≤ c)) : Int) + (if x ≤ c then (1 : Int) else 0) := by
      intro c
      rw [List.countP_cons]
      by_cases hx : x ≤ c <;> simp [hx]
    simp only [h3, Finset.sum_add_distrib, h1, h2, List.length_cons, List.sum_cons]
    push_cast
    ring

theorem exists_bounds (l : List Int) : ∃ lo hi : Int, ∀ x ∈ l, lo ≤ x ∧ x ≤ hi := by
  induction l with
  | nil => exact ⟨0, 0, fun x hx => absurd hx (List.not_mem_nil x)⟩
  | cons y l ih =>
    obtain ⟨lo, hi, h⟩ := ih
    refine ⟨min lo y, max hi y, fun x hx => ?_⟩
    rcases List.mem_cons.1 hx with rfl | hx
    · exact ⟨min_le_right _ _, le_max_right _ _⟩
    · exact ⟨le_trans (min_le_left _ _) (h x hx).1, le_trans (h x hx).2 (le_max_left _ _)⟩

theorem sum_le_of_countP (A B : List Int) (hlen : A.length = B.length)
    (hc : ∀ c : Int, B.countP (fun x => decide (x ≤ c)) ≤ A.countP (fun x => decide (x ≤ c))) :
    A.sum ≤ B.sum := by
  obtain ⟨lo, hi, h⟩ := exists_bounds (A ++ B)
  have hA := sum_countP_Ico lo hi A (fun x hx => h x (List.mem_append_left _ hx))
  have hB := sum_countP_Ico lo hi B (fun x hx => h x (List.mem_append_right _ hx))
  have hle : (∑ c in Finset.Ico lo hi, (B.countP (fun x => decide (x ≤ c)) : Int)) ≤
      ∑ c in Finset.Ico lo hi, (A.countP (fun x => decide (x ≤ c)) : Int) :=
    Finset.sum_le_sum (fun c _ => by exact_mod_cast hc c)
  rw [hA, hB, hlen] at hle
  omega

/-! ## The costs in the loop of `processInOrderOfCost` -/

theorem foldl_enqueue (arcs : List Arc) (q : PriorityQueue Arc) :
    arcs.foldl (fun q arc => enqueue q arc arc.cost) q =
      q ++ arcs.map (fun a => (a, a.cost)) := by
  induction arcs generalizing q with
  | nil => simp
  | cons a arcs ih =>
    rw [List.foldl_cons, ih]
    simp [enqueue]

theorem arcQueue_eq (arcs : List Arc) : arcQueue arcs = arcs.map (fun a => (a, a.cost)) := by
  simp [arcQueue, foldl_enqueue]

theorem costInv_step {g : PathfinderGraph} {P : List Arc} {q q1 : PriorityQueue Arc}
    {vis : List (List String)} {path : Path} {a : Arc} (h : KruskalInv g P vis path)
    (hc : CostInv g P q path) (hd : dequeue q = some (a, q1)) :
    CostInv g (P ++ [a]) q1
      (findBucketWithCities a vis (g.name a.start) (g.name a.finish) path).2 := by
  obtain ⟨pr, hperm, hmin⟩ := dequeue_some hd
  have hq1 : ∀ z ∈ q1, z ∈ q := fun z hz => hperm.subset (List.mem_cons_of_mem _ hz)
  have ha : (a, pr) ∈ q := hperm.subset (List.mem_cons_self _ _)
  have hpr : pr = a.cost := hc.prio _ ha
  have hst := findBucketWithCities_step a vis (g.name a.start) (g.name a.finish) path h.disjoint
  refine ⟨fun z hz => hc.prio z (hq1 z hz), ?_, ?_⟩
  · intro b hb z hz
    rcases List.mem_append.1 hb with hb | hb
    · exact hc.sorted b hb z (hq1 z hz)
    · rw [List.mem_singleton.1 hb, ← hpr]
      exact hmin z (hq1 z hz)
  · intro e he
    rcases hst.cases with ⟨hsb, hres⟩ | ⟨_, hpath, _⟩
    · rw [hres]
      rcases List.mem_append.1 he with he | he
      · exact hc.light e he
      · rw [List.mem_singleton.1 he]
        refine connected_mono (fun b hb => ?_) (h.sound _ _ hsb)
        refine List.mem_filter.2 ⟨hb, decide_eq_true ?_⟩
        have := hc.sorted b (h.sub b hb) _ ha
        simp only at this
        omega
    · rw [hpath]
      rcases List.mem_append.1 he with he | he
      · refine connected_mono (fun b hb => ?_) (hc.light e he)
        obtain ⟨hb1, hb2⟩ := List.mem_filter.1 hb
        exact List.mem_filter.2 ⟨List.mem_append_left _ hb1, hb2⟩
      · rw [List.mem_singleton.1 he]
        exact connected_of_mem (List.mem_filter.2 ⟨by simp, by simp⟩)

/-- At the end of `processInOrderOfCost`, run on the queue that `kruskal`
fills, both invariants hold for the arcs of the queue. -/
theorem costInv_final (g : PathfinderGraph) (arcs : List Arc) :
    ∃ P, List.Perm P arcs ∧
      KruskalInv g P (finalBuckets g (arcQueue arcs) [])
        (processInOrderOfCost g (arcQueue arcs) []) ∧
      CostInv g P [] (processInOrderOfCost g (arcQueue arcs) []) := by
  obtain ⟨P, hP, hI, hC⟩ := processLoop_rule g
    (fun P q vis path => KruskalInv g P vis path ∧ CostInv g P q path)
    (fun P q vis path a q1 hI hd => ⟨kruskalInv_step a hI.1, costInv_step hI.1 hI.2 hd⟩)
    (arcQueue arcs).length (arcQueue arcs) [] [] [] rfl
    ⟨kruskalInv_init g,
      ⟨fun z hz => by
          rw [arcQueue_eq] at hz
          obtain ⟨a, _, rfl⟩ := List.mem_map.1 hz
          rfl,
        fun a ha => absurd ha (List.not_mem_nil a),
        fun a ha => absurd ha (List.not_mem_nil a)⟩⟩
  refine ⟨P, ?_, hI, hC⟩
  have : (arcQueue arcs).map Prod.fst = arcs := by
    rw [arcQueue_eq, List.map_map]
    exact List.map_id _
  simpa [this] using hP

/-- The minimum spanning forest, with the cities identified by their
names: for arcs none of which joins a city to itself, the arcs accepted by
`processInOrderOfCost` form a spanning forest, and no spanning forest costs
less. -/
theorem minimumSpanningForest_names (g : PathfinderGraph) (arcs : List Arc)
    (hloop : ∀ a ∈ arcs, g.name a.start ≠ g.name a.finish) :
    IsSpanningForest g arcs (processInOrderOfCost g (arcQueue arcs) []) ∧
      ∀ F, IsSpanningForest g arcs F →
        totalCost (processInOrderOfCost g (arcQueue arcs) []) ≤ totalCost F := by
  obtain ⟨P, hP, hI, hC⟩ := costInv_final g arcs
  have hacyc : Acyclic g (processInOrderOfCost g (arcQueue arcs) []) :=
    hI.forest (fun a ha => hloop a (hP.subset ha))
  have hspan : ∀ x y, Connected g arcs x y →
      Connected g (processInOrderOfCost g (arcQueue arcs) []) x y := by
    intro x y h
    rcases sameBucket_of_connected hI.disjoint
      (fun a ha => hI.complete a (hP.symm.subset ha)) h with rfl | h1
    · exact connected_refl _ _ _
    · exact hI.sound x y h1
  refine ⟨⟨fun a ha => hP.subset (hI.sub a ha), hacyc, hspan⟩, ?_⟩
  rintro F ⟨hFsub, hFacyc, hFspan⟩
  have hFforest := isForest_of_acyclic hFacyc
  have hlen : (processInOrderOfCost g (arcQueue arcs) []).length = F.length := by
    apply le_antisymm
    · exact forest_length_le (isForest_of_acyclic hacyc)
        (fun a ha => hFspan _ _ (connected_of_mem (hP.subset (hI.sub a ha))))
    · exact forest_length_le hFforest (fun a ha => hspan _ _ (connected_of_mem (hFsub a ha)))
  unfold totalCost
  apply sum_le_of_countP _ _ (by simpa using hlen)
  intro c
  rw [List.countP_map, List.countP_map, List.countP_eq_length_filter,
    List.countP_eq_length_filter]
  apply forest_length_le (isForest_filter _ hFforest)
  intro e he
  obtain ⟨he1, he2⟩ := List.mem_filter.1 he
  have hec : e.cost ≤ c := by simpa using he2
  refine connected_mono (fun b hb => ?_) (hC.light e (hP.symm.subset (hFsub e he1)))
  obtain ⟨hb1, hb2⟩ := List.mem_filter.1 hb
  have hbe : b.cost ≤ e.cost := by simpa using hb2
  exact List.mem_filter.2 ⟨hb1, by simpa using le_trans hbe hec⟩

/-! ## Nodes and names -/

theorem nodeConnected_iff {g : PathfinderGraph} (huniq : UniqueNames g) {arcs : List Arc}
    (hends : EndsInGraph g arcs) {u v : Nat} (hu : u < g.nodes.length)
    (hv : v < g.nodes.length) :
    NodeConnected arcs u v ↔ Connected g arcs (g.name u) (g.name v) := by
  refine ⟨connected_of_nodeConnected, fun h => ?_⟩
  obtain ⟨w, hw, hname, hc⟩ := nodeConnected_of_connected huniq hends hu h
  rw [huniq w hw v hv hname] at hc
  exact hc

theorem endsInGraph_of_subset {g : PathfinderGraph} {arcs1 arcs2 : List Arc}
    (h : ∀ a ∈ arcs1, a ∈ arcs2) (hends : EndsInGraph g arcs2) : EndsInGraph g arcs1 :=
  fun a ha => hends a (h a ha)

theorem nodeAcyclic_iff {g : PathfinderGraph} (huniq : UniqueNames g) {arcs : List Arc}
    (hends : EndsInGraph g arcs) : NodeAcyclic arcs ↔ Acyclic g arcs := by
  have key : ∀ i a, arcs[i]? = some a →
      (NodeConnected (arcs.eraseIdx i) a.start a.finish ↔
        Connected g (arcs.eraseIdx i) (g.name a.start) (g.name a.finish)) := by
    intro i a ha
    obtain ⟨hs, hf⟩ := hends a (List.getElem?_mem ha)
    exact nodeConnected_iff huniq
      (endsInGraph_of_subset (fun b hb => List.mem_of_mem_eraseIdx hb) hends) hs hf
  constructor
  · intro h i a ha hc
    exact h i a ha ((key i a ha).2 hc)
  · intro h i a ha hc
    exact h i a ha ((key i a ha).1 hc)

theorem isNodeSpanningForest_iff {g : PathfinderGraph} (huniq : UniqueNames g)
    {arcs : List Arc} (hends : EndsInGraph g arcs) (F : List Arc) :
    IsNodeSpanningForest arcs F ↔ IsSpanningForest g arcs F := by
  constructor
  · rintro ⟨hsub, hacyc, hspan⟩
    refine ⟨hsub, (nodeAcyclic_iff huniq (endsInGraph_of_subset hsub hends)).1 hacyc, ?_⟩
    intro x y h
    refine connected_induction (Connected g F) (connected_refl g F)
      (fun _ _ _ h1 h2 => connected_trans h1 h2) (fun a ha x y hj => ?_) h
    have h1 : Connected g F (g.name a.start) (g.name a.finish) :=
      connected_of_nodeConnected
        (hspan _ _ (Relation.ReflTransGen.single ⟨a, ha, Or.inl ⟨rfl, rfl⟩⟩))
    rcases hj with ⟨rfl, rfl⟩ | ⟨rfl, rfl⟩
    · exact h1
    · exact connected_symm h1
  · rintro ⟨hsub, hacyc, hspan⟩
    refine ⟨hsub, (nodeAcyclic_iff huniq (endsInGraph_of_subset hsub hends)).2 hacyc, ?_⟩
    intro u v h
    rcases nodeConnected_ends hends h with rfl | ⟨hu, hv⟩
    · exact Relation.ReflTransGen.refl
    · exact (nodeConnected_iff huniq (endsInGraph_of_subset hsub hends) hu hv).2
        (hspan _ _ (connected_of_nodeConnected h))

/-- C4: for arcs none of which joins a node to itself, dequeued in ascending
order of cost, the arcs accepted by `processInOrderOfCost` form a spanning
forest of the undirected graph of the arcs, and their total cost is at most
the total cost of every spanning forest: it is the minimum.  The first part
is the statement for the cities, identified by their names as in the
buckets; the second part is the statement for the nodes of a graph with
unique names. -/
theorem processInOrderOfCost_minimum (g : PathfinderGraph) (arcs : List Arc) :
    ((∀ a ∈ arcs, g.name a.start ≠ g.name a.finish) →
      IsSpanningForest g arcs (processInOrderOfCost g (arcQueue arcs) []) ∧
        ∀ F, IsSpanningForest g arcs F →
          totalCost (processInOrderOfCost g (arcQueue arcs) []) ≤ totalCost F) ∧
    (UniqueNames g → EndsInGraph g arcs → (∀ a ∈ arcs, a.start ≠ a.finish) →
      IsNodeSpanningForest arcs (processInOrderOfCost g (arcQueue arcs) []) ∧
        ∀ F, IsNodeSpanningForest arcs F →
          totalCost (processInOrderOfCost g (arcQueue arcs) []) ≤ totalCost F) := by
  refine ⟨minimumSpanningForest_names g arcs, fun huniq hends hloop => ?_⟩
  obtain ⟨h1, h2⟩ := minimumSpanningForest_names g arcs (fun a ha hname =>
    hloop a ha (huniq _ (hends a ha).1 _ (hends a ha).2 hname))
  exact ⟨(isNodeSpanningForest_iff huniq hends _).2 h1,
    fun F hF => h2 F ((isNodeSpanningForest_iff huniq hends F).1 hF)⟩

theorem processInOrderOfCost_minimum_witness :
    (IsSpanningForest scenarioA scenarioA.arcSet
        (processInOrderOfCost scenarioA (arcQueue scenarioA.arcSet) []) ∧
      ∀ F, IsSpanningForest scenarioA scenarioA.arcSet F →
        totalCost (processInOrderOfCost scenarioA (arcQueue scenarioA.arcSet) []) ≤
          totalCost F) ∧
    (IsNodeSpanningForest scenarioA.arcSet
        (processInOrderOfCost scenarioA (arcQueue scenarioA.arcSet) []) ∧
      ∀ F, IsNodeSpanningForest scenarioA.arcSet F →
        totalCost (processInOrderOfCost scenarioA (arcQueue scenarioA.arcSet) []) ≤
          totalCost F) :=
  ⟨(processInOrderOfCost_minimum scenarioA scenarioA.arcSet).1 (by decide),
    (processInOrderOfCost_minimum scenarioA scenarioA.arcSet).2 (by decide) (by decide)
      (by decide)⟩

/-! ## The search loop with its record -/

theorem searchRun_path (g : PathfinderGraph) (finish : Nat) :
    ∀ (fuel : Nat) (st : SearchState) (log : SearchLog),
      (searchRun g finish fuel st log).map SearchRun.path = searchLoop g finish fuel st := by
  intro fuel
  induction fuel with
  | zero =>
    intro st log
    by_cases h : st.start = finish <;> simp [searchRun, searchLoop, h]
  | succ n ih =>
    intro st log
    rw [searchRun, searchLoop]
    by_cases h : st.start = finish
    · simp [h]
    · simp only [h, if_false]
      cases hd : dequeue (expand g st).mainQueue with
      | none => rfl
      | some pq =>
        obtain ⟨p, q⟩ := pq
        simp only
        cases hl : p.getLast? with
        | none => rfl
        | some arc => exact ih _ _

/-- The proof rule of the loop with its record: as `searchLoop_rule`, for an
invariant that may mention the ghost variables. -/
theorem searchRun_rule (g : PathfinderGraph) (finish : Nat)
    (I : SearchState → SearchLog → Prop) (Post : SearchRun → Prop)
    (hq : ∀ st log, I st log → ∀ z ∈ (expand g st).mainQueue, z.1 ≠ [])
    (hstep : ∀ st log p q arc, I st log → st.start ≠ finish →
      dequeue (expand g st).mainQueue = some (p, q) → p.getLast? = some arc →
      I ⟨arc.finish, p, q, (expand g st).fixed⟩ (logIteration g st log))
    (hexit : ∀ st log, I st log → st.start = finish → Post ⟨st.path, true, log⟩)
    (hempty : ∀ st log, I st log → st.start ≠ finish → (expand g st).mainQueue = [] →
      Post ⟨[], false, logIteration g st log⟩) :
    ∀ fuel st log, I st log → searchMeasure g st < fuel →
      ∃ r, searchRun g finish fuel st log = some r ∧ Post r := by
  intro fuel
  induction fuel with
  | zero => intro st log _ h; omega
  | succ n ih =>
    intro st log hI hm
    by_cases hs : st.start = finish
    · refine ⟨⟨st.path, true, log⟩, ?_, hexit st log hI hs⟩
      rw [searchRun]
      simp [hs]
    · rw [searchRun]
      simp only [hs, if_false]
      cases hd : dequeue (expand g st).mainQueue with
      | none => exact ⟨_, rfl, hempty st log hI hs ((dequeue_eq_none _).1 hd)⟩
      | some pq =>
        obtain ⟨p, q⟩ := pq
        obtain ⟨pr, hperm, _⟩ := dequeue_some hd
        have hp : p ≠ [] := hq st log hI (p, pr) (hperm.subset (List.mem_cons_self _ _))
        obtain ⟨arc, harc⟩ : ∃ arc, p.getLast? = some arc := by
          cases h : p.getLast? with
          | none => exact absurd (List.getLast?_eq_none_iff.1 h) hp
          | some a => exact ⟨a, rfl⟩
        simp only [harc]
        apply ih _ _ (hstep st log p q arc hI hs hd harc)
        have h1 := searchMeasure_expand_le g st
        have h2 := hperm.length_eq
        simp only [searchMeasure, List.length_cons] at h1 h2 hm ⊢
        omega

/-! ## Termination of the search loop -/

theorem containsKey_expand_mono {g : PathfinderGraph} {st : SearchState} {k : String}
    (h : containsKey st.fixed k = true) : containsKey (expand g st).fixed k = true := by
  cases hfree : containsKey st.fixed (g.name st.start) with
  | false =>
    rw [expand_of_free hfree]
    exact (containsKey_put _ _ _ _).2 (Or.inr h)
  | true =>
    rw [expand_of_fixed hfree]
    exact h

theorem containsKey_expand_start (g : PathfinderGraph) (st : SearchState) :
    containsKey (expand g st).fixed (g.name st.start) = true := by
  cases hfree : containsKey st.fixed (g.name st.start) with
  | false =>
    rw [expand_of_free hfree]
    exact containsKey_put_self _ _ _
  | true =>
    rw [expand_of_fixed hfree]
    exact hfree

theorem length_le_of_nodup_of_lt {l : List Nat} {n : Nat} (hn : l.Nodup)
    (h : ∀ v ∈ l, v < n) : l.length ≤ n := by
  have h1 : l.toFinset ⊆ Finset.range n := by
    intro v hv
    exact Finset.mem_range.2 (h v (List.mem_toFinset.1 hv))
  have h2 := Finset.card_le_card h1
  rw [List.toFinset_card_of_nodup hn, Finset.card_range] at h2
  exact h2

/-- One iteration keeps the record of the expanded nodes free of
repetitions. -/
theorem expanded_logIteration {g : PathfinderGraph} {s : Nat} {st : SearchState}
    {log : SearchLog} (hw : WalkInv g s st) (h : ExpandInv g s st log) :
    (logIteration g st log).expanded.Nodup ∧
      (∀ v ∈ (logIteration g st log).expanded,
        containsKey (expand g st).fixed (g.name v) = true) ∧
      (WellFormed g → s < g.nodes.length →
        ∀ v ∈ (logIteration g st log).expanded, v < g.nodes.length) := by
  obtain ⟨hnd, hfix, hlt, _⟩ := h
  cases hfree : containsKey st.fixed (g.name st.start) with
  | false =>
    have hex : (logIteration g st log).expanded = log.expanded ++ [st.start] := by
      simp [logIteration, hfree]
    rw [hex]
    refine ⟨?_, ?_, ?_⟩
    · refine List.Nodup.append hnd (List.nodup_singleton _) ?_
      intro v hv hv1
      rw [List.mem_singleton.1 hv1] at hv
      have := hfix _ hv
      rw [hfree] at this
      exact Bool.noConfusion this
    · intro v hv
      rcases List.mem_append.1 hv with hv | hv
      · exact containsKey_expand_mono (hfix v hv)
      · rw [List.mem_singleton.1 hv]
        exact containsKey_expand_start g st
    · intro hwf hs v hv
      rcases List.mem_append.1 hv with hv | hv
      · exact hlt hwf hs v hv
      · rw [List.mem_singleton.1 hv]
        exact isWalk_lt hwf hs hw.1
  | true =>
    have hex : (logIteration g st log).expanded = log.expanded := by
      simp [logIteration, hfree]
    rw [hex]
    exact ⟨hnd, fun v hv => containsKey_expand_mono (hfix v hv), hlt⟩

/-- C11: in every finite graph and for every pair of nodes the search loop
of `findShortestPath` terminates: given at least `searchFuel g` iterations
it returns, after at most `searchFuel g` iterations, either because it has
reached the finish node (with a walk from the start to the finish) or
because the priority queue is exhausted (with the empty path).  No node is
expanded twice; in a well-formed graph the expanded nodes are nodes of the
graph, so there are at most as many expansions as nodes. -/
theorem searchLoop_terminates (g : PathfinderGraph) (s t : Nat) (fuel : Nat)
    (hfuel : searchFuel g ≤ fuel) :
    ∃ r, findShortestPathRun fuel g s t = some r ∧
      findShortestPath fuel g s t = some r.path ∧
      r.log.iterations ≤ searchFuel g ∧ r.log.expanded.Nodup ∧
      (WellFormed g → s < g.nodes.length → r.log.expanded.length ≤ g.nodes.length) ∧
      (r.reachedFinish = true → IsWalk g s t r.path) ∧
      (r.reachedFinish = false → r.path = []) := by
  have hrun := searchRun_rule g t (fun st log => WalkInv g s st ∧ ExpandInv g s st log)
    (fun r => r.log.iterations ≤ searchFuel g ∧ r.log.expanded.Nodup ∧
      (WellFormed g → s < g.nodes.length → r.log.expanded.length ≤ g.nodes.length) ∧
      (r.reachedFinish = true → IsWalk g s t r.path) ∧ (r.reachedFinish = false → r.path = []))
    (fun st log hI z hz => ((walkInv_expand hI.1).2 z hz).1)
    (fun st log p q arc hI _ hd harc => by
      obtain ⟨h1, h2, h3⟩ := expanded_logIteration hI.1 hI.2
      refine ⟨walkInv_step hI.1 hd harc, h1, h2, h3, ?_⟩
      obtain ⟨pr, hperm, _⟩ := dequeue_some hd
      have hm := searchMeasure_expand_le g st
      have hl := hperm.length_eq
      have hi := hI.2.2.2.2
      simp only [searchMeasure, logIteration, List.length_cons] at hm hl hi ⊢
      omega)
    (fun st log hI hs => by
      obtain ⟨hnd, _, hlt, hi⟩ := hI.2
      refine ⟨by simp only; omega, hnd,
        fun hwf hs1 => length_le_of_nodup_of_lt hnd (hlt hwf hs1),
        fun _ => hs ▸ hI.1.1, fun h => Bool.noConfusion h⟩)
    (fun st log hI _ _ => by
      obtain ⟨h1, _, h3⟩ := expanded_logIteration hI.1 hI.2
      have hi := hI.2.2.2.2
      refine ⟨by simp only [logIteration]; omega, h1,
        fun hwf hs1 => length_le_of_nodup_of_lt h1 (h3 hwf hs1),
        fun h => Bool.noConfusion h, fun _ => rfl⟩)
    fuel ⟨s, [], [], []⟩ ⟨[], [], 0⟩
    ⟨walkInv_init g s, List.nodup_nil, fun v hv => absurd hv (List.not_mem_nil v),
      fun _ _ v hv => absurd hv (List.not_mem_nil v), by
        have := pending_nil g
        simp only [searchMeasure, List.length_nil]
        omega⟩
    (searchMeasure_init g s hfuel)
  obtain ⟨r, hr, hpost⟩ := hrun
  refine ⟨r, hr, ?_, hpost⟩
  have := searchRun_path g t fuel ⟨s, [], [], []⟩ ⟨[], [], 0⟩
  rw [hr] at this
  exact this.symm

theorem searchLoop_terminates_witness :
    ∃ r, findShortestPathRun 7 scenarioA 0 2 = some r ∧
      findShortestPath 7 scenarioA 0 2 = some r.path ∧
      r.log.iterations ≤ searchFuel scenarioA ∧ r.log.expanded.Nodup ∧
      (WellFormed scenarioA → 0 < scenarioA.nodes.length →
        r.log.expanded.length ≤ scenarioA.nodes.length) ∧
      (r.reachedFinish = true → IsWalk scenarioA 0 2 r.path) ∧
      (r.reachedFinish = false → r.path = []) :=
  searchLoop_terminates scenarioA 0 2 7 (by decide)

/-! ## Simple paths in the search loop -/

theorem pathNodes_snoc (s : Nat) (p : Path) (a : Arc) :
    pathNodes s (p ++ [a]) = pathNodes s p ++ [a.finish] := by
  simp [pathNodes]

theorem enqueueArcs_append (g : PathfinderGraph) (fixed : List (String × Int)) (path : Path)
    (arcs : List Arc) (q : PriorityQueue Path) :
    enqueueArcs g fixed path arcs q = q ++ enqueueArcs g fixed path arcs [] := by
  induction arcs generalizing q with
  | nil => simp [enqueueArcs]
  | cons a rest ih =>
    unfold enqueueArcs
    split
    · rw [ih (enqueue q _ _), ih (enqueue [] _ _)]
      simp [enqueue]
    · exact ih q

/-- The record `newPaths` is what the iteration appends to the queue. -/
theorem expand_queue (g : PathfinderGraph) (st : SearchState) :
    (expand g st).mainQueue.map Prod.fst = st.mainQueue.map Prod.fst ++ newPaths g st := by
  cases hfree : containsKey st.fixed (g.name st.start) with
  | false =>
    rw [expand_of_free hfree]
    simp only [newPaths, hfree, Bool.not_false, if_true]
    rw [enqueueArcs_append, List.map_append]
  | true =>
    rw [expand_of_fixed hfree]
    simp [newPaths, hfree]

theorem mem_newPaths {g : PathfinderGraph} {st : SearchState} {p : Path}
    (h : p ∈ newPaths g st) : ∃ pr, (p, pr) ∈ (expand g st).mainQueue := by
  have h1 : p ∈ (expand g st).mainQueue.map Prod.fst := by
    rw [expand_queue]
    exact List.mem_append_right _ h
  obtain ⟨z, hz, rfl⟩ := List.mem_map.1 h1
  exact ⟨z.2, hz⟩

theorem simpleInv_init (g : PathfinderGraph) (s : Nat) : SimpleInv g s ⟨s, [], [], []⟩ := by
  refine ⟨⟨by simp [IsSimple, pathNodes], fun v hv => Or.inl ?_⟩, fun z hz => by simp at hz⟩
  simpa [pathNodes] using hv

theorem simpleInv_expand {g : PathfinderGraph} {s : Nat} {st : SearchState}
    (h : SimpleInv g s st) : SimpleInv g s (expand g st) := by
  obtain ⟨⟨hsim, hfix⟩, hq⟩ := h
  have hcur : ∀ v ∈ pathNodes s st.path,
      containsKey (expand g st).fixed (g.name v) = true := by
    intro v hv
    rcases hfix v hv with rfl | h1
    · exact containsKey_expand_start g st
    · exact containsKey_expand_mono h1
  have hold : ∀ z ∈ st.mainQueue, IsSimple s z.1 ∧
      ∀ v ∈ pathNodes s z.1,
        v = endNode s z.1 ∨ containsKey (expand g st).fixed (g.name v) = true := by
    intro z hz
    refine ⟨(hq z hz).1, fun v hv => ?_⟩
    rcases (hq z hz).2 v hv with h1 | h1
    · exact Or.inl h1
    · exact Or.inr (containsKey_expand_mono h1)
  cases hfree : containsKey st.fixed (g.name st.start) with
  | false =>
    rw [expand_of_free hfree] at hcur ⊢
    refine ⟨⟨hsim, fun v hv => Or.inr (hcur v hv)⟩, fun z hz => ?_⟩
    rcases mem_enqueueArcs.1 hz with hz | ⟨a, _, hfin, rfl⟩
    · have := hold z hz
      rw [expand_of_free hfree] at this
      exact this
    · simp only [pathNodes_snoc, endNode_snoc]
      refine ⟨?_, fun v hv => ?_⟩
      · unfold IsSimple
        rw [pathNodes_snoc]
        refine List.Nodup.append hsim (List.nodup_singleton _) ?_
        intro v hv hv1
        rw [List.mem_singleton.1 hv1] at hv
        have := hcur _ hv
        simp only at this
        rw [hfin] at this
        exact Bool.noConfusion this
      · rcases List.mem_append.1 hv with hv | hv
        · exact Or.inr (hcur v hv)
        · exact Or.inl (List.mem_singleton.1 hv)
  | true =>
    rw [expand_of_fixed hfree] at hcur ⊢
    exact ⟨⟨hsim, fun v hv => Or.inr (hcur v hv)⟩, hq⟩

theorem simpleInv_dequeue {g : PathfinderGraph} {s : Nat} {st : SearchState} {p : Path}
    {q : PriorityQueue Path} {arc : Arc} (h : SimpleInv g s st)
    (hd : dequeue st.mainQueue = some (p, q)) (harc : p.getLast? = some arc) :
    SimpleInv g s ⟨arc.finish, p, q, st.fixed⟩ := by
  obtain ⟨pr, hperm, _⟩ := dequeue_some hd
  have hp := h.2 (p, pr) (hperm.subset (List.mem_cons_self _ _))
  rw [endNode_of_getLast? harc] at hp
  exact ⟨hp, fun z hz => h.2 z (hperm.subset (List.mem_cons_of_mem _ hz))⟩

theorem enqueuedInv_logIteration {g : PathfinderGraph} {s : Nat} {st : SearchState}
    {log : SearchLog} (hw : WalkInv g s st) (hsim : SimpleInv g s st)
    (h : EnqueuedInv g s log) : EnqueuedInv g s (logIteration g st log) := by
  intro p hp
  rcases List.mem_append.1 hp with hp | hp
  · exact h p hp
  · obtain ⟨pr, hz⟩ := mem_newPaths hp
    exact ⟨((simpleInv_expand hsim).2 _ hz).1, ((walkInv_expand hw).2 _ hz).2.1⟩

/-- A simple walk in a well-formed graph holds no arc from a node to itself
and no arc that ends at the start node. -/
theorem simple_walk_arcs {g : PathfinderGraph} (hwf : WellFormed g) {s t : Nat} {p : Path}
    (hs : s < g.nodes.length) (hw : IsWalk g s t p) (hsim : IsSimple s p) :
    ∀ a ∈ p, a.start ≠ a.finish ∧ a.finish ≠ s := by
  induction p generalizing s with
  | nil => intro a ha; simp at ha
  | cons b w ih =>
    obtain ⟨hb, hrest⟩ := hw
    obtain ⟨hstart, hfin⟩ := hwf s hs b hb
    have hnd : (s :: b.finish :: w.map Arc.finish).Nodup := by
      simpa [IsSimple, pathNodes] using hsim
    obtain ⟨hs1, hnd1⟩ := List.nodup_cons.1 hnd
    intro a ha
    rcases List.mem_cons.1 ha with rfl | ha
    · refine ⟨?_, ?_⟩
      · rw [hstart]
        exact fun h => hs1 (h ▸ List.mem_cons_self _ _)
      · exact fun h => hs1 (h ▸ List.mem_cons_self _ _)
    · refine ⟨(ih hfin hrest hnd1 a ha).1, ?_⟩
      intro h
      exact hs1 (List.mem_cons_of_mem _ (List.mem_map.2 ⟨a, ha, h⟩))

/-- C13: every path that `findShortestPath` enqueues or returns is simple:
it visits no node twice.  In a well-formed graph, for a search that starts
at a node of the graph, such a path therefore holds no arc from a node to
itself and no arc that returns to the start node.  (The names of the nodes
need not be unique for this.) -/
theorem findShortestPath_paths_simple (g : PathfinderGraph) (s t : Nat) (fuel : Nat)
    (hfuel : searchFuel g ≤ fuel) :
    ∃ r, findShortestPathRun fuel g s t = some r ∧
      findShortestPath fuel g s t = some r.path ∧
      (∀ p, p = r.path ∨ p ∈ r.log.enqueued → IsSimple s p) ∧
      (WellFormed g → s < g.nodes.length →
        ∀ p, p = r.path ∨ p ∈ r.log.enqueued →
          ∀ a ∈ p, a.start ≠ a.finish ∧ a.finish ≠ s) := by
  have hrun := searchRun_rule g t
    (fun st log => WalkInv g s st ∧ SimpleInv g s st ∧ EnqueuedInv g s log)
    (fun r => ∀ p, p = r.path ∨ p ∈ r.log.enqueued →
      IsSimple s p ∧ IsWalk g s (endNode s p) p)
    (fun st log hI z hz => ((walkInv_expand hI.1).2 z hz).1)
    (fun st log p q arc hI _ hd harc =>
      ⟨walkInv_step hI.1 hd harc, simpleInv_dequeue (simpleInv_expand hI.2.1) hd harc,
        enqueuedInv_logIteration hI.1 hI.2.1 hI.2.2⟩)
    (fun st log hI _ p hp => by
      rcases hp with rfl | hp
      · refine ⟨hI.2.1.1.1, ?_⟩
        have := hI.1.1
        rw [isWalk_endNode this]
        exact this
      · exact hI.2.2 p hp)
    (fun st log hI _ _ p hp => by
      rcases hp with rfl | hp
      · exact ⟨by simp [IsSimple, pathNodes], rfl⟩
      · exact enqueuedInv_logIteration hI.1 hI.2.1 hI.2.2 p hp)
    fuel ⟨s, [], [], []⟩ ⟨[], [], 0⟩
    ⟨walkInv_init g s, simpleInv_init g s, fun p hp => absurd hp (List.not_mem_nil p)⟩
    (searchMeasure_init g s hfuel)
  obtain ⟨r, hr, hpost⟩ := hrun
  have hpath := searchRun_path g t fuel ⟨s, [], [], []⟩ ⟨[], [], 0⟩
  rw [hr] at hpath
  exact ⟨r, hr, hpath.symm, fun p hp => (hpost p hp).1,
    fun hwf hs p hp => simple_walk_arcs hwf hs (hpost p hp).2 (hpost p hp).1⟩

theorem findShortestPath_paths_simple_witness :
    ∃ r, findShortestPathRun 7 scenarioA 0 2 = some r ∧
      findShortestPath 7 scenarioA 0 2 = some r.path ∧
      (∀ p, p = r.path ∨ p ∈ r.log.enqueued → IsSimple 0 p) ∧
      (WellFormed scenarioA → 0 < scenarioA.nodes.length →
        ∀ p, p = r.path ∨ p ∈ r.log.enqueued →
          ∀ a ∈ p, a.start ≠ a.finish ∧ a.finish ≠ 0) :=
  findShortestPath_paths_simple scenarioA 0 2 7 (by decide)

/-! ## The buckets are a partition -/

theorem linked_of_joins {g : PathfinderGraph} {arcs : List Arc} {a : Arc} {x y : String}
    (ha : a ∈ arcs) (hj : Joins g a x y) : Linked g arcs x y :=
  Relation.TransGen.single ⟨a, ha, hj⟩

theorem linked_trans {g : PathfinderGraph} {arcs : List Arc} {x y z : String}
    (h1 : Linked g arcs x y) (h2 : Linked g arcs y z) : Linked g arcs x z :=
  Relation.TransGen.trans h1 h2

theorem linked_symm {g : PathfinderGraph} {arcs : List Arc} {x y : String}
    (h : Linked g arcs x y) : Linked g arcs y x := by
  induction h with
  | single hab =>
    obtain ⟨a, ha, hj⟩ := hab
    exact linked_of_joins ha (joins_symm hj)
  | tail _ hab ih =>
    obtain ⟨a, ha, hj⟩ := hab
    exact linked_trans (linked_of_joins ha (joins_symm hj)) ih

theorem linked_mono {g : PathfinderGraph} {arcs1 arcs2 : List Arc}
    (h : ∀ a ∈ arcs1, a ∈ arcs2) {x y : String} (hl : Linked g arcs1 x y) :
    Linked g arcs2 x y :=
  Relation.TransGen.mono (fun _ _ ⟨a, ha, hj⟩ => ⟨a, h a ha, hj⟩) hl

/-- Two different cities are linked exactly when they are connected. -/
theorem linked_iff_connected {g : PathfinderGraph} {arcs : List Arc} {x y : String}
    (hxy : x ≠ y) : Linked g arcs x y ↔ Connected g arcs x y := by
  constructor
  · exact fun h => Relation.TransGen.to_reflTransGen h
  · intro h
    rcases Relation.reflTransGen_iff_eq_or_transGen.1 h with h1 | h1
    · exact absurd h1.symm hxy
    · exact h1

theorem setUnion_ne_nil {a b : List String} {z : String} (h : z ∈ a ∨ z ∈ b) :
    setUnion a b ≠ [] :=
  List.ne_nil_of_mem (mem_setUnion.2 h)

/-- A call of `findBucketWithCities` creates no empty bucket. -/
theorem findBucketWithCities_nonempty (arc : Arc) (vis : List (List String)) (s f : String)
    (path : Path) (h : ∀ b ∈ vis, b ≠ []) :
    ∀ b ∈ (findBucketWithCities arc vis s f path).1, b ≠ [] := by
  have hout := findBucketWithCities_outcome arc vis s f path
  unfold BucketOutcome at hout
  rcases hout with ⟨_, hres⟩ | ⟨k0, k1, _, _, hone0, _, hres⟩ | ⟨k0, _, _, _, hres⟩ | ⟨_, hres⟩
  · rw [hres]
    exact h
  · rw [hres]
    intro b hb
    rcases List.mem_or_eq_of_mem_set (List.mem_of_mem_eraseIdx hb) with hb | rfl
    · exact h b hb
    · rcases hone0 with h1 | h1
      · exact setUnion_ne_nil (Or.inl h1.1)
      · exact setUnion_ne_nil (Or.inl h1.2)
  · rw [hres]
    intro b hb
    rcases List.mem_or_eq_of_mem_set hb with hb | rfl
    · exact h b hb
    · exact List.ne_nil_of_mem (mem_setAdd.2 (Or.inr rfl))
  · rw [hres]
    intro b hb
    rcases List.mem_append.1 hb with hb | hb
    · exact h b hb
    · rw [List.mem_singleton.1 hb]
      exact List.ne_nil_of_mem (mem_setAdd.2 (Or.inr rfl))

theorem near_linked {g : PathfinderGraph} {vis : List (List String)} {path : Path}
    {a : Arc} (hs : ∀ x y, SameBucket vis x y → Linked g path x y) {z : String}
    (h : Near vis (g.name a.start) (g.name a.finish) z) :
    Linked g (path ++ [a]) z (g.name a.start) := by
  have hsub : ∀ b ∈ path, b ∈ path ++ [a] := fun b hb => List.mem_append_left _ hb
  have ha : Linked g (path ++ [a]) (g.name a.start) (g.name a.finish) :=
    linked_of_joins (List.mem_append_right _ (List.mem_singleton.2 rfl)) (Or.inl ⟨rfl, rfl⟩)
  rcases h with rfl | rfl | h | h
  · exact linked_trans ha (linked_symm ha)
  · exact linked_symm ha
  · exact linked_mono hsub (hs _ _ h)
  · exact linked_trans (linked_mono hsub (hs _ _ h)) (linked_symm ha)

/-- Every call of `findBucketWithCities` preserves the partition. -/
theorem isPartition_step {g : PathfinderGraph} (arc : Arc) {vis : List (List String)}
    {path : Path} (h : IsPartition g vis path) :
    IsPartition g
      (findBucketWithCities arc vis (g.name arc.start) (g.name arc.finish) path).1
      (findBucketWithCities arc vis (g.name arc.start) (g.name arc.finish) path).2 := by
  have hst := findBucketWithCities_step arc vis (g.name arc.start) (g.name arc.finish) path
    h.disjoint
  have hne := findBucketWithCities_nonempty arc vis (g.name arc.start) (g.name arc.finish)
    path h.nonempty
  rcases hst.cases with ⟨_, hres⟩ | ⟨_, hpath, hnear⟩
  · rw [hres]
    exact h
  · refine ⟨hne, hst.disjoint, fun x y => ⟨fun hxy => ?_, fun hl => ?_⟩⟩
    · rw [hpath]
      rcases hnear x y hxy with h1 | ⟨h1, h2⟩
      · exact linked_mono (fun b hb => List.mem_append_left _ hb) ((h.classes x y).1 h1)
      · exact linked_trans (near_linked (fun x y => (h.classes x y).1) h1)
          (linked_symm (near_linked (fun x y => (h.classes x y).1) h2))
    · rw [hpath] at hl
      induction hl with
      | single hab =>
        obtain ⟨b, hb, hj⟩ := hab
        have hsb : SameBucket
            (findBucketWithCities arc vis (g.name arc.start) (g.name arc.finish) path).1
            (g.name b.start) (g.name b.finish) := by
          rcases List.mem_append.1 hb with hb | hb
          · exact hst.mono _ _ ((h.classes _ _).2 (linked_of_joins hb (Or.inl ⟨rfl, rfl⟩)))
          · rw [List.mem_singleton.1 hb]
            exact hst.joined
        rcases hj with ⟨rfl, rfl⟩ | ⟨rfl, rfl⟩
        · exact hsb
        · exact sameBucket_symm hsb
      | tail _ hab ih =>
        obtain ⟨b, hb, hj⟩ := hab
        have hsb : SameBucket
            (findBucketWithCities arc vis (g.name arc.start) (g.name arc.finish) path).1
            (g.name b.start) (g.name b.finish) := by
          rcases List.mem_append.1 hb with hb | hb
          · exact hst.mono _ _ ((h.classes _ _).2 (linked_of_joins hb (Or.inl ⟨rfl, rfl⟩)))
          · rw [List.mem_singleton.1 hb]
            exact hst.joined
        refine sameBucket_trans hst.disjoint ih ?_
        rcases hj with ⟨rfl, rfl⟩ | ⟨rfl, rfl⟩
        · exact hsb
        · exact sameBucket_symm hsb

theorem isPartition_nil (g : PathfinderGraph) : IsPartition g [] [] := by
  refine ⟨fun b hb => absurd hb (List.not_mem_nil b), List.Pairwise.nil,
    fun x y => ⟨fun ⟨b, hb, _⟩ => absurd hb (List.not_mem_nil b), fun hl => ?_⟩⟩
  induction hl with
  | single hab =>
    obtain ⟨a, ha, _⟩ := hab
    exact absurd ha (List.not_mem_nil a)
  | tail _ hab _ =>
    obtain ⟨a, ha, _⟩ := hab
    exact absurd ha (List.not_mem_nil a)

theorem isPartition_processLoop (g : PathfinderGraph) :
    ∀ (k : Nat) (q : PriorityQueue Arc) (vis : List (List String)) (path : Path),
      IsPartition g vis path →
      IsPartition g (processLoop g k q vis path).1 (processLoop g k q vis path).2 := by
  intro k
  induction k with
  | zero => intro q vis path h; exact h
  | succ k ih =>
    intro q vis path h
    rw [processLoop]
    cases hd : dequeue q with
    | none => exact h
    | some aq =>
      obtain ⟨a, q1⟩ := aq
      exact ih q1 _ _ (isPartition_step a h)

/-- The loop stopped after `k` iterations has handled the first `k` arcs of
the order of dequeuing. -/
theorem processLoop_eq_handleArcs (g : PathfinderGraph) :
    ∀ (k : Nat) (q : PriorityQueue Arc) (vis : List (List String)) (path : Path),
      processLoop g k q vis path = handleArcs g (dequeueFirst k q) vis path := by
  intro k
  induction k with
  | zero => intro q vis path; rfl
  | succ k ih =>
    intro q vis path
    rw [processLoop, dequeueFirst]
    cases hd : dequeue q with
    | none => rfl
    | some aq =>
      obtain ⟨a, q1⟩ := aq
      exact ih q1 _ _

theorem length_dequeue {α : Type} {q q1 : PriorityQueue α} {a : α}
    (h : dequeue q = some (a, q1)) : q1.length + 1 = q.length := by
  obtain ⟨pr, hperm, _⟩ := dequeue_some h
  simpa using hperm.length_eq

/-- The arcs handled in `k` iterations are a prefix of the arcs in the order
of dequeuing. -/
theorem dequeueFirst_initial {α : Type} :
    ∀ (k : Nat) (q : PriorityQueue α), dequeueFirst k q <+: dequeueFirst q.length q := by
  intro k
  induction k with
  | zero => intro q; exact List.nil_prefix
  | succ k ih =>
    intro q
    cases hd : dequeue q with
    | none =>
      rw [dequeueFirst, hd]
      exact List.nil_prefix
    | some aq =>
      obtain ⟨a, q1⟩ := aq
      have hl := length_dequeue hd
      rw [dequeueFirst, hd, ← hl, dequeueFirst, hd]
      exact (List.prefix_cons_inj a).2 (ih q1)

/-- C12: the buckets `visitedLocations` are a partition whenever
`processInOrderOfCost` has handled a prefix of the arcs in the order of
dequeuing: no bucket is empty, the buckets are pairwise disjoint, and two
names lie in the same bucket exactly when they are linked by (one or more)
arcs accepted so far; for two different names that is: exactly when they
are connected by accepted arcs.  Every call of `findBucketWithCities`
preserves this. -/
theorem buckets_partition (g : PathfinderGraph) :
    (∀ (arc : Arc) (vis : List (List String)) (path : Path), IsPartition g vis path →
      IsPartition g
        (findBucketWithCities arc vis (g.name arc.start) (g.name arc.finish) path).1
        (findBucketWithCities arc vis (g.name arc.start) (g.name arc.finish) path).2) ∧
    (∀ (q : PriorityQueue Arc) (k : Nat),
      dequeueFirst k q <+: dequeueFirst q.length q ∧
      processLoop g k q [] [] = handleArcs g (dequeueFirst k q) [] [] ∧
      IsPartition g (processLoop g k q [] []).1 (processLoop g k q [] []).2) ∧
    (∀ (vis : List (List String)) (path : Path), IsPartition g vis path →
      ∀ x y, x ≠ y → (SameBucket vis x y ↔ Connected g path x y)) :=
  ⟨fun arc _ _ h => isPartition_step arc h,
    fun q k => ⟨dequeueFirst_initial k q, processLoop_eq_handleArcs g k q [] [],
      isPartition_processLoop g k q [] [] (isPartition_nil g)⟩,
    fun _ _ h x y hxy => (h.classes x y).trans (linked_iff_connected hxy)⟩

theorem buckets_partition_witness :
    IsPartition scenarioA
        (findBucketWithCities ⟨0, 1, 1⟩ [] (scenarioA.name 0) (scenarioA.name 1) []).1
        (findBucketWithCities ⟨0, 1, 1⟩ [] (scenarioA.name 0) (scenarioA.name 1) []).2 ∧
      (SameBucket (processLoop scenarioA 3 (arcQueue scenarioA.arcSet) [] []).1 "A" "C" ↔
        Connected scenarioA (processLoop scenarioA 3 (arcQueue scenarioA.arcSet) [] []).2
          "A" "C") :=
  ⟨(buckets_partition scenarioA).1 ⟨0, 1, 1⟩ [] []
      ((buckets_partition scenarioA).2.1 [] 0).2.2,
    (buckets_partition scenarioA).2.2 _ _
      ((buckets_partition scenarioA).2.1 (arcQueue scenarioA.arcSet) 3).2.2 "A" "C"
      (by decide)⟩

/-! ## Optimality of the search

The search compares the total costs that it computes in double arithmetic.
The path that it returns is optimal with respect to these
(`findShortestPath_correct`); it is optimal with respect to the exact sums
when the sums are computed without rounding. -/

theorem isWalk_arcs_mem {g : PathfinderGraph} {s t : Nat} {w : List Arc}
    (h : IsWalk g s t w) : ∀ a ∈ w, ∃ v, v < g.nodes.length ∧ a ∈ g.arcs v := by
  induction w generalizing s with
  | nil => simp
  | cons b w ih =>
    intro a ha
    rcases List.mem_cons.1 ha with rfl | ha
    · by_cases hs : s < g.nodes.length
      · exact ⟨s, hs, h.1⟩
      · have := h.1
        rw [arcs_eq_nil_of_le g (not_lt.1 hs)] at this
        simp at this
    · exact ih h.2 a ha

theorem totalCost_le_length_mul {p : Path} {C : Int} (h : ∀ a ∈ p, a.cost ≤ C) :
    totalCost p ≤ p.length * C := by
  induction p with
  | nil => simp [totalCost]
  | cons a p ih =>
    have h1 := h a (List.mem_cons_self _ _)
    have h2 := ih (fun b hb => h b (List.mem_cons_of_mem _ hb))
    simp only [totalCost, List.map_cons, List.sum_cons, List.length_cons, Nat.cast_add,
      Nat.cast_one] at h2 ⊢
    linarith

theorem totalCost_nonneg {p : Path} (h : ∀ a ∈ p, 0 ≤ a.cost) : 0 ≤ totalCost p := by
  induction p with
  | nil => simp [totalCost]
  | cons a p ih =>
    have h1 := h a (List.mem_cons_self _ _)
    have h2 := ih (fun b hb => h b (List.mem_cons_of_mem _ hb))
    simp only [totalCost, List.map_cons, List.sum_cons] at h2 ⊢
    omega

theorem dvd_totalCost {p : Path} {d : Int} (h : ∀ a ∈ p, d ∣ a.cost) : d ∣ totalCost p := by
  induction p with
  | nil => simp [totalCost]
  | cons a p ih =>
    have h1 := h a (List.mem_cons_self _ _)
    have h2 := ih (fun b hb => h b (List.mem_cons_of_mem _ hb))
    simp only [totalCost, List.map_cons, List.sum_cons] at h2 ⊢
    exact dvd_add h1 h2

/-- A sum of non-negative multiples of `2^j` that stays below `2^(53+j)` is
computed without rounding. -/
theorem totalCostDouble_eq_totalCost {p : Path} {j : Nat}
    (hfin : 53 + j ≤ infinityExponent)
    (h : ∀ a ∈ p, 0 ≤ a.cost ∧ ((2 ^ j : Nat) : Int) ∣ a.cost)
    (hlt : totalCost p < ((2 ^ (53 + j) : Nat) : Int)) : totalCostDouble p = totalCost p := by
  induction p using List.reverseRecOn with
  | nil => rfl
  | append_singleton p a ih =>
    have hp : ∀ b ∈ p, 0 ≤ b.cost ∧ ((2 ^ j : Nat) : Int) ∣ b.cost :=
      fun b hb => h b (List.mem_append_left _ hb)
    have ha := h a (by simp)
    have h0 := totalCost_nonneg (fun b hb => (hp b hb).1)
    rw [totalCost_snoc] at hlt ⊢
    rw [totalCostDouble_snoc, ih hp (by omega)]
    refine doubleAdd_of_dvd h0 ha.1 ?_ ?_ hfin
    · have := dvd_add (dvd_totalCost (fun b hb => (hp b hb).2)) ha.2
      simpa using this
    · simpa using hlt

theorem simple_walk_length {g : PathfinderGraph} (hwf : WellFormed g) {s t : Nat} {p : Path}
    (hs : s < g.nodes.length) (hw : IsWalk g s t p) (hsim : IsSimple s p) :
    p.length < g.nodes.length := by
  have hlt : ∀ v ∈ pathNodes s p, v < g.nodes.length := by
    clear hsim
    induction p generalizing s with
    | nil => intro v hv; simp [pathNodes] at hv; omega
    | cons a w ih =>
      intro v hv
      simp only [pathNodes, List.map_cons, List.mem_cons] at hv
      rcases hv with rfl | hv
      · exact hs
      · have := ih (hwf s hs a hw.1).2 hw.2 v
        simp only [pathNodes, List.mem_cons] at this
        exact this hv
  have := length_le_of_nodup_of_lt hsim hlt
  simp only [pathNodes, List.length_cons, List.length_map] at this
  omega

/-- The search returns a simple path. -/
theorem findShortestPath_simple (g : PathfinderGraph) (s t : Nat) (fuel : Nat)
    (hfuel : searchFuel g ≤ fuel) :
    ∃ p, findShortestPath fuel g s t = some p ∧ IsSimple s p := by
  apply searchLoop_rule g t (fun st => WalkInv g s st ∧ SimpleInv g s st)
    (fun p => IsSimple s p)
  · exact fun st hI z hz => ((walkInv_expand hI.1).2 z hz).1
  · exact fun st p q arc hI _ hd harc =>
      ⟨walkInv_step hI.1 hd harc, simpleInv_dequeue (simpleInv_expand hI.2) hd harc⟩
  · exact fun st hI _ => hI.2.1.1
  · exact fun _ _ _ _ => by simp [IsSimple, pathNodes]
  · exact ⟨walkInv_init g s, simpleInv_init g s⟩
  · exact searchMeasure_init g s hfuel

/-- C1, as the claim states it, fails: the map `roundingMap` is well formed,
has unique names and non-negative costs, and `findShortestPath (A, E)`
returns the path A -> B -> C -> D -> E of total cost `2^53 + 3`, while the
arc A -> E is a walk from A to E of total cost `2^53 + 2`.  (The queue
holds the four-arc path under the double `2^53`, the sum as the program
computes it.) -/
theorem findShortestPath_rounding_counterexample :
    WellFormed roundingMap ∧ UniqueNames roundingMap ∧ NonNegCosts roundingMap ∧
      findShortestPath (searchFuel roundingMap) roundingMap 0 4 =
        some [⟨0, 1, 9007199254740992⟩, ⟨1, 2, 1⟩, ⟨2, 3, 1⟩, ⟨3, 4, 1⟩] ∧
      IsWalk roundingMap 0 4 [⟨0, 4, 9007199254740994⟩] ∧
      ¬ totalCost [⟨0, 1, 9007199254740992⟩, ⟨1, 2, 1⟩, ⟨2, 3, 1⟩, ⟨3, 4, 1⟩] ≤
          totalCost [⟨0, 4, 9007199254740994⟩] := by
  decide

/-- C1, amended: in a finite well-formed graph with unique node names and
non-negative arc costs whose sums are not rounded (`SumsExact`: the costs
are whole multiples of some `2^j`, at most `C`, and the number of nodes times
`C` is below `2^(53+j)`), for distinct nodes `s` and `t` joined by some walk,
`findShortestPath (s, t)` returns a path whose total cost is at most the
total cost of every walk from `s` to `t`. -/
theorem findShortestPath_optimal_unrounded (g : PathfinderGraph) (s t : Nat)
    (hwf : WellFormed g) (huniq : UniqueNames g) (hnn : NonNegCosts g)
    (j C : Nat) (hexact : SumsExact g j C)
    (hs : s < g.nodes.length) (ht : t < g.nodes.length) (hne : s ≠ t)
    (hreach : ∃ w, IsWalk g s t w) (fuel : Nat) (hfuel : searchFuel g ≤ fuel) :
    ∃ p, findShortestPath fuel g s t = some p ∧
      ∀ w, IsWalk g s t w → totalCost p ≤ totalCost w := by
  obtain ⟨p, h1, hp0, hpw, h2⟩ := findShortestPath_correct hwf huniq hs ht hne hreach fuel hfuel
  obtain ⟨p1, h3, hsim⟩ := findShortestPath_simple g s t fuel hfuel
  rw [h1] at h3
  obtain rfl : p = p1 := Option.some.inj h3
  obtain ⟨hfin, hsmall, harcs⟩ := hexact
  have hfin : 53 + j ≤ infinityExponent := hfin
  refine ⟨p, h1, fun w hw => ?_⟩
  have hmem : ∀ {w : List Arc}, IsWalk g s t w →
      ∀ a ∈ w, 0 ≤ a.cost ∧ ((2 ^ j : Nat) : Int) ∣ a.cost := by
    intro w hw a ha
    obtain ⟨v, hv, hav⟩ := isWalk_arcs_mem hw a ha
    exact ⟨hnn v hv a hav, (harcs v hv a hav).1⟩
  have hbound : totalCost p < ((2 ^ (53 + j) : Nat) : Int) := by
    have hC : ∀ a ∈ p, a.cost ≤ (C : Int) := by
      intro a ha
      obtain ⟨v, hv, hav⟩ := isWalk_arcs_mem hpw a ha
      exact (harcs v hv a hav).2
    have hlen := simple_walk_length hwf hs hpw hsim
    have h4 := totalCost_le_length_mul hC
    have h5 : (p.length : Int) * C ≤ (g.nodes.length : Int) * C :=
      Int.mul_le_mul_of_nonneg_right (by omega) (Int.ofNat_nonneg C)
    have h6 : ((g.nodes.length * C : Nat) : Int) < ((2 ^ (53 + j) : Nat) : Int) :=
      Int.ofNat_lt.2 hsmall
    rw [Nat.cast_mul] at h6
    omega
  have hpe := totalCostDouble_eq_totalCost hfin (hmem hpw) hbound
  by_cases hwlt : totalCost w < ((2 ^ (53 + j) : Nat) : Int)
  · have hwe := totalCostDouble_eq_totalCost hfin (hmem hw) hwlt
    have := h2 hnn w hw
    rw [hpe, hwe] at this
    exact this
  · omega

theorem findShortestPath_optimal_unrounded_witness :
    ∃ p, findShortestPath 7 scenarioA 0 2 = some p ∧
      ∀ w, IsWalk scenarioA 0 2 w → totalCost p ≤ totalCost w :=
  findShortestPath_optimal_unrounded scenarioA 0 2 (by decide) (by decide) (by decide) 0 5
    (by decide) (by decide) (by decide) (by decide) ⟨[⟨0, 2, 5⟩], by decide⟩ 7 (by decide)

end Pathfinder
